import Mathlib

/-!
# Dense matrix kernel (`Matrix.cpp`, `Allocators.cpp`)

A shallow embedding of the matrix routines (`at`, `copy`, `multiply`, `pivot`,
`abs`, `inverse`) and of the bump allocator (`allocate`, `deallocate`).

* `double` values are rationals (`ℚ`); `std::numeric_limits<double>::epsilon()` is
  `2⁻⁵²`. The routines `abs`, `inverse`, `multiply` compute exactly; the section on
  double arithmetic has `abs` and `inverse` with every result rounded to the nearest
  `double` (`Mat.absRounded`, `inverseRounded`, `roundDouble`).
* `size_t` values are natural numbers; the allocator section reduces modulo `2^64`
  wherever the C++ arithmetic can wrap.
* A routine that can stop the program (`assert`, `std::exit`) returns `Except Err _`.
* The routines `copy`, `abs`, `inverse`, `multiply` are modelled on buffer contents, on
  the path where their allocations succeed; `Mat.absAlloc` and `inverseAlloc` are `abs`
  and `inverse` with their allocations and the exits taken when one fails.
-/

namespace Matrices

/-! ## Errors and loops -/

/-- The ways a routine can stop the program instead of returning. -/
inductive Err where
  /-- An `assert` failed. -/
  | assertion
  /-- The exit taken by `inverse`: "ERROR: matrix is not invertible." -/
  | notInvertible
  /-- The exit taken by `create_matrix` when `allocate` returns `NULL`, and by
  `malloc_or_panic` when `std::malloc` does. -/
  | allocation
  /-- A division by a divisor of magnitude below the machine epsilon. The source has no
  such check: only the guarded copies of the routines below report it. -/
  | division
deriving DecidableEq, Repr

/-- Runs `body i` for `count` consecutive indices starting at `i`. -/
def forUpAux {σ : Type} (body : Nat → σ → Except Err σ) : Nat → Nat → σ → Except Err σ
  | 0, _, s => .ok s
  | count + 1, i, s =>
    match body i s with
    | .ok s1 => forUpAux body count (i + 1) s1
    | .error e => .error e

/-- The loop `for (size_t i = lo; i < hi; i++) body`. -/
def forUp {σ : Type} (lo hi : Nat) (body : Nat → σ → Except Err σ) (s : σ) : Except Err σ :=
  forUpAux body (hi - lo) lo s

/-- The loop `for (size_t i = n; i-- > 0; ) body`: indices `n-1`, `n-2`, ..., `0`. -/
def forDown {σ : Type} (body : Nat → σ → Except Err σ) : Nat → σ → Except Err σ
  | 0, s => .ok s
  | n + 1, s =>
    match body n s with
    | .ok s1 => forDown body n s1
    | .error e => .error e

/-! ## Matrices (`Matrix.hpp`, `Matrix.cpp`) -/

/-- The struct `Mat`: a row-major buffer with its dimensions. The `allocator` field
is not part of the contents and is left out. -/
structure Mat where
  data : List ℚ
  rows : Nat
  cols : Nat
deriving DecidableEq, Repr

/-- Reads `data[p]`. -/
def Mat.load (matrix : Mat) (p : Nat) : ℚ := matrix.data.getD p 0

/-- Writes `data[p] = v`. -/
def Mat.store (matrix : Mat) (p : Nat) (v : ℚ) : Mat :=
  { matrix with data := matrix.data.set p v }

/-- The reference returned by `at(matrix, row, column)`: the `assert`, then the
position `row * cols + column` in the buffer. -/
def Mat.ref (matrix : Mat) (row column : Nat) : Except Err Nat :=
  if row < matrix.rows ∧ column < matrix.cols then .ok (row * matrix.cols + column)
  else .error .assertion

/-- Reading through `at(matrix, row, column)`. -/
def Mat.at_ (matrix : Mat) (row column : Nat) : Except Err ℚ :=
  match matrix.ref row column with
  | .ok p => .ok (matrix.load p)
  | .error e => .error e

/-- Assigning through `at(matrix, row, column) = v`. -/
def Mat.assign (matrix : Mat) (row column : Nat) (v : ℚ) : Except Err Mat :=
  match matrix.ref row column with
  | .ok p => .ok (matrix.store p v)
  | .error e => .error e

/-- The buffer contents after `create_matrix(rows, cols, _)` returns: `rows * cols`
elements, whose values the program does not rely on. The call of `allocate` and the
`size_t` arithmetic of its request are in `create_matrix_alloc`. -/
def create_matrix (rows cols : Nat) : Mat :=
  ⟨List.replicate (rows * cols) 0, rows, cols⟩

/-- The routine `copy`, on the path where `create_matrix` returns: the contents after
`memcpy` of `rows * cols` elements. The call of `allocate` and the exit taken when it
returns `NULL` are in `copyAlloc`. -/
def copy (matrix : Mat) : Mat :=
  let res := create_matrix matrix.rows matrix.cols
  { res with data := (List.range (matrix.rows * matrix.cols)).map matrix.load }

/-- The loop `for (size_t i = rows * cols; i-- > 0; ) data[i] = 0`. -/
def zeroFill (matrix : Mat) : Except Err Mat :=
  forDown (fun i m => .ok (m.store i 0)) (matrix.rows * matrix.cols) matrix

/-- The loop `for (k = lo; k < hi; k++) at(m, j, k) += factor * at(m, i, k)` shared by
`abs` and `inverse`. -/
def addScaledRow (m : Mat) (j i : Nat) (factor : ℚ) (lo hi : Nat) : Except Err Mat :=
  forUp lo hi (fun k m => do
    let y ← m.at_ i k
    let x ← m.at_ j k
    m.assign j k (x + factor * y)) m

/-- The routine `multiply`. -/
def multiply (left right : Mat) : Except Err Mat :=
  if left.cols ≠ right.rows then .error .assertion else do
  let res ← zeroFill (create_matrix left.rows right.cols)
  forUp 0 left.rows (fun i res =>
    forUp 0 left.cols (fun j res => do
      let factor ← left.at_ i j
      forUp 0 right.cols (fun k res => do
        let y ← right.at_ j k
        let x ← res.at_ i k
        res.assign i k (x + factor * y)) res) res) res

/-! ### Pivoting -/

def PIVOT_CLOSE_TO_ZERO : Nat := 0x1
def PIVOT_SWAPPED : Nat := 0x2

/-- The value of `std::numeric_limits<double>::epsilon()`. -/
def epsilon : ℚ := 1 / 2 ^ 52

/-- The scan loop of `pivot`; the state is `(best_value, best_column)`. -/
def pivotScan (matrix : Mat) (column : Nat) : Except Err (ℚ × Nat) :=
  forUp column matrix.cols (fun i best => do
    let x ← matrix.at_ column i
    let val := |x|
    if val > best.1 then pure (val, i) else pure best) (0, column)

/-- The loop of `pivot` exchanging two columns in every row. -/
def swapColumns (matrix : Mat) (column best_column : Nat) : Except Err Mat :=
  forUp 0 matrix.rows (fun i m => do
    let a ← m.at_ i column
    let b ← m.at_ i best_column
    let m ← m.assign i column b
    m.assign i best_column a) matrix

/-- The exchange `std::swap(perms[a], perms[b])`. -/
def swapPerms (perms : List Nat) (a b : Nat) : List Nat :=
  (perms.set a (perms.getD b 0)).set b (perms.getD a 0)

/-- The routine `pivot`; `perms = none` is the `NULL` pointer. Returns the flags, the
matrix and the permutation vector after the call. -/
def pivot (matrix : Mat) (column : Nat) (perms : Option (List Nat)) :
    Except Err (Nat × Mat × Option (List Nat)) :=
  if matrix.rows ≠ matrix.cols then .error .assertion else do
  let best ← pivotScan matrix column
  let best_value := best.1
  let best_column := best.2
  let is_close_to_zero := PIVOT_CLOSE_TO_ZERO * (if best_value < epsilon then 1 else 0)
  if column ≠ best_column then do
    let matrix ← swapColumns matrix column best_column
    pure (is_close_to_zero ||| PIVOT_SWAPPED, matrix,
      perms.map (fun p => swapPerms p column best_column))
  else
    pure (is_close_to_zero, matrix, perms)

/-! ### Determinant -/

/-- The variables of the main loop of `abs`; `stopped` records that the loop was
left by `break`. -/
structure AbsState where
  upper : Mat
  det : ℚ
  stopped : Bool
deriving DecidableEq, Repr

/-- The elimination of row `j` in `abs` at column `i`. -/
def absRow (i j : Nat) (upper : Mat) : Except Err Mat := do
  let a ← upper.at_ j i
  let b ← upper.at_ i i
  let factor := -a / b
  addScaledRow upper j i factor (i + 1) upper.cols

/-- One iteration of the main loop of `abs`. -/
def absStep (i : Nat) (s : AbsState) : Except Err AbsState :=
  if s.stopped then .ok s else do
  let r ← pivot s.upper i none
  let flags := r.1
  let upper := r.2.1
  if flags &&& PIVOT_CLOSE_TO_ZERO ≠ 0 then
    pure { upper := upper, det := 0, stopped := true }
  else do
    let det := if flags &&& PIVOT_SWAPPED ≠ 0 then -s.det else s.det
    let d ← upper.at_ i i
    let det := det * d
    let upper ← forUp (i + 1) upper.rows (absRow i) upper
    pure { upper := upper, det := det, stopped := false }

/-- The main loop of `abs`, run on the working copy. -/
def absLoop (matrix : Mat) : Except Err AbsState :=
  if matrix.rows ≠ matrix.cols then .error .assertion else
  let upper := copy matrix
  forUp 0 upper.cols absStep { upper := upper, det := 1, stopped := false }

/-- The routine `abs` (the determinant): the value it computes over exact arithmetic, on
the path where the working copy is allocated. The arithmetic of doubles is in
`Mat.absRounded`, the allocation and its exit in `Mat.absAlloc`, the statement
`delete[] upper.data` in `Mat.absOps`. -/
def Mat.abs (matrix : Mat) : Except Err ℚ :=
  match absLoop matrix with
  | .ok s => .ok s.det
  | .error e => .error e

/-! ### Inverse -/

/-- The elimination of row `j` in the forward pass of `inverse` at column `i`. -/
def forwardRow (i j : Nat) (lu : Mat) : Except Err Mat := do
  let a ← lu.at_ j i
  let b ← lu.at_ i i
  let factor := -a / b
  let lu ← lu.assign j i factor
  let lu ← addScaledRow lu j i factor (i + 1) lu.cols
  addScaledRow lu j i factor 0 i

/-- One iteration of the forward pass of `inverse`. -/
def forwardStep (i : Nat) (s : Mat × List Nat) : Except Err (Mat × List Nat) := do
  let r ← pivot s.1 i (some s.2)
  let flags := r.1
  let lu := r.2.1
  let perms := r.2.2.getD s.2
  if flags &&& PIVOT_CLOSE_TO_ZERO ≠ 0 then
    .error .notInvertible
  else do
    let lu ← forUp (i + 1) lu.rows (forwardRow i) lu
    pure (lu, perms)

/-- The elimination of row `j` in the backward pass of `inverse` at column `i`. -/
def backwardRow (i j : Nat) (lu : Mat) : Except Err Mat := do
  let a ← lu.at_ j i
  let b ← lu.at_ i i
  let factor := -a / b
  let lu ← lu.assign j i factor
  addScaledRow lu j i factor (i + 1) lu.cols

/-- One iteration of the backward pass of `inverse`. -/
def backwardStep (i : Nat) (lu : Mat) : Except Err Mat := do
  let lu ← forDown (backwardRow i) i lu
  let d ← lu.at_ i i
  let factor := 1 / d
  let lu ← lu.assign i i factor
  forUp (i + 1) lu.cols (fun j lu => do
    let x ← lu.at_ i j
    lu.assign i j (x * factor)) lu

/-- The block of `inverse` multiplying the lower and upper matrices into `tmp`. -/
def assemble (matrix lu : Mat) : Except Err Mat := do
  let tmp ← zeroFill (create_matrix matrix.rows matrix.cols)
  forUp 0 lu.rows (fun i tmp =>
    forUp i lu.cols (fun j tmp => do
      let factor ← lu.at_ i j
      let x ← tmp.at_ i j
      let tmp ← tmp.assign i j (x + factor)
      forUp 0 j (fun k tmp => do
        let y ← lu.at_ j k
        let x ← tmp.at_ i k
        tmp.assign i k (x + factor * y)) tmp) tmp) tmp

/-- The call `memcpy(&dst[p], &src[q], count * sizeof (double))`. -/
def memcpy (dst : Mat) (p : Nat) (src : Mat) (q count : Nat) : Mat :=
  (List.range count).foldl (fun d c => d.store (p + c) (src.load (q + c))) dst

/-- The last loop of `inverse`: row `i` of `tmp` goes to row `perms[i]` of `lu`. -/
def unpermute (matrix lu tmp : Mat) (perms : List Nat) : Except Err Mat :=
  forUp 0 matrix.cols (fun i lu => do
    let p ← lu.ref (perms.getD i 0) 0
    let q ← tmp.ref i 0
    pure (memcpy lu p tmp q matrix.cols)) lu

/-- The routine `inverse`: the matrix it computes over exact arithmetic, on the path where
its allocations succeed. The arithmetic of doubles is in `inverseRounded`, the allocations
and their exits in `inverseAlloc`. -/
def inverse (matrix : Mat) : Except Err Mat :=
  if matrix.rows ≠ matrix.cols then .error .assertion else do
  let lu := copy matrix
  let perms := List.range matrix.cols
  let s ← forUp 0 lu.cols forwardStep (lu, perms)
  let lu := s.1
  let perms := s.2
  let lu ← forDown backwardStep lu.cols lu
  let tmp ← assemble matrix lu
  unpermute matrix lu tmp perms

/-! ## Allocators (`Allocators.hpp`, `Allocators.cpp`) -/

/-- The number of values of `size_t`. -/
def SIZE_MODULUS : Nat := 2 ^ 64

/-- The value of `sizeof (void *)`. -/
def POINTER_SIZE : Nat := 8

/-- The struct `LinearAllocator`: `size` is the cursor. The region `data` is fixed, so
a block is identified by its offset from `data`. -/
structure LinearAllocator where
  size : Nat
  capacity : Nat
deriving DecidableEq, Repr

/-- The routine `create_linear_allocator`, on the path where `malloc` succeeds. -/
def create_linear_allocator (capacity : Nat) : LinearAllocator :=
  { size := 0, capacity := capacity }

/-- The routine `allocate(LinearAllocator &, size_t)`. Returns the pointer (`none` is
`NULL`, `some o` is `data + o`) and the allocator after the call. -/
def LinearAllocator.allocate (allocator : LinearAllocator) (size : Nat) :
    Option Nat × LinearAllocator :=
  let size := (size + (POINTER_SIZE - 1)) % SIZE_MODULUS
  let size := size - size % POINTER_SIZE
  if (allocator.size + size) % SIZE_MODULUS > allocator.capacity then
    (none, allocator)
  else
    (some allocator.size,
      { allocator with size := (allocator.size + size) % SIZE_MODULUS })

/-- The struct `Allocator`: the tag, and for `Linear` the allocator it points to. -/
inductive Allocator where
  | Standard
  | Linear (linear_allocator : LinearAllocator)
deriving DecidableEq, Repr

/-- The routine `allocate(Allocator &, size_t)`; `malloc` stands for `std::malloc`. -/
def Allocator.allocate (malloc : Nat → Option Nat) (allocator : Allocator) (size : Nat) :
    Option Nat × Allocator :=
  match allocator with
  | .Standard => (malloc size, .Standard)
  | .Linear linear_allocator =>
    let r := linear_allocator.allocate size
    (r.1, .Linear r.2)

/-- The routine `deallocate`; the heap behind `std::free` is outside the model. -/
def Allocator.deallocate (allocator : Allocator) (_data : Option Nat) : Allocator :=
  match allocator with
  | .Standard => .Standard
  | .Linear linear_allocator => .Linear linear_allocator

/-! ## Notions used to state the properties -/

/-- The element at `(r, c)` of the row-major buffer, without the `assert`. -/
def Mat.get (m : Mat) (r c : Nat) : ℚ := m.load (r * m.cols + c)

/-- The buffer with the element at `(r, c)` replaced, without the `assert`. -/
def Mat.put (m : Mat) (r c : Nat) (v : ℚ) : Mat := m.store (r * m.cols + c) v

/-- The matrix invariant: the buffer holds `rows * cols` elements. -/
def Mat.WF (m : Mat) : Prop := m.data.length = m.rows * m.cols

/-- A well-formed `n x n` matrix. -/
def Mat.Square (m : Mat) (n : Nat) : Prop :=
  m.rows = n ∧ m.cols = n ∧ m.data.length = n * n

/-- The mathematical matrix held by an `n x n` buffer. -/
def Mat.toMatrix (m : Mat) (n : Nat) : Matrix (Fin n) (Fin n) ℚ :=
  Matrix.of fun i j => m.get i j

/-- The index `c` after exchanging `a` and `b`. -/
def swapIdx (a b c : Nat) : Nat := if c = a then b else if c = b then a else c

/-- The vector `perms` holds each index below `n` once. -/
def IsPerm (perms : List Nat) (n : Nat) : Prop :=
  perms.length = n ∧ (∀ i, i < n → perms.getD i 0 < n) ∧
    ∀ i j, i < n → j < n → perms.getD i 0 = perms.getD j 0 → i = j

/-- The matrix read from the buffer after `t` columns have been eliminated: the rows
above `t` from the diagonal on, the other rows from column `t` on, zero elsewhere. -/
def Mat.upperPart (m : Mat) (n t : Nat) : Matrix (Fin n) (Fin n) ℚ :=
  Matrix.of fun r c => if min r.val t ≤ c.val then m.get r c else 0

/-- The unit lower triangular matrix read from the buffer after `t` columns have been
eliminated by `inverse`: ones on the diagonal and the stored factors of the columns
before `t` below it. -/
def Mat.lowerPart (m : Mat) (n t : Nat) : Matrix (Fin n) (Fin n) ℚ :=
  Matrix.of fun r c => if r = c then 1 else if c.val < r.val ∧ c.val < t then m.get r c else 0

/-- The input matrix with its columns in the order recorded by `perms`: column `c` is
column `perms[c]` of `A`. -/
def permuted (A : Mat) (perms : List Nat) (n : Nat) : Matrix (Fin n) (Fin n) ℚ :=
  Matrix.of fun r c => A.get r (perms.getD c 0)

/-- The matrix read from the buffer during the backward pass of `inverse`, at the point
where the columns from `s` on have been processed: their part on and above the diagonal,
and the identity elsewhere. -/
def Mat.inverseUpper (m : Mat) (n s : Nat) : Matrix (Fin n) (Fin n) ℚ :=
  Matrix.of fun r c =>
    if s ≤ c.val ∧ r.val ≤ c.val then m.get r c else if r = c then 1 else 0

/-- The upper triangle of the buffer `m` left by the forward pass, with the columns
from `s` on replaced by those of the identity. -/
def Mat.remainingUpper (m : Mat) (n s : Nat) : Matrix (Fin n) (Fin n) ℚ :=
  Matrix.of fun r c => if c.val < s then m.upperPart n n r c else if r = c then 1 else 0

/-- The entry `(r, c)` of the upper triangle of the buffer, diagonal included. -/
def Mat.upperEntry (m : Mat) (r c : Nat) : ℚ := if r ≤ c then m.get r c else 0

/-- The entry `(r, c)` of the unit lower triangle of the buffer. -/
def Mat.unitLowerEntry (m : Mat) (r c : Nat) : ℚ :=
  if r = c then 1 else if c < r then m.get r c else 0

/-- A sequence of calls of `allocate(LinearAllocator &, size_t)` with the given sizes:
the size and the pointer returned by each call, in order, and the allocator after the
last call. -/
def LinearAllocator.allocateAll (allocator : LinearAllocator) :
    List Nat → List (Nat × Option Nat) × LinearAllocator
  | [] => ([], allocator)
  | size :: rest =>
    let r := allocator.allocate size
    let rr := LinearAllocator.allocateAll r.2 rest
    ((size, r.1) :: rr.1, rr.2)

/-- No `size_t` operation wraps around in the sequence of calls of `allocate`: at each
call `size + 7` and the cursor plus the rounded size stay below `2^64`. -/
def LinearAllocator.NoWrap (allocator : LinearAllocator) : List Nat → Prop
  | [] => True
  | size :: rest =>
    size + 7 < SIZE_MODULUS ∧
    allocator.size + (size + 7 - (size + 7) % POINTER_SIZE) < SIZE_MODULUS ∧
    LinearAllocator.NoWrap (allocator.allocate size).2 rest

/-- The value of `sizeof (double)`. -/
def SIZEOF_DOUBLE : Nat := 8

/-- The fields `data`, `rows`, `cols` of the struct `Mat` as `create_matrix` fills them;
`data` is the offset of the block in the arena. -/
structure MatFields where
  data : Nat
  rows : Nat
  cols : Nat
deriving DecidableEq, Repr

/-- The routine `create_matrix` together with its call of `allocate`: the request is
`rows * cols * sizeof (double)` in `size_t` arithmetic, and a `NULL` result is the exit
with "failed to allocate matrix". Returns the fields of the matrix and the allocator
after the call. -/
def create_matrix_alloc (malloc : Nat → Option Nat) (rows cols : Nat) (allocator : Allocator) :
    Except Err (MatFields × Allocator) :=
  let r := allocator.allocate malloc (rows * cols * SIZEOF_DOUBLE % SIZE_MODULUS)
  match r.1 with
  | none => .error .allocation
  | some data => .ok ({ data := data, rows := rows, cols := cols }, r.2)

/-- Whether a sequence of calls wraps around can be computed. -/
instance LinearAllocator.decidableNoWrap :
    (allocator : LinearAllocator) → (sizes : List Nat) → Decidable (allocator.NoWrap sizes)
  | _, [] => isTrue trivial
  | allocator, size :: rest =>
    have := LinearAllocator.decidableNoWrap (allocator.allocate size).2 rest
    inferInstanceAs (Decidable (size + 7 < SIZE_MODULUS ∧
      allocator.size + (size + 7 - (size + 7) % POINTER_SIZE) < SIZE_MODULUS ∧
      LinearAllocator.NoWrap (allocator.allocate size).2 rest))

/-! ## The determinant and inverse routines with every division guarded

The routines below are `abs` and `inverse` again, line by line, except that each division
goes through `guardedDiv`. A run of a guarded routine that does not end in
`Err.assertion` or `Err.division` has executed no `at` out of range and no division by a
divisor of magnitude below the machine epsilon. -/

/-- The division `a / b`, reported as `Err.division` when `|b|` is below the machine
epsilon. -/
def guardedDiv (a b : ℚ) : Except Err ℚ :=
  if |b| < epsilon then .error .division else .ok (a / b)

/-- The routine `absRow` with its division guarded. -/
def absRowGuarded (i j : Nat) (upper : Mat) : Except Err Mat := do
  let a ← upper.at_ j i
  let b ← upper.at_ i i
  let factor ← guardedDiv (-a) b
  addScaledRow upper j i factor (i + 1) upper.cols

/-- The routine `absStep` with its divisions guarded. -/
def absStepGuarded (i : Nat) (s : AbsState) : Except Err AbsState :=
  if s.stopped then .ok s else do
  let r ← pivot s.upper i none
  let flags := r.1
  let upper := r.2.1
  if flags &&& PIVOT_CLOSE_TO_ZERO ≠ 0 then
    pure { upper := upper, det := 0, stopped := true }
  else do
    let det := if flags &&& PIVOT_SWAPPED ≠ 0 then -s.det else s.det
    let d ← upper.at_ i i
    let det := det * d
    let upper ← forUp (i + 1) upper.rows (absRowGuarded i) upper
    pure { upper := upper, det := det, stopped := false }

/-- The routine `absLoop` with its divisions guarded. -/
def absLoopGuarded (matrix : Mat) : Except Err AbsState :=
  if matrix.rows ≠ matrix.cols then .error .assertion else
  let upper := copy matrix
  forUp 0 upper.cols absStepGuarded { upper := upper, det := 1, stopped := false }

/-- The routine `abs` with its divisions guarded. -/
def Mat.absGuarded (matrix : Mat) : Except Err ℚ :=
  match absLoopGuarded matrix with
  | .ok s => .ok s.det
  | .error e => .error e

/-- The routine `forwardRow` with its division guarded. -/
def forwardRowGuarded (i j : Nat) (lu : Mat) : Except Err Mat := do
  let a ← lu.at_ j i
  let b ← lu.at_ i i
  let factor ← guardedDiv (-a) b
  let lu ← lu.assign j i factor
  let lu ← addScaledRow lu j i factor (i + 1) lu.cols
  addScaledRow lu j i factor 0 i

/-- The routine `forwardStep` with its divisions guarded. -/
def forwardStepGuarded (i : Nat) (s : Mat × List Nat) : Except Err (Mat × List Nat) := do
  let r ← pivot s.1 i (some s.2)
  let flags := r.1
  let lu := r.2.1
  let perms := r.2.2.getD s.2
  if flags &&& PIVOT_CLOSE_TO_ZERO ≠ 0 then
    .error .notInvertible
  else do
    let lu ← forUp (i + 1) lu.rows (forwardRowGuarded i) lu
    pure (lu, perms)

/-- The routine `backwardRow` with its division guarded. -/
def backwardRowGuarded (i j : Nat) (lu : Mat) : Except Err Mat := do
  let a ← lu.at_ j i
  let b ← lu.at_ i i
  let factor ← guardedDiv (-a) b
  let lu ← lu.assign j i factor
  addScaledRow lu j i factor (i + 1) lu.cols

/-- The routine `backwardStep` with its divisions guarded. -/
def backwardStepGuarded (i : Nat) (lu : Mat) : Except Err Mat := do
  let lu ← forDown (backwardRowGuarded i) i lu
  let d ← lu.at_ i i
  let factor ← guardedDiv 1 d
  let lu ← lu.assign i i factor
  forUp (i + 1) lu.cols (fun j lu => do
    let x ← lu.at_ i j
    lu.assign i j (x * factor)) lu

/-- The routine `inverse` with its divisions guarded. -/
def inverseGuarded (matrix : Mat) : Except Err Mat :=
  if matrix.rows ≠ matrix.cols then .error .assertion else do
  let lu := copy matrix
  let perms := List.range matrix.cols
  let s ← forUp 0 lu.cols forwardStepGuarded (lu, perms)
  let lu := s.1
  let perms := s.2
  let lu ← forDown backwardStepGuarded lu.cols lu
  let tmp ← assemble matrix lu
  unpermute matrix lu tmp perms

/-! ## The calls that obtain and release the working copy of `abs` -/

/-- A call that obtains or releases the buffer of a matrix. -/
inductive MemOp where
  /-- The call `allocate(*allocator, size)` made by `create_matrix`. -/
  | allocate (size : Nat)
  /-- The call `deallocate(*allocator, data)`. -/
  | deallocate
  /-- The expression `delete[] data`. -/
  | deleteArray
deriving DecidableEq, Repr

/-- The routine `destroy`: the call it makes on the buffer. -/
def destroyOps : List MemOp := [.deallocate]

/-- The routine `copy`: the call it makes, through `create_matrix`, for the buffer of the
result. -/
def copyOps (matrix : Mat) : List MemOp :=
  [.allocate (matrix.rows * matrix.cols * SIZEOF_DOUBLE % SIZE_MODULUS)]

/-- The routine `abs` with the calls made on the buffer of its working copy `upper`, in
order: the allocation in `copy`, then, after the loop, whether it ended or was left by
`break`, the statement `delete[] upper.data`. -/
def Mat.absOps (matrix : Mat) : Except Err (ℚ × List MemOp) :=
  match absLoop matrix with
  | .ok s => .ok (s.det, copyOps matrix ++ [.deleteArray])
  | .error e => .error e

/-! ## Double arithmetic

The matrix routines above compute on exact rationals. The routines below are `abs` and
`inverse` again, line by line, with the result of every `double` operation that can be
inexact (`+`, `*`, `/`) passed through a rounding function `rnd`. With `rnd = id` they are
the exact routines; with `rnd = roundDouble` they compute what the C++ code computes on
doubles, as long as no operation overflows and no `+=` is contracted into a fused
multiply-add. Negation, `std::abs` and the comparisons are exact on doubles and stay as
they are, so `pivot` is shared. -/

/-- The search for the binade of a positive value `x`: the exponent `e` with
`2^e ≤ x < 2^(e+1)`, reached from the candidate `e` in at most `fuel` moves of one. The
exponents of the doubles lie between `-1074` and `1023`, within `2100` moves from `0`. -/
def binade : Nat → ℚ → Int → Int
  | 0, _, e => e
  | fuel + 1, x, e =>
    match decide (x < 2 ^ e), decide (2 ^ (e + 1) ≤ x) with
    | true, _ => binade fuel x (e - 1)
    | false, true => binade fuel x (e + 1)
    | false, false => e

/-- Rounding to the nearest integer, ties to the even one. -/
def roundHalfEven (q : ℚ) : Int :=
  let f := ⌊q⌋
  let r := q - f
  if r < 1 / 2 then f
  else if 1 / 2 < r then f + 1
  else if f % 2 = 0 then f else f + 1

/-- The number of bits of the significand of a `double` (`DBL_MANT_DIG`). -/
def DBL_MANT_DIG : Int := 53

/-- The exponent of the smallest positive normal `double`, `2^-1022`. -/
def DBL_MIN_EXPONENT : Int := -1022

/-- The `double` nearest to `x`, ties to the even significand (the default rounding of
IEEE 754 binary64): `x` is rounded to a multiple of the spacing `2^(e - 52)` of the doubles
in its binade `[2^e, 2^(e+1))`, or of `2^-1074` below the normal range. The exponent is
not bounded above: overflow to infinity is not modelled. -/
def roundDouble (x : ℚ) : ℚ :=
  match decide (x = 0) with
  | true => 0
  | false =>
    let e := max (binade 2100 |x| 0) DBL_MIN_EXPONENT
    let ulp : ℚ := 2 ^ (e - (DBL_MANT_DIG - 1))
    (roundHalfEven (x / ulp) : ℚ) * ulp

/-- The loop `addScaledRow` with the product and the sum rounded. -/
def addScaledRowRounded (rnd : ℚ → ℚ) (m : Mat) (j i : Nat) (factor : ℚ) (lo hi : Nat) :
    Except Err Mat :=
  forUp lo hi (fun k m => do
    let y ← m.at_ i k
    let x ← m.at_ j k
    m.assign j k (rnd (x + rnd (factor * y)))) m

/-- The routine `absRow` with rounded arithmetic. -/
def absRowRounded (rnd : ℚ → ℚ) (i j : Nat) (upper : Mat) : Except Err Mat := do
  let a ← upper.at_ j i
  let b ← upper.at_ i i
  let factor := rnd (-a / b)
  addScaledRowRounded rnd upper j i factor (i + 1) upper.cols

/-- The routine `absStep` with rounded arithmetic. -/
def absStepRounded (rnd : ℚ → ℚ) (i : Nat) (s : AbsState) : Except Err AbsState :=
  if s.stopped then .ok s else do
  let r ← pivot s.upper i none
  let flags := r.1
  let upper := r.2.1
  if flags &&& PIVOT_CLOSE_TO_ZERO ≠ 0 then
    pure { upper := upper, det := 0, stopped := true }
  else do
    let det := if flags &&& PIVOT_SWAPPED ≠ 0 then -s.det else s.det
    let d ← upper.at_ i i
    let det := rnd (det * d)
    let upper ← forUp (i + 1) upper.rows (absRowRounded rnd i) upper
    pure { upper := upper, det := det, stopped := false }

/-- The routine `absLoop` with rounded arithmetic. -/
def absLoopRounded (rnd : ℚ → ℚ) (matrix : Mat) : Except Err AbsState :=
  if matrix.rows ≠ matrix.cols then .error .assertion else
  let upper := copy matrix
  forUp 0 upper.cols (absStepRounded rnd) { upper := upper, det := 1, stopped := false }

/-- The routine `abs` with rounded arithmetic. -/
def Mat.absRounded (rnd : ℚ → ℚ) (matrix : Mat) : Except Err ℚ :=
  match absLoopRounded rnd matrix with
  | .ok s => .ok s.det
  | .error e => .error e

/-- The routine `forwardRow` with rounded arithmetic. -/
def forwardRowRounded (rnd : ℚ → ℚ) (i j : Nat) (lu : Mat) : Except Err Mat := do
  let a ← lu.at_ j i
  let b ← lu.at_ i i
  let factor := rnd (-a / b)
  let lu ← lu.assign j i factor
  let lu ← addScaledRowRounded rnd lu j i factor (i + 1) lu.cols
  addScaledRowRounded rnd lu j i factor 0 i

/-- The routine `forwardStep` with rounded arithmetic. -/
def forwardStepRounded (rnd : ℚ → ℚ) (i : Nat) (s : Mat × List Nat) :
    Except Err (Mat × List Nat) := do
  let r ← pivot s.1 i (some s.2)
  let flags := r.1
  let lu := r.2.1
  let perms := r.2.2.getD s.2
  if flags &&& PIVOT_CLOSE_TO_ZERO ≠ 0 then
    .error .notInvertible
  else do
    let lu ← forUp (i + 1) lu.rows (forwardRowRounded rnd i) lu
    pure (lu, perms)

/-- The routine `backwardRow` with rounded arithmetic. -/
def backwardRowRounded (rnd : ℚ → ℚ) (i j : Nat) (lu : Mat) : Except Err Mat := do
  let a ← lu.at_ j i
  let b ← lu.at_ i i
  let factor := rnd (-a / b)
  let lu ← lu.assign j i factor
  addScaledRowRounded rnd lu j i factor (i + 1) lu.cols

/-- The routine `backwardStep` with rounded arithmetic. -/
def backwardStepRounded (rnd : ℚ → ℚ) (i : Nat) (lu : Mat) : Except Err Mat := do
  let lu ← forDown (backwardRowRounded rnd i) i lu
  let d ← lu.at_ i i
  let factor := rnd (1 / d)
  let lu ← lu.assign i i factor
  forUp (i + 1) lu.cols (fun j lu => do
    let x ← lu.at_ i j
    lu.assign i j (rnd (x * factor))) lu

/-- The routine `assemble` with rounded arithmetic. -/
def assembleRounded (rnd : ℚ → ℚ) (matrix lu : Mat) : Except Err Mat := do
  let tmp ← zeroFill (create_matrix matrix.rows matrix.cols)
  forUp 0 lu.rows (fun i tmp =>
    forUp i lu.cols (fun j tmp => do
      let factor ← lu.at_ i j
      let x ← tmp.at_ i j
      let tmp ← tmp.assign i j (rnd (x + factor))
      forUp 0 j (fun k tmp => do
        let y ← lu.at_ j k
        let x ← tmp.at_ i k
        tmp.assign i k (rnd (x + rnd (factor * y)))) tmp) tmp) tmp

/-- The routine `inverse` with rounded arithmetic. -/
def inverseRounded (rnd : ℚ → ℚ) (matrix : Mat) : Except Err Mat :=
  if matrix.rows ≠ matrix.cols then .error .assertion else do
  let lu := copy matrix
  let perms := List.range matrix.cols
  let s ← forUp 0 lu.cols (forwardStepRounded rnd) (lu, perms)
  let lu := s.1
  let perms := s.2
  let lu ← forDown (backwardStepRounded rnd) lu.cols lu
  let tmp ← assembleRounded rnd matrix lu
  unpermute matrix lu tmp perms

/-- The state of the elimination, with rounding function `rnd`, on a matrix whose rows
`p` and `q`, `p < q`, were equal at the start, before column `i` is eliminated: up to
`i = p` the two rows are still equal and the negation of every element is left as it is
by `rnd`; after that, `i` has not passed `q` and row `q` is zero from column `i` on. -/
def Mat.RowsInv (rnd : ℚ → ℚ) (m : Mat) (n p q i : Nat) : Prop :=
  (i ≤ p → (∀ c, c < n → m.get p c = m.get q c) ∧
    ∀ r c, r < n → c < n → rnd (-(m.get r c)) = -(m.get r c)) ∧
  (p < i → i ≤ q ∧ ∀ c, i ≤ c → c < n → m.get q c = 0)

/-! ## The routines together with their allocations

The routines `abs` and `inverse` again, line by line, with the allocations they make and
the exits taken when one fails: `create_matrix`, called by `copy`, exits when `allocate`
returns `NULL`, and `malloc_or_panic` exits when `std::malloc` does. The argument
`malloc k` stands for `std::malloc` at the `k`-th place where the routine can call it, so
that each call can succeed or fail on its own; `allocator` is the allocator of the
argument, `matrix.allocator`. -/

/-- The value of `sizeof (size_t)`. -/
def SIZEOF_SIZE_T : Nat := 8

/-- The routine `malloc_or_panic`: the call of `std::malloc` and the exit taken when it
returns `NULL`. -/
def malloc_or_panic (malloc : Nat → Option Nat) (size : Nat) : Except Err Nat :=
  match malloc size with
  | none => .error .allocation
  | some data => .ok data

/-- The routine `copy` together with its call of `create_matrix`: the exit when the
allocation fails, otherwise the contents of the copy and the allocator after the call. -/
def copyAlloc (malloc : Nat → Option Nat) (matrix : Mat) (allocator : Allocator) :
    Except Err (Mat × Allocator) :=
  match create_matrix_alloc malloc matrix.rows matrix.cols allocator with
  | .ok r => .ok (copy matrix, r.2)
  | .error e => .error e

/-- The routine `abs` together with the allocation of its working copy. Returns the
determinant and the allocator after the call. The statement `delete[] upper.data` that
follows the loop is recorded in `absOps`. -/
def Mat.absAlloc (malloc : Nat → Nat → Option Nat) (allocator : Allocator) (matrix : Mat) :
    Except Err (ℚ × Allocator) :=
  if matrix.rows ≠ matrix.cols then .error .assertion else do
  let r ← copyAlloc (malloc 0) matrix allocator
  let upper := r.1
  let s ← forUp 0 upper.cols absStep { upper := upper, det := 1, stopped := false }
  pure (s.det, r.2)

/-- The routine `inverse` together with its allocations: the working copy `lu`, the
vector `perms`, and, after the backward pass, the buffer of `tmp`. Returns the inverse
and the allocator after the call. -/
def inverseAlloc (malloc : Nat → Nat → Option Nat) (allocator : Allocator) (matrix : Mat) :
    Except Err (Mat × Allocator) :=
  if matrix.rows ≠ matrix.cols then .error .assertion else do
  let r ← copyAlloc (malloc 0) matrix allocator
  let lu := r.1
  let _ ← malloc_or_panic (malloc 1) (matrix.cols * SIZEOF_SIZE_T % SIZE_MODULUS)
  let perms := List.range matrix.cols
  let s ← forUp 0 lu.cols forwardStep (lu, perms)
  let lu := s.1
  let perms := s.2
  let lu ← forDown backwardStep lu.cols lu
  let _ ← malloc_or_panic (malloc 2) (matrix.rows * matrix.cols * SIZEOF_DOUBLE % SIZE_MODULUS)
  let tmp ← assemble matrix lu
  let lu ← unpermute matrix lu tmp perms
  pure (lu, r.2)

/-- The routine `absAlloc` with its divisions guarded. -/
def Mat.absGuardedAlloc (malloc : Nat → Nat → Option Nat) (allocator : Allocator)
    (matrix : Mat) : Except Err (ℚ × Allocator) :=
  if matrix.rows ≠ matrix.cols then .error .assertion else do
  let r ← copyAlloc (malloc 0) matrix allocator
  let upper := r.1
  let s ← forUp 0 upper.cols absStepGuarded { upper := upper, det := 1, stopped := false }
  pure (s.det, r.2)

/-- The routine `inverseAlloc` with its divisions guarded. -/
def inverseGuardedAlloc (malloc : Nat → Nat → Option Nat) (allocator : Allocator)
    (matrix : Mat) : Except Err (Mat × Allocator) :=
  if matrix.rows ≠ matrix.cols then .error .assertion else do
  let r ← copyAlloc (malloc 0) matrix allocator
  let lu := r.1
  let _ ← malloc_or_panic (malloc 1) (matrix.cols * SIZEOF_SIZE_T % SIZE_MODULUS)
  let perms := List.range matrix.cols
  let s ← forUp 0 lu.cols forwardStepGuarded (lu, perms)
  let lu := s.1
  let perms := s.2
  let lu ← forDown backwardStepGuarded lu.cols lu
  let _ ← malloc_or_panic (malloc 2) (matrix.rows * matrix.cols * SIZEOF_DOUBLE % SIZE_MODULUS)
  let tmp ← assemble matrix lu
  let lu ← unpermute matrix lu tmp perms
  pure (lu, r.2)

/-! ## Loops -/

theorem forUpAux_cases {σ : Type} (body : Nat → σ → Except Err σ) (P : Nat → σ → Prop)
    (E : Err → Prop) :
    ∀ (count i : Nat) (s : σ), P i s →
      (∀ k t, i ≤ k → k < i + count → P k t →
        (∃ t1, body k t = .ok t1 ∧ P (k + 1) t1) ∨ (∃ e, body k t = .error e ∧ E e)) →
      (∃ t, forUpAux body count i s = .ok t ∧ P (i + count) t) ∨
        (∃ e, forUpAux body count i s = .error e ∧ E e) := by
  intro count
  induction count with
  | zero =>
    intro i s h0 _
    exact Or.inl ⟨s, rfl, by simpa using h0⟩
  | succ count ih =>
    intro i s h0 hstep
    rcases hstep i s (le_refl i) (by omega) h0 with ⟨t1, hb, hP⟩ | ⟨e, hb, hE⟩
    · have hrec := ih (i + 1) t1 hP (fun k t hk hk2 hPk => hstep k t (by omega) (by omega) hPk)
      rcases hrec with ⟨t, ht, hPt⟩ | ⟨e, he, hE⟩
      · refine Or.inl ⟨t, ?_, ?_⟩
        · simp only [forUpAux, hb, ht]
        · have : i + (count + 1) = i + 1 + count := by omega
          rw [this]; exact hPt
      · exact Or.inr ⟨e, by simp only [forUpAux, hb, he], hE⟩
    · exact Or.inr ⟨e, by simp only [forUpAux, hb], hE⟩

/-- Invariant rule for `forUp` when an iteration may stop the program. -/
theorem forUp_cases {σ : Type} {b : Nat → σ → Except Err σ} (P : Nat → σ → Prop)
    (E : Err → Prop) {l h : Nat} {s : σ} (hle : l ≤ h) (h0 : P l s)
    (hstep : ∀ k t, l ≤ k → k < h → P k t →
      (∃ t1, b k t = .ok t1 ∧ P (k + 1) t1) ∨ (∃ e, b k t = .error e ∧ E e)) :
    (∃ t, forUp l h b s = .ok t ∧ P h t) ∨
      (∃ e, forUp l h b s = .error e ∧ E e) := by
  have hx := forUpAux_cases b P E (h - l) l s h0
    (fun k t hk hk2 hPk => hstep k t hk (by omega) hPk)
  have e : l + (h - l) = h := by omega
  rw [e] at hx
  exact hx

/-- Invariant rule for `forUp` when no iteration stops the program. -/
theorem forUp_inv {σ : Type} {b : Nat → σ → Except Err σ} (P : Nat → σ → Prop)
    {l h : Nat} {s : σ} (hle : l ≤ h) (h0 : P l s)
    (hstep : ∀ k t, l ≤ k → k < h → P k t → ∃ t1, b k t = .ok t1 ∧ P (k + 1) t1) :
    ∃ t, forUp l h b s = .ok t ∧ P h t := by
  rcases forUp_cases P (fun _ => False) hle h0
    (fun k t hk hk2 hPk => Or.inl (hstep k t hk hk2 hPk)) with hx | ⟨_, _, hF⟩
  · exact hx
  · exact hF.elim

/-- Invariant rule for `forDown`. -/
theorem forDown_inv {σ : Type} {b : Nat → σ → Except Err σ} (P : Nat → σ → Prop) :
    ∀ (n : Nat) (s : σ), P n s →
      (∀ k t, k < n → P (k + 1) t → ∃ t1, b k t = .ok t1 ∧ P k t1) →
      ∃ t, forDown b n s = .ok t ∧ P 0 t := by
  intro n
  induction n with
  | zero =>
    intro s h0 _
    exact ⟨s, rfl, h0⟩
  | succ n ih =>
    intro s h0 hstep
    obtain ⟨t1, hb, hP⟩ := hstep n s (by omega) h0
    obtain ⟨t, ht, hPt⟩ := ih t1 hP (fun k t hk hPk => hstep k t (by omega) hPk)
    exact ⟨t, by simp only [forDown, hb, ht], hPt⟩

/-! ## Element access -/

theorem getD_set_eq (l : List ℚ) (i j : Nat) (v : ℚ) :
    (l.set i v).getD j 0 = if i = j ∧ i < l.length then v else l.getD j 0 := by
  simp only [List.getD_eq_getElem?_getD, List.getElem?_set]
  by_cases h : i = j
  · subst h
    by_cases h2 : i < l.length
    · simp [h2]
    · simp [h2, List.getElem?_eq_none (not_lt.mp h2)]
  · simp [h]

theorem flat_lt {r c rows cols : Nat} (hr : r < rows) (hc : c < cols) :
    r * cols + c < rows * cols := by
  calc r * cols + c < r * cols + cols := by omega
    _ = (r + 1) * cols := by ring
    _ ≤ rows * cols := Nat.mul_le_mul_right _ hr

theorem flat_inj {r c r1 c1 n : Nat} (hc : c < n) (hc1 : c1 < n)
    (h : r * n + c = r1 * n + c1) : r = r1 ∧ c = c1 := by
  have h1 : (r * n + c) / n = r := by
    rw [Nat.add_comm, Nat.add_mul_div_right _ _ (by omega), Nat.div_eq_of_lt hc, Nat.zero_add]
  have h2 : (r1 * n + c1) / n = r1 := by
    rw [Nat.add_comm, Nat.add_mul_div_right _ _ (by omega), Nat.div_eq_of_lt hc1, Nat.zero_add]
  have hr : r = r1 := by rw [← h1, ← h2, h]
  subst hr
  exact ⟨rfl, by omega⟩

theorem Mat.at_ok {m : Mat} {r c : Nat} (hr : r < m.rows) (hc : c < m.cols) :
    m.at_ r c = .ok (m.get r c) := by
  simp [Mat.at_, Mat.ref, Mat.get, hr, hc]

theorem Mat.assign_ok {m : Mat} {r c : Nat} (v : ℚ) (hr : r < m.rows) (hc : c < m.cols) :
    m.assign r c v = .ok (m.put r c v) := by
  simp [Mat.assign, Mat.ref, Mat.put, hr, hc]

@[simp] theorem Mat.put_rows (m : Mat) (r c : Nat) (v : ℚ) : (m.put r c v).rows = m.rows := rfl

@[simp] theorem Mat.put_cols (m : Mat) (r c : Nat) (v : ℚ) : (m.put r c v).cols = m.cols := rfl

@[simp] theorem Mat.put_length (m : Mat) (r c : Nat) (v : ℚ) :
    (m.put r c v).data.length = m.data.length := by
  simp [Mat.put, Mat.store]

theorem Mat.get_put {m : Mat} (hm : m.WF) {r c r1 c1 : Nat} (v : ℚ) (hr : r < m.rows)
    (hc : c < m.cols) (hc1 : c1 < m.cols) :
    (m.put r c v).get r1 c1 = if r1 = r ∧ c1 = c then v else m.get r1 c1 := by
  unfold Mat.put Mat.get Mat.store Mat.load
  simp only [getD_set_eq]
  have hlt : r * m.cols + c < m.data.length := by rw [hm]; exact flat_lt hr hc
  by_cases h : r * m.cols + c = r1 * m.cols + c1
  · obtain ⟨h1, h2⟩ := flat_inj hc hc1 h
    subst h1; subst h2
    simp [hlt]
  · have h3 : ¬ (r1 = r ∧ c1 = c) := by
      rintro ⟨h1, h2⟩
      subst h1; subst h2
      exact h rfl
    simp [h, h3]

theorem Mat.put_WF {m : Mat} (hm : m.WF) (r c : Nat) (v : ℚ) : (m.put r c v).WF := by
  unfold Mat.WF at *
  simpa using hm

theorem Mat.Square.wf {m : Mat} {n : Nat} (h : m.Square n) : m.WF := by
  unfold Mat.WF
  rw [h.1, h.2.1, h.2.2]

theorem Mat.put_square {m : Mat} {n : Nat} (h : m.Square n) (r c : Nat) (v : ℚ) :
    (m.put r c v).Square n := by
  unfold Mat.Square at *
  simpa using h

theorem Mat.load_store (m : Mat) (i j : Nat) (v : ℚ) :
    (m.store i v).load j = if i = j ∧ i < m.data.length then v else m.load j := by
  simp only [Mat.store, Mat.load, getD_set_eq]

theorem zeroFill_spec (m : Mat) (hm : m.WF) :
    ∃ z, zeroFill m = .ok z ∧ z.rows = m.rows ∧ z.cols = m.cols ∧ z.WF ∧
      ∀ r c, r < m.rows → c < m.cols → z.get r c = 0 := by
  obtain ⟨z, hz, h1, h2, h3, h4⟩ := forDown_inv
    (b := fun i (t : Mat) => Except.ok (t.store i 0))
    (fun k t => t.rows = m.rows ∧ t.cols = m.cols ∧ t.data.length = m.data.length ∧
      ∀ p, k ≤ p → p < m.rows * m.cols → t.load p = 0)
    (m.rows * m.cols) m ⟨rfl, rfl, rfl, fun p h1 h2 => by omega⟩
    (by
      intro k t hk ⟨h1, h2, h3, h4⟩
      refine ⟨_, rfl, h1, h2, by simpa [Mat.store] using h3, ?_⟩
      intro p hp hp2
      rw [Mat.load_store]
      by_cases hkp : k = p
      · have : k < t.data.length := by rw [h3, hm]; exact hk
        simp [hkp ▸ this, hkp]
      · rw [if_neg (fun h => hkp h.1)]
        exact h4 p (by omega) hp2)
  refine ⟨z, hz, h1, h2, ?_, ?_⟩
  · unfold Mat.WF at *; rw [h3, hm, h1, h2]
  · intro r c hr hc
    unfold Mat.get
    rw [h2]
    exact h4 _ (Nat.zero_le _) (flat_lt hr hc)

theorem create_matrix_WF (rows cols : Nat) : (create_matrix rows cols).WF := by
  simp [Mat.WF, create_matrix]

/-- The innermost loop of `multiply`. -/
theorem multiply_inner (right res : Mat) (i j : Nat) (factor : ℚ) (hres : res.WF)
    (hi : i < res.rows) (hj : j < right.rows) (hcols : res.cols = right.cols) :
    ∃ t, forUp 0 right.cols (fun k (res : Mat) => do
        let y ← right.at_ j k
        let x ← res.at_ i k
        res.assign i k (x + factor * y)) res = .ok t ∧
      t.rows = res.rows ∧ t.cols = res.cols ∧ t.WF ∧
      ∀ r c, r < res.rows → c < res.cols →
        t.get r c = if r = i then res.get r c + factor * right.get j c else res.get r c := by
  obtain ⟨t, ht, h1, h2, h3, h4⟩ := forUp_inv
    (b := fun k (res : Mat) => do
        let y ← right.at_ j k
        let x ← res.at_ i k
        res.assign i k (x + factor * y))
    (fun k t => t.rows = res.rows ∧ t.cols = res.cols ∧ t.WF ∧
      ∀ r c, r < res.rows → c < res.cols →
        t.get r c = if r = i ∧ c < k then res.get r c + factor * right.get j c
          else res.get r c)
    (Nat.zero_le right.cols) (s := res)
    ⟨rfl, rfl, hres, fun r c _ _ => by simp⟩
    (by
      intro k t _ hk ⟨h1, h2, h3, h4⟩
      have e1 : right.at_ j k = .ok (right.get j k) := Mat.at_ok hj hk
      have e2 : t.at_ i k = .ok (t.get i k) := Mat.at_ok (by omega) (by omega)
      refine ⟨t.put i k (t.get i k + factor * right.get j k), ?_, h1, h2, Mat.put_WF h3 _ _ _, ?_⟩
      · simp only [e1, e2, bind, Except.bind]
        exact Mat.assign_ok _ (by omega) (by omega)
      · intro r c hr hc
        rw [Mat.get_put h3 _ (by omega) (by omega) (by omega), h4 r c hr hc, h4 i k hi (by omega)]
        by_cases hri : r = i
        · by_cases hck : c = k
          · subst hri; subst hck; simp
          · have : c < k + 1 ↔ c < k := by omega
            simp [hri, hck, this]
        · simp [hri])
  refine ⟨t, ht, h1, h2, h3, ?_⟩
  intro r c hr hc
  rw [h4 r c hr hc]
  have : c < right.cols := by omega
  simp [this]

/-- The middle loop of `multiply`. -/
theorem multiply_middle (left right res : Mat) (i : Nat) (hres : res.WF)
    (hi : i < res.rows) (hil : i < left.rows) (hlr : left.cols = right.rows)
    (hcols : res.cols = right.cols) :
    ∃ t, forUp 0 left.cols (fun j (res : Mat) => do
        let factor ← left.at_ i j
        forUp 0 right.cols (fun k (res : Mat) => do
          let y ← right.at_ j k
          let x ← res.at_ i k
          res.assign i k (x + factor * y)) res) res = .ok t ∧
      t.rows = res.rows ∧ t.cols = res.cols ∧ t.WF ∧
      ∀ r c, r < res.rows → c < res.cols →
        t.get r c = if r = i then
          res.get r c + ∑ j in Finset.range left.cols, left.get i j * right.get j c
          else res.get r c := by
  refine forUp_inv
    (fun j (t : Mat) => t.rows = res.rows ∧ t.cols = res.cols ∧ t.WF ∧
      ∀ r c, r < res.rows → c < res.cols →
        t.get r c = if r = i then
          res.get r c + ∑ j1 in Finset.range j, left.get i j1 * right.get j1 c
          else res.get r c)
    (Nat.zero_le left.cols) ⟨rfl, rfl, hres, fun r c _ _ => by simp⟩ ?_
  intro j t _ hj ⟨h1, h2, h3, h4⟩
  have e1 : left.at_ i j = .ok (left.get i j) := Mat.at_ok hil hj
  obtain ⟨u, hu, g1, g2, g3, g4⟩ := multiply_inner right t i j (left.get i j) h3
    (by omega) (by omega) (by omega)
  refine ⟨u, ?_, by omega, by omega, g3, ?_⟩
  · simp only [e1, bind, Except.bind]
    exact hu
  · intro r c hr hc
    rw [g4 r c (by omega) (by omega), h4 r c hr hc]
    by_cases hri : r = i
    · simp only [hri, if_true, Finset.sum_range_succ]
      ring
    · simp [hri]

/-- The result of `multiply`: dimensions and the sum defining each entry. -/
theorem multiply_spec (left right : Mat) (hlr : left.cols = right.rows) :
    ∃ res, multiply left right = .ok res ∧ res.rows = left.rows ∧ res.cols = right.cols ∧
      res.WF ∧
      ∀ i k, i < left.rows → k < right.cols →
        res.get i k = ∑ j in Finset.range left.cols, left.get i j * right.get j k := by
  obtain ⟨z, hz, z1, z2, z3, z4⟩ := zeroFill_spec (create_matrix left.rows right.cols)
    (create_matrix_WF _ _)
  have z1 : z.rows = left.rows := z1
  have z2 : z.cols = right.cols := z2
  have z4 : ∀ r c, r < left.rows → c < right.cols → z.get r c = 0 := z4
  obtain ⟨t, ht, h1, h2, h3, h4⟩ := forUp_inv
    (b := fun i (res : Mat) =>
      forUp 0 left.cols (fun j (res : Mat) => do
        let factor ← left.at_ i j
        forUp 0 right.cols (fun k (res : Mat) => do
          let y ← right.at_ j k
          let x ← res.at_ i k
          res.assign i k (x + factor * y)) res) res)
    (fun i t => t.rows = left.rows ∧ t.cols = right.cols ∧ t.WF ∧
      ∀ r c, r < left.rows → c < right.cols →
        t.get r c = if r < i then
          ∑ j in Finset.range left.cols, left.get r j * right.get j c else 0)
    (Nat.zero_le left.rows) (s := z)
    ⟨z1, z2, z3, fun r c hr hc => by simpa using z4 r c hr hc⟩
    (by
      intro i t _ hi ⟨h1, h2, h3, h4⟩
      obtain ⟨u, hu, g1, g2, g3, g4⟩ := multiply_middle left right t i h3 (by omega) hi hlr h2
      refine ⟨u, hu, by omega, by omega, g3, ?_⟩
      intro r c hr hc
      rw [g4 r c (by omega) (by omega), h4 r c hr hc]
      by_cases hri : r = i
      · subst hri; simp
      · by_cases hlt : r < i
        · have : r < i + 1 := by omega
          simp [hri, hlt, this]
        · have : ¬ r < i + 1 := by omega
          simp [hri, hlt, this])
  refine ⟨t, ?_, h1, h2, h3, ?_⟩
  · unfold multiply
    rw [if_neg (not_not.mpr hlr), hz]
    exact ht
  · intro i k hi hk
    rw [h4 i k hi hk, if_pos hi]

/-- The scan loop of `pivot`: the best value is the magnitude at the best column, which
is the first column from `column` on where the largest magnitude of row `column` is
found. -/
theorem pivotScan_spec (m : Mat) (n column : Nat) (hm : m.Square n) (hcol : column < n) :
    ∃ bv bc, pivotScan m column = .ok (bv, bc) ∧ column ≤ bc ∧ bc < n ∧
      bv = |m.get column bc| ∧
      (∀ c, column ≤ c → c < n → |m.get column c| ≤ bv) ∧
      (∀ c, column ≤ c → c < bc → |m.get column c| < bv) := by
  obtain ⟨hr, hc, -⟩ := hm
  obtain ⟨⟨bv, bc⟩, hb, h1, h2, h3, h4, h5⟩ := forUp_inv
    (b := fun i (best : ℚ × Nat) => do
      let x ← m.at_ column i
      let val := |x|
      if val > best.1 then pure (val, i) else pure best)
    (fun k (best : ℚ × Nat) => column ≤ best.2 ∧ (k = column → best.1 = 0 ∧ best.2 = column) ∧
      (column < k → best.2 < k ∧ best.1 = |m.get column best.2|) ∧
      (∀ c, column ≤ c → c < k → |m.get column c| ≤ best.1) ∧
      (∀ c, column ≤ c → c < best.2 → |m.get column c| < best.1))
    (l := column) (h := m.cols) (s := (0, column)) (by omega)
    ⟨le_refl _, fun _ => ⟨rfl, rfl⟩, fun h => absurd h (lt_irrefl _),
      fun c h1 h2 => by omega, fun c h1 h2 => by omega⟩
    (by
      rintro k ⟨bv, bc⟩ hk hk2 ⟨h1, h2, h3, h4, h5⟩
      have e1 : m.at_ column k = .ok (m.get column k) := Mat.at_ok (by omega) hk2
      simp only [e1, bind, Except.bind, pure, Except.pure]
      simp only at h1 h2 h3 h4 h5
      by_cases hgt : |m.get column k| > bv
      · refine ⟨(|m.get column k|, k), by simp only [hgt, if_true], hk, ?_, ?_, ?_, ?_⟩
        · intro h; omega
        · intro _; exact ⟨by omega, rfl⟩
        · intro c hc1 hc2
          by_cases hck : c = k
          · subst hck; exact le_refl _
          · exact le_of_lt (lt_of_le_of_lt (h4 c hc1 (by omega)) hgt)
        · intro c hc1 hc2
          exact lt_of_le_of_lt (h4 c hc1 hc2) hgt
      · refine ⟨(bv, bc), by simp only [hgt, if_false], h1, ?_, ?_, ?_, h5⟩
        · intro h; omega
        · intro _
          by_cases hkc : k = column
          · obtain ⟨hbv, hbc⟩ := h2 hkc
            subst hkc; subst hbv; subst hbc
            refine ⟨Nat.lt_succ_self _, ?_⟩
            exact (le_antisymm (not_lt.mp hgt) (abs_nonneg _)).symm
          · obtain ⟨g1, g2⟩ := h3 (by omega)
            exact ⟨Nat.lt_succ_of_lt g1, g2⟩
        · intro c hc1 hc2
          by_cases hck : c = k
          · subst hck; exact not_lt.mp hgt
          · exact h4 c hc1 (by omega))
  refine ⟨bv, bc, hb, h1, ?_, ?_, ?_, h5⟩
  · have := (h3 (by omega)).1; simp only at this; omega
  · exact (h3 (by omega)).2
  · intro c hc1 hc2; exact h4 c hc1 (by omega)

theorem swapIdx_lt {a b c n : Nat} (ha : a < n) (hb : b < n) (hc : c < n) :
    swapIdx a b c < n := by
  unfold swapIdx; split_ifs <;> assumption

theorem swapIdx_self (a c : Nat) : swapIdx a a c = c := by
  unfold swapIdx; split_ifs with h <;> simp [h]

/-- The column exchange loop of `pivot`. -/
theorem swapColumns_spec (m : Mat) (n a b : Nat) (hm : m.Square n) (ha : a < n) (hb : b < n)
    (hab : a ≠ b) :
    ∃ t, swapColumns m a b = .ok t ∧ t.Square n ∧
      ∀ r c, r < n → c < n → t.get r c = m.get r (swapIdx a b c) := by
  have hrows : m.rows = n := hm.1
  obtain ⟨t, ht, h1, h2⟩ := forUp_inv
    (b := fun i (m : Mat) => do
      let x ← m.at_ i a
      let y ← m.at_ i b
      let m ← m.assign i a y
      m.assign i b x)
    (fun k (t : Mat) => t.Square n ∧
      ∀ r c, r < n → c < n → t.get r c = if r < k then m.get r (swapIdx a b c) else m.get r c)
    (l := 0) (h := m.rows) (s := m) (Nat.zero_le _)
    ⟨hm, fun r c _ _ => by simp⟩
    (by
      intro k t _ hk ⟨h1, h2⟩
      obtain ⟨tr, tc, tl⟩ := h1
      have e1 : t.at_ k a = .ok (t.get k a) := Mat.at_ok (by omega) (by omega)
      have e2 : t.at_ k b = .ok (t.get k b) := Mat.at_ok (by omega) (by omega)
      have e3 : t.assign k a (t.get k b) = .ok (t.put k a (t.get k b)) :=
        Mat.assign_ok _ (by omega) (by omega)
      have e4 : (t.put k a (t.get k b)).assign k b (t.get k a) =
          .ok ((t.put k a (t.get k b)).put k b (t.get k a)) :=
        Mat.assign_ok _ (by simp; omega) (by simp; omega)
      have hsq : t.Square n := ⟨tr, tc, tl⟩
      refine ⟨(t.put k a (t.get k b)).put k b (t.get k a),
        by simp only [e1, e2, e3, e4, bind, Except.bind], ?_, ?_⟩
      · exact Mat.put_square (Mat.put_square hsq _ _ _) _ _ _
      · intro r c hr hc
        rw [Mat.get_put (Mat.put_WF hsq.wf _ _ _) _ (by simp; omega) (by simp; omega)
            (by simp; omega),
          Mat.get_put hsq.wf _ (by omega) (by omega) (by omega),
          h2 r c hr hc, h2 k a (by omega) ha, h2 k b (by omega) hb]
        simp only [lt_irrefl, if_false]
        by_cases hrk : r = k
        · subst hrk
          simp only [true_and, Nat.lt_succ_self, if_true, swapIdx]
          by_cases hcb : c = b
          · subst hcb; simp [Ne.symm hab]
          · by_cases hca : c = a
            · subst hca; simp [hab]
            · simp [hcb, hca]
        · have : r < k + 1 ↔ r < k := by omega
          simp [hrk, this])
  refine ⟨t, ht, h1, ?_⟩
  intro r c hr hc
  rw [h2 r c hr hc, if_pos (by omega)]

theorem swapPerms_getD (perms : List Nat) (a b i : Nat) (ha : a < perms.length)
    (hb : b < perms.length) :
    (swapPerms perms a b).getD i 0 = perms.getD (swapIdx a b i) 0 := by
  unfold swapPerms swapIdx
  simp only [List.getD_eq_getElem?_getD, List.getElem?_set, List.length_set]
  by_cases hib : i = b
  · subst hib
    by_cases hia : i = a
    · subst hia; simp [ha]
    · simp [hb, hia, Ne.symm hia]
  · by_cases hia : i = a
    · subst hia; simp [ha, hib, Ne.symm hib]
    · simp [hib, hia, Ne.symm hib, Ne.symm hia]

theorem swapPerms_isPerm {perms : List Nat} {n a b : Nat} (hp : IsPerm perms n) (ha : a < n)
    (hb : b < n) : IsPerm (swapPerms perms a b) n := by
  obtain ⟨h1, h2, h3⟩ := hp
  refine ⟨by simp [swapPerms, h1], ?_, ?_⟩
  · intro i hi
    rw [swapPerms_getD _ _ _ _ (by omega) (by omega)]
    exact h2 _ (swapIdx_lt ha hb hi)
  · intro i j hi hj hij
    rw [swapPerms_getD _ _ _ _ (by omega) (by omega),
      swapPerms_getD _ _ _ _ (by omega) (by omega)] at hij
    have := h3 _ _ (swapIdx_lt ha hb hi) (swapIdx_lt ha hb hj) hij
    unfold swapIdx at this
    split_ifs at this <;> omega

theorem flags_close (b : Prop) [Decidable b] :
    ((PIVOT_CLOSE_TO_ZERO * (if b then 1 else 0)) &&& PIVOT_CLOSE_TO_ZERO ≠ 0 ↔ b) ∧
    (((PIVOT_CLOSE_TO_ZERO * (if b then 1 else 0)) ||| PIVOT_SWAPPED) &&& PIVOT_CLOSE_TO_ZERO ≠ 0
      ↔ b) ∧
    ((PIVOT_CLOSE_TO_ZERO * (if b then 1 else 0)) &&& PIVOT_SWAPPED = 0) ∧
    (((PIVOT_CLOSE_TO_ZERO * (if b then 1 else 0)) ||| PIVOT_SWAPPED) &&& PIVOT_SWAPPED ≠ 0) := by
  by_cases h : b <;> simp [h, PIVOT_CLOSE_TO_ZERO, PIVOT_SWAPPED]

/-- The routine `pivot` on a well-formed `n x n` matrix and `column < n`: it returns, with
`(bv, bc)` the result of the scan, the matrix with columns `column` and `bc` exchanged. -/
theorem pivot_spec (m : Mat) (n column : Nat) (perms : Option (List Nat)) (hm : m.Square n)
    (hcol : column < n) :
    ∃ bv bc flags t, pivotScan m column = .ok (bv, bc) ∧
      pivot m column perms = .ok (flags, t,
        if bc = column then perms else perms.map (fun p => swapPerms p column bc)) ∧
      column ≤ bc ∧ bc < n ∧ bv = |m.get column bc| ∧
      (∀ c, column ≤ c → c < n → |m.get column c| ≤ bv) ∧
      (∀ c, column ≤ c → c < bc → |m.get column c| < bv) ∧
      t.Square n ∧ (∀ r c, r < n → c < n → t.get r c = m.get r (swapIdx column bc c)) ∧
      (flags &&& PIVOT_CLOSE_TO_ZERO ≠ 0 ↔ bv < epsilon) ∧
      (flags &&& PIVOT_SWAPPED ≠ 0 ↔ bc ≠ column) := by
  obtain ⟨bv, bc, hscan, h1, h2, h3, h4, h5⟩ := pivotScan_spec m n column hm hcol
  have hsq : ¬ m.rows ≠ m.cols := by rw [hm.1, hm.2.1]; simp
  obtain ⟨f1, f2, f3, f4⟩ := flags_close (bv < epsilon)
  by_cases hbc : bc = column
  · refine ⟨bv, bc, PIVOT_CLOSE_TO_ZERO * (if bv < epsilon then 1 else 0), m, hscan, ?_,
      h1, h2, h3, h4, h5, hm, ?_, f1, ?_⟩
    · unfold pivot
      rw [if_neg hsq, hscan]
      simp only [bind, Except.bind, hbc, ne_eq, not_true_eq_false, if_false, if_true, pure,
        Except.pure]
    · intro r c _ _
      rw [hbc, swapIdx_self]
    · rw [f3]; simp [hbc]
  · obtain ⟨t, ht, g1, g2⟩ := swapColumns_spec m n column bc hm hcol h2 (Ne.symm hbc)
    refine ⟨bv, bc, (PIVOT_CLOSE_TO_ZERO * (if bv < epsilon then 1 else 0)) ||| PIVOT_SWAPPED,
      t, hscan, ?_, h1, h2, h3, h4, h5, g1, g2, f2, ?_⟩
    · unfold pivot
      rw [if_neg hsq, hscan]
      simp only [bind, Except.bind, ne_eq, Ne.symm hbc, not_false_eq_true, if_true, ht, hbc,
        if_false, pure, Except.pure]
    · exact ⟨fun _ => hbc, fun _ => f4⟩

/-- The row update loop: row `j` receives `factor` times row `i` on the columns in
`[lo, hi)`. -/
theorem addScaledRow_spec (m : Mat) (n j i lo hi : Nat) (factor : ℚ) (hm : m.Square n)
    (hj : j < n) (hi1 : i < n) (hji : j ≠ i) (hle : lo ≤ hi) (hhi : hi ≤ n) :
    ∃ t, addScaledRow m j i factor lo hi = .ok t ∧ t.Square n ∧
      ∀ r c, r < n → c < n →
        t.get r c = if r = j ∧ lo ≤ c ∧ c < hi then m.get r c + factor * m.get i c
          else m.get r c := by
  obtain ⟨t, ht, h1, h2⟩ := forUp_inv
    (b := fun k (m : Mat) => do
      let y ← m.at_ i k
      let x ← m.at_ j k
      m.assign j k (x + factor * y))
    (fun k (t : Mat) => t.Square n ∧
      ∀ r c, r < n → c < n →
        t.get r c = if r = j ∧ lo ≤ c ∧ c < k then m.get r c + factor * m.get i c
          else m.get r c)
    (l := lo) (h := hi) (s := m) hle
    ⟨hm, fun r c _ _ => by
      have : ¬ (r = j ∧ lo ≤ c ∧ c < lo) := by omega
      rw [if_neg this]⟩
    (by
      intro k t hk hk2 ⟨h1, h2⟩
      obtain ⟨tr, tc, tl⟩ := h1
      have hsq : t.Square n := ⟨tr, tc, tl⟩
      have e1 : t.at_ i k = .ok (t.get i k) := Mat.at_ok (by omega) (by omega)
      have e2 : t.at_ j k = .ok (t.get j k) := Mat.at_ok (by omega) (by omega)
      have e3 : t.assign j k (t.get j k + factor * t.get i k) =
          .ok (t.put j k (t.get j k + factor * t.get i k)) :=
        Mat.assign_ok _ (by omega) (by omega)
      refine ⟨t.put j k (t.get j k + factor * t.get i k),
        by simp only [e1, e2, e3, bind, Except.bind], Mat.put_square hsq _ _ _, ?_⟩
      intro r c hr hc
      rw [Mat.get_put hsq.wf _ (by omega) (by omega) (by omega), h2 r c hr hc,
        h2 j k hj (by omega), h2 i k hi1 (by omega)]
      have hij : ¬ (i = j ∧ lo ≤ k ∧ k < k) := by omega
      have hjk : ¬ (j = j ∧ lo ≤ k ∧ k < k) := by omega
      rw [if_neg hij, if_neg hjk]
      by_cases hrj : r = j
      · by_cases hck : c = k
        · subst hrj; subst hck
          have : r = r ∧ lo ≤ c ∧ c < c + 1 := by omega
          simp [this]
        · have : (r = j ∧ lo ≤ c ∧ c < k + 1) ↔ (r = j ∧ lo ≤ c ∧ c < k) := by omega
          simp only [this, hck, and_false, if_false]
      · have a1 : ¬ (r = j ∧ c = k) := by omega
        have a2 : ¬ (r = j ∧ lo ≤ c ∧ c < k + 1) := by omega
        have a3 : ¬ (r = j ∧ lo ≤ c ∧ c < k) := by omega
        rw [if_neg a1, if_neg a2, if_neg a3])
  exact ⟨t, ht, h1, h2⟩

/-- The elimination of one row in `abs`. -/
theorem absRow_spec (m : Mat) (n i j : Nat) (hm : m.Square n) (hi : i < n) (hj : j < n)
    (hij : i < j) :
    ∃ t, absRow i j m = .ok t ∧ t.Square n ∧
      ∀ r c, r < n → c < n →
        t.get r c = if r = j ∧ i < c then m.get r c + -(m.get j i) / m.get i i * m.get i c
          else m.get r c := by
  have e1 : m.at_ j i = .ok (m.get j i) := Mat.at_ok (by rw [hm.1]; omega) (by rw [hm.2.1]; omega)
  have e2 : m.at_ i i = .ok (m.get i i) := Mat.at_ok (by rw [hm.1]; omega) (by rw [hm.2.1]; omega)
  obtain ⟨t, ht, h1, h2⟩ := addScaledRow_spec m n j i (i + 1) n (-(m.get j i) / m.get i i) hm hj hi
    (by omega) (by omega) (le_refl _)
  refine ⟨t, ?_, h1, ?_⟩
  · unfold absRow
    simp only [e1, e2, bind, Except.bind, hm.2.1]
    exact ht
  · intro r c hr hc
    rw [h2 r c hr hc]
    have : (r = j ∧ i + 1 ≤ c ∧ c < n) ↔ (r = j ∧ i < c) := by omega
    simp only [this]

/-- The elimination loop of `abs` at column `i`: every row below `i` receives its
multiple of row `i` on the columns after `i`. -/
theorem absRows_spec (m : Mat) (n i : Nat) (hm : m.Square n) (hi : i < n) :
    ∃ t, forUp (i + 1) m.rows (absRow i) m = .ok t ∧ t.Square n ∧
      ∀ r c, r < n → c < n →
        t.get r c = if i < r ∧ i < c then m.get r c + -(m.get r i) / m.get i i * m.get i c
          else m.get r c := by
  obtain ⟨t, ht, h1, h2⟩ := forUp_inv (b := absRow i)
    (fun k (t : Mat) => t.Square n ∧
      ∀ r c, r < n → c < n →
        t.get r c = if i < r ∧ r < k ∧ i < c then
          m.get r c + -(m.get r i) / m.get i i * m.get i c else m.get r c)
    (l := i + 1) (h := m.rows) (s := m) (by rw [hm.1]; omega)
    ⟨hm, fun r c _ _ => by
      have : ¬ (i < r ∧ r < i + 1 ∧ i < c) := by omega
      rw [if_neg this]⟩
    (by
      intro k t hk hk2 ⟨h1, h2⟩
      rw [hm.1] at hk2
      obtain ⟨u, hu, g1, g2⟩ := absRow_spec t n i k h1 hi hk2 (by omega)
      refine ⟨u, hu, g1, ?_⟩
      intro r c hr hc
      rw [g2 r c hr hc, h2 r c hr hc, h2 k i hk2 hi, h2 i i hi hi, h2 i c hi hc]
      have a1 : ¬ (i < k ∧ k < k ∧ i < i) := by omega
      have a2 : ¬ (i < i ∧ i < k ∧ i < i) := by omega
      have a3 : ¬ (i < i ∧ i < k ∧ i < c) := by omega
      rw [if_neg a1, if_neg a2, if_neg a3]
      by_cases hrk : r = k
      · subst hrk
        by_cases hic : i < c
        · have b1 : r = r ∧ i < c := ⟨rfl, hic⟩
          have b2 : ¬ (i < r ∧ r < r ∧ i < c) := by omega
          have b3 : i < r ∧ r < r + 1 ∧ i < c := by omega
          rw [if_pos b1, if_neg b2, if_pos b3]
        · have b1 : ¬ (r = r ∧ i < c) := by omega
          have b2 : ¬ (i < r ∧ r < r ∧ i < c) := by omega
          have b3 : ¬ (i < r ∧ r < r + 1 ∧ i < c) := by omega
          rw [if_neg b1, if_neg b2, if_neg b3]
      · have b1 : ¬ (r = k ∧ i < c) := by omega
        have b2 : (i < r ∧ r < k + 1 ∧ i < c) ↔ (i < r ∧ r < k ∧ i < c) := by omega
        rw [if_neg b1]
        simp only [b2])
  refine ⟨t, ht, h1, ?_⟩
  intro r c hr hc
  rw [h2 r c hr hc]
  have : (i < r ∧ r < m.rows ∧ i < c) ↔ (i < r ∧ i < c) := by rw [hm.1]; omega
  simp only [this]

theorem upperPart_zero (m : Mat) (n : Nat) : m.upperPart n 0 = m.toMatrix n := by
  ext r c
  simp [Mat.upperPart, Mat.toMatrix]

/-- Exchanging two columns from position `i` on negates the determinant of the part
still to be eliminated. -/
theorem upperPart_swap_det (m t : Mat) (n i b : Nat) (hi : i < n) (hb : b < n) (hib : i ≤ b)
    (h : ∀ r c, r < n → c < n → t.get r c = m.get r (swapIdx i b c)) :
    (t.upperPart n i).det = (if b = i then 1 else -1) * (m.upperPart n i).det := by
  by_cases hbi : b = i
  · subst hbi
    have : t.upperPart n b = m.upperPart n b := by
      ext r c
      simp only [Mat.upperPart, Matrix.of_apply]
      rw [h r c r.2 c.2, swapIdx_self]
    rw [this]; simp
  · have e : t.upperPart n i =
        (m.upperPart n i).submatrix id (Equiv.swap (⟨i, hi⟩ : Fin n) ⟨b, hb⟩) := by
      ext r c
      simp only [Mat.upperPart, Matrix.of_apply, Matrix.submatrix_apply, id]
      rw [h r c r.2 c.2]
      have hs : ((Equiv.swap (⟨i, hi⟩ : Fin n) ⟨b, hb⟩) c).val = swapIdx i b c.val := by
        rw [Equiv.swap_apply_def]
        unfold swapIdx
        by_cases h1 : c.val = i
        · have : c = ⟨i, hi⟩ := Fin.ext h1
          simp [this]
        · have h1f : c ≠ ⟨i, hi⟩ := fun hh => h1 (congrArg Fin.val hh)
          by_cases h2 : c.val = b
          · have : c = ⟨b, hb⟩ := Fin.ext h2
            simp [this, hbi]
          · have h2f : c ≠ ⟨b, hb⟩ := fun hh => h2 (congrArg Fin.val hh)
            simp [h1, h2, h1f, h2f]
      rw [hs]
      have hc : (min r.val i ≤ c.val) ↔ (min r.val i ≤ swapIdx i b c.val) := by
        unfold swapIdx
        split_ifs <;> omega
      by_cases hh : min r.val i ≤ c.val
      · rw [if_pos hh, if_pos (hc.mp hh)]
      · rw [if_neg hh, if_neg (fun h2 => hh (hc.mpr h2))]
    rw [e, Matrix.det_permute', Equiv.Perm.sign_swap, if_neg hbi]
    · simp
    · intro hh
      exact hbi (congrArg Fin.val hh).symm

/-- Adding multiples of row `i` to the rows below it leaves the determinant of the part
still to be eliminated unchanged. -/
theorem upperPart_elim_det (m t : Mat) (n i : Nat) (hi : i < n) (hp : m.get i i ≠ 0)
    (h : ∀ r c, r < n → c < n →
      t.get r c = if i < r ∧ i < c then m.get r c + -(m.get r i) / m.get i i * m.get i c
        else m.get r c) :
    (t.upperPart n (i + 1)).det = (m.upperPart n i).det := by
  refine Matrix.det_eq_of_forall_row_eq_smul_add_const
    (fun r : Fin n => if i < r.val then -(m.get r i) / m.get i i else 0) ⟨i, hi⟩
    (by simp) ?_
  intro r c
  simp only [Mat.upperPart, Matrix.of_apply]
  rw [h r c r.2 c.2]
  by_cases hr : i < r.val
  · have m1 : min r.val (i + 1) = i + 1 := by omega
    have m2 : min r.val i = i := by omega
    rw [m1, m2, if_pos hr, min_self]
    by_cases hc : i + 1 ≤ c.val
    · have c1 : i < r.val ∧ i < c.val := ⟨hr, by omega⟩
      have c2 : i ≤ c.val := by omega
      simp only [if_pos hc, if_pos c1, if_pos c2]
    · rw [if_neg hc]
      by_cases hc2 : i ≤ c.val
      · have : c.val = i := by omega
        simp only [if_pos hc2, this]
        field_simp
      · simp only [if_neg hc2]; simp
  · have m1 : min r.val (i + 1) = r.val := by omega
    have m2 : min r.val i = r.val := by omega
    have c1 : ¬ (i < r.val ∧ i < c.val) := by omega
    rw [m1, m2, if_neg hr, if_neg c1]
    simp

theorem upperPart_full_det (m : Mat) (n : Nat) :
    (m.upperPart n n).det = ∏ r in Finset.range n, m.get r r := by
  have htri : (m.upperPart n n).BlockTriangular id := by
    intro r c hcr
    simp only [id] at hcr
    have : ¬ (min r.val n ≤ c.val) := by
      have := r.2
      have hlt : c.val < r.val := hcr
      omega
    show (if min r.val n ≤ c.val then m.get r c else 0) = 0
    rw [if_neg this]
  rw [Matrix.det_of_upperTriangular htri, ← Fin.prod_univ_eq_prod_range (fun r => m.get r r) n]
  refine Finset.prod_congr rfl ?_
  intro r _
  have : min r.val n ≤ r.val := by omega
  show (if min r.val n ≤ r.val then m.get r r else 0) = m.get r r
  rw [if_pos this]

theorem epsilon_pos : 0 < epsilon := by
  unfold epsilon; positivity

/-- The routine `copy` returns a well-formed matrix with the same elements. -/
theorem copy_spec (A : Mat) (n : Nat) (hr : A.rows = n) (hc : A.cols = n) :
    (copy A).Square n ∧ ∀ r c, r < n → c < n → (copy A).get r c = A.get r c := by
  refine ⟨⟨hr, hc, by simp [copy, create_matrix, hr, hc]⟩, ?_⟩
  intro r c hr1 hc1
  have hlt : r * A.cols + c < A.rows * A.cols := flat_lt (by omega) (by omega)
  simp only [Mat.get, copy, create_matrix, Mat.load, List.getD_eq_getElem?_getD,
    List.getElem?_map, List.getElem?_range hlt]
  simp [Mat.load]

/-- One iteration of the main loop of `abs` on a state that has not stopped. -/
theorem absStep_spec (s : AbsState) (n i : Nat) (hs : s.upper.Square n) (hi : i < n)
    (hns : s.stopped = false) :
    ∃ bv bc t u, i ≤ bc ∧ bc < n ∧ bv = |t.get i i| ∧ t.Square n ∧ u.Square n ∧
      (∀ r c, r < n → c < n → t.get r c = s.upper.get r (swapIdx i bc c)) ∧
      (∀ r c, r < n → c < n →
        u.get r c = if i < r ∧ i < c then t.get r c + -(t.get r i) / t.get i i * t.get i c
          else t.get r c) ∧
      absStep i s = .ok (if bv < epsilon then { upper := t, det := 0, stopped := true }
        else { upper := u, det := (if bc = i then s.det else -s.det) * t.get i i,
               stopped := false }) := by
  obtain ⟨bv, bc, flags, t, -, hp, h1, h2, h3, -, -, h6, h7, h8, h9⟩ :=
    pivot_spec s.upper n i none hs hi
  obtain ⟨u, hu, g1, g2⟩ := absRows_spec t n i h6 hi
  have hbv : bv = |t.get i i| := by
    rw [h3, h7 i i hi hi]
    unfold swapIdx; simp
  refine ⟨bv, bc, t, u, h1, h2, hbv, h6, g1, h7, g2, ?_⟩
  have e1 : t.at_ i i = .ok (t.get i i) := Mat.at_ok (by rw [h6.1]; exact hi)
    (by rw [h6.2.1]; exact hi)
  unfold absStep
  simp only [hns, Bool.false_eq_true, if_false, hp, bind, Except.bind]
  by_cases hz : bv < epsilon
  · have : flags &&& PIVOT_CLOSE_TO_ZERO ≠ 0 := h8.mpr hz
    rw [if_pos this, if_pos hz]
    rfl
  · have hf : ¬ (flags &&& PIVOT_CLOSE_TO_ZERO ≠ 0) := fun h => hz (h8.mp h)
    rw [if_neg hf, if_neg hz]
    simp only [e1, hu, pure, Except.pure]
    by_cases hb : bc = i
    · have : ¬ (flags &&& PIVOT_SWAPPED ≠ 0) := fun h => (h9.mp h) hb
      rw [if_neg this, if_pos hb]
    · have : flags &&& PIVOT_SWAPPED ≠ 0 := h9.mpr hb
      rw [if_pos this, if_neg hb]

/-- The main loop of `abs` on an `n x n` matrix: it returns; when it was left by `break`
the result is `0`, otherwise it is the determinant, which is then not `0`. -/
theorem absLoop_spec (A : Mat) (n : Nat) (hr : A.rows = n) (hc : A.cols = n) :
    ∃ s, absLoop A = .ok s ∧ s.upper.Square n ∧ (s.stopped = true → s.det = 0) ∧
      (s.stopped = false → s.det = (A.toMatrix n).det ∧ s.det ≠ 0) := by
  obtain ⟨hsq, hget⟩ := copy_spec A n hr hc
  have hA : (copy A).upperPart n 0 = A.toMatrix n := by
    rw [upperPart_zero]
    ext r c
    simp only [Mat.toMatrix, Matrix.of_apply]
    exact hget r c r.2 c.2
  obtain ⟨s, hs, h1, h2, h3⟩ := forUp_inv (b := absStep)
    (fun t (s : AbsState) => s.upper.Square n ∧ (s.stopped = true → s.det = 0) ∧
      (s.stopped = false → (∀ r, r < t → s.upper.get r r ≠ 0) ∧ s.det ≠ 0 ∧
        (A.toMatrix n).det * ∏ r in Finset.range t, s.upper.get r r =
          s.det * (s.upper.upperPart n t).det))
    (l := 0) (h := (copy A).cols) (s := { upper := copy A, det := 1, stopped := false })
    (Nat.zero_le _)
    ⟨hsq, fun h => by simp at h, fun _ => ⟨fun r hr => by omega, one_ne_zero, by simp [hA]⟩⟩
    (by
      intro i s _ hi ⟨h1, h2, h3⟩
      rw [hsq.2.1] at hi
      by_cases hst : s.stopped = true
      · refine ⟨s, by simp [absStep, hst], h1, h2, fun h => ?_⟩
        rw [hst] at h; simp at h
      · have hns : s.stopped = false := by simpa using hst
        obtain ⟨g1, g2, g3⟩ := h3 hns
        obtain ⟨bv, bc, t, u, k1, k2, k3, k4, k5, k6, k7, k8⟩ := absStep_spec s n i h1 hi hns
        refine ⟨_, k8, ?_⟩
        by_cases hz : bv < epsilon
        · rw [if_pos hz]
          exact ⟨k4, fun _ => rfl, fun h => Bool.noConfusion h⟩
        · rw [if_neg hz]
          have hpiv : t.get i i ≠ 0 := by
            intro h0
            apply hz
            rw [k3, h0, abs_zero]
            exact epsilon_pos
          have hdiag_t : ∀ r, r < i → t.get r r = s.upper.get r r := by
            intro r hr
            rw [k6 r r (by omega) (by omega)]
            have : swapIdx i bc r = r := by unfold swapIdx; split_ifs <;> omega
            rw [this]
          have hdiag_u : ∀ r, r < i + 1 → u.get r r = t.get r r := by
            intro r hr
            rw [k7 r r (by omega) (by omega)]
            have : ¬ (i < r ∧ i < r) := by omega
            rw [if_neg this]
          refine ⟨k5, fun h => Bool.noConfusion h, fun _ => ⟨?_, ?_, ?_⟩⟩
          · intro r hr
            show u.get r r ≠ 0
            rw [hdiag_u r hr]
            by_cases hri : r = i
            · rw [hri]; exact hpiv
            · rw [hdiag_t r (by omega)]; exact g1 r (by omega)
          · show (if bc = i then s.det else -s.det) * t.get i i ≠ 0
            by_cases hb : bc = i
            · rw [if_pos hb]; exact mul_ne_zero g2 hpiv
            · rw [if_neg hb]; exact mul_ne_zero (neg_ne_zero.mpr g2) hpiv
          · show (A.toMatrix n).det * ∏ r in Finset.range (i + 1), u.get r r =
              (if bc = i then s.det else -s.det) * t.get i i * (u.upperPart n (i + 1)).det
            have hprod : ∏ r in Finset.range (i + 1), u.get r r =
                (∏ r in Finset.range i, s.upper.get r r) * t.get i i := by
              rw [Finset.prod_range_succ, hdiag_u i (by omega)]
              congr 1
              refine Finset.prod_congr rfl ?_
              intro r hr
              have hr2 : r < i := Finset.mem_range.mp hr
              rw [hdiag_u r (by omega), hdiag_t r hr2]
            rw [hprod, upperPart_elim_det t u n i hi hpiv k7,
              upperPart_swap_det s.upper t n i bc hi k2 k1 k6, ← mul_assoc, g3]
            by_cases hb : bc = i
            · simp only [hb, if_true]; ring
            · simp only [hb, if_false]; ring)
  refine ⟨s, ?_, h1, h2, ?_⟩
  · unfold absLoop
    have : ¬ A.rows ≠ A.cols := by rw [hr, hc]; simp
    rw [if_neg this]
    exact hs
  · intro hns
    rw [hsq.2.1] at h3
    obtain ⟨g1, g2, g3⟩ := h3 hns
    rw [upperPart_full_det] at g3
    have hne : ∏ r in Finset.range n, s.upper.get r r ≠ 0 :=
      Finset.prod_ne_zero_iff.mpr (fun r hr => g1 r (Finset.mem_range.mp hr))
    exact ⟨(mul_right_cancel₀ hne g3).symm, g2⟩

/-- C6. For `left` of shape `r x s` and `right` of shape `s x c`, `multiply` returns a
well-formed matrix with `left.rows` rows and `right.cols` columns whose entry `(i, k)` is
the sum over `j < s` of `left(i, j) * right(j, k)`; when `s = 0` every entry is `0`. -/
theorem multiply_is_matrix_product (left right : Mat) (h : left.cols = right.rows) :
    ∃ res, multiply left right = .ok res ∧ res.rows = left.rows ∧ res.cols = right.cols ∧
      res.WF ∧
      (∀ i k, i < left.rows → k < right.cols →
        res.at_ i k = .ok (∑ j in Finset.range left.cols, left.get i j * right.get j k)) ∧
      (left.cols = 0 → ∀ i k, i < left.rows → k < right.cols → res.at_ i k = .ok 0) := by
  obtain ⟨res, h1, h2, h3, h4, h5⟩ := multiply_spec left right h
  refine ⟨res, h1, h2, h3, h4, ?_, ?_⟩
  · intro i k hi hk
    rw [Mat.at_ok (by omega) (by omega), h5 i k hi hk]
  · intro h0 i k hi hk
    rw [Mat.at_ok (by omega) (by omega), h5 i k hi hk, h0]
    simp

set_option maxRecDepth 100000 in
/-- C6, at `[[1,2],[3,4]] * [[5],[6]] = [[17],[39]]`. -/
theorem multiply_is_matrix_product_witness :
    (∃ res, multiply ⟨[1, 2, 3, 4], 2, 2⟩ ⟨[5, 6], 2, 1⟩ = .ok res ∧ res.rows = 2 ∧
      res.cols = 1 ∧ res.WF ∧
      (∀ i k, i < 2 → k < 1 →
        res.at_ i k = .ok (∑ j in Finset.range 2,
          (⟨[1, 2, 3, 4], 2, 2⟩ : Mat).get i j * (⟨[5, 6], 2, 1⟩ : Mat).get j k)) ∧
      ((2 : Nat) = 0 → ∀ i k, i < 2 → k < 1 → res.at_ i k = .ok 0)) ∧
    multiply ⟨[1, 2, 3, 4], 2, 2⟩ ⟨[5, 6], 2, 1⟩ = .ok ⟨[17, 39], 2, 1⟩ :=
  ⟨multiply_is_matrix_product ⟨[1, 2, 3, 4], 2, 2⟩ ⟨[5, 6], 2, 1⟩ rfl, by
    norm_num [multiply, zeroFill, create_matrix, forUp, forUpAux, forDown, Mat.at_, Mat.ref,
      Mat.load, Mat.store, Mat.assign, bind, Except.bind, List.replicate]⟩

/-- C7. On a well-formed `n x n` matrix with `column < n`, the scan of `pivot` selects
`best_column` in `[column, n)`, the first index there at which the magnitude of row
`column` is largest; `pivot` returns the matrix with columns `column` and `best_column`
exchanged, and after the call the diagonal element of row `column` has a magnitude at
least that of every element of that row in `[column, n)`. -/
theorem pivot_selects_largest (m : Mat) (n column : Nat) (perms : Option (List Nat))
    (hm : m.Square n) (hcol : column < n) :
    ∃ best_value best_column flags t perms1,
      pivotScan m column = .ok (best_value, best_column) ∧
      pivot m column perms = .ok (flags, t, perms1) ∧
      column ≤ best_column ∧ best_column < n ∧
      (∀ i, column ≤ i → i < n → |m.get column i| ≤ |m.get column best_column|) ∧
      (∀ i, column ≤ i → i < best_column → |m.get column i| < |m.get column best_column|) ∧
      (∀ r c, r < n → c < n → t.get r c = m.get r (swapIdx column best_column c)) ∧
      (∀ i, column ≤ i → i < n → |t.get column i| ≤ |t.get column column|) := by
  obtain ⟨bv, bc, flags, t, h0, hp, h1, h2, h3, h4, h5, -, h7, -, -⟩ :=
    pivot_spec m n column perms hm hcol
  refine ⟨bv, bc, flags, t, _, h0, hp, h1, h2, ?_, ?_, h7, ?_⟩
  · intro i hi1 hi2; rw [← h3]; exact h4 i hi1 hi2
  · intro i hi1 hi2; rw [← h3]; exact h5 i hi1 hi2
  · intro i hi1 hi2
    rw [h7 column i hcol hi2, h7 column column hcol hcol]
    have e : swapIdx column bc column = bc := by unfold swapIdx; simp
    rw [e, ← h3]
    apply h4
    · unfold swapIdx; split_ifs <;> omega
    · exact swapIdx_lt hcol h2 hi2

/-- C7, at `[[1,-5,5],[0,1,0],[0,0,1]]` and `column = 0`. -/
theorem pivot_selects_largest_witness :
    (⟨[1, -5, 5, 0, 1, 0, 0, 0, 1], 3, 3⟩ : Mat).Square 3 ∧ 0 < 3 ∧
    ∃ best_value best_column flags t perms1,
      pivotScan ⟨[1, -5, 5, 0, 1, 0, 0, 0, 1], 3, 3⟩ 0 = .ok (best_value, best_column) ∧
      pivot ⟨[1, -5, 5, 0, 1, 0, 0, 0, 1], 3, 3⟩ 0 none = .ok (flags, t, perms1) ∧
      0 ≤ best_column ∧ best_column < 3 ∧
      (∀ i, 0 ≤ i → i < 3 → |(⟨[1, -5, 5, 0, 1, 0, 0, 0, 1], 3, 3⟩ : Mat).get 0 i| ≤
        |(⟨[1, -5, 5, 0, 1, 0, 0, 0, 1], 3, 3⟩ : Mat).get 0 best_column|) ∧
      (∀ i, 0 ≤ i → i < best_column →
        |(⟨[1, -5, 5, 0, 1, 0, 0, 0, 1], 3, 3⟩ : Mat).get 0 i| <
        |(⟨[1, -5, 5, 0, 1, 0, 0, 0, 1], 3, 3⟩ : Mat).get 0 best_column|) ∧
      (∀ r c, r < 3 → c < 3 →
        t.get r c = (⟨[1, -5, 5, 0, 1, 0, 0, 0, 1], 3, 3⟩ : Mat).get r (swapIdx 0 best_column c)) ∧
      (∀ i, 0 ≤ i → i < 3 → |t.get 0 i| ≤ |t.get 0 0|) :=
  ⟨⟨rfl, rfl, rfl⟩, by decide,
    pivot_selects_largest ⟨[1, -5, 5, 0, 1, 0, 0, 0, 1], 3, 3⟩ 3 0 none ⟨rfl, rfl, rfl⟩
      (by decide)⟩

/-- C2. On an `n x n` matrix during whose elimination no pivot step reports near-zero
(the main loop of `abs` is not left by `break`), `abs` returns the determinant. -/
theorem abs_eq_det (A : Mat) (n : Nat) (s : AbsState) (hr : A.rows = n) (hc : A.cols = n)
    (hs : absLoop A = .ok s) (hns : s.stopped = false) :
    A.abs = .ok (A.toMatrix n).det := by
  obtain ⟨s1, h1, -, -, h4⟩ := absLoop_spec A n hr hc
  rw [hs] at h1
  cases h1
  unfold Mat.abs
  rw [hs]
  show Except.ok s.det = _
  rw [(h4 hns).1]

set_option maxRecDepth 100000 in
/-- C2, at `[[4,3],[6,3]]`, where `abs` returns `-6`. -/
theorem abs_eq_det_witness :
    absLoop ⟨[4, 3, 6, 3], 2, 2⟩ = .ok ⟨⟨[4, 3, 6, -3 / 2], 2, 2⟩, -6, false⟩ ∧
    (⟨[4, 3, 6, 3], 2, 2⟩ : Mat).abs = .ok ((⟨[4, 3, 6, 3], 2, 2⟩ : Mat).toMatrix 2).det ∧
    ((⟨[4, 3, 6, 3], 2, 2⟩ : Mat).toMatrix 2).det = -6 := by
  have h : absLoop ⟨[4, 3, 6, 3], 2, 2⟩ = .ok ⟨⟨[4, 3, 6, -3 / 2], 2, 2⟩, -6, false⟩ := by
    norm_num [absLoop, copy, create_matrix, forUp, forUpAux, absStep, pivot,
      pivotScan, Mat.at_, Mat.ref, Mat.load, Mat.store, Mat.assign, swapColumns, absRow,
      addScaledRow, epsilon, PIVOT_CLOSE_TO_ZERO, PIVOT_SWAPPED, bind, Except.bind, pure,
      Except.pure, List.range, List.range.loop, abs_eq_max_neg, max_def]
  refine ⟨h, abs_eq_det ⟨[4, 3, 6, 3], 2, 2⟩ 2 _ rfl rfl h rfl, ?_⟩
  norm_num [Matrix.det_fin_two, Mat.toMatrix, Mat.get, Mat.load]

/-- The result of `abs` on an `n x n` matrix, read from the final state of its loop. -/
theorem abs_cases (A : Mat) (n : Nat) (hr : A.rows = n) (hc : A.cols = n) :
    (A.abs = .ok 0 ∧ ∃ s, absLoop A = .ok s ∧ s.stopped = true) ∨
    (A.abs = .ok (A.toMatrix n).det ∧ (A.toMatrix n).det ≠ 0 ∧
      ∃ s, absLoop A = .ok s ∧ s.stopped = false) := by
  obtain ⟨s, h1, -, h3, h4⟩ := absLoop_spec A n hr hc
  have habs : A.abs = .ok s.det := by
    unfold Mat.abs
    rw [h1]
  cases hst : s.stopped with
  | true =>
    left
    exact ⟨by rw [habs, h3 hst], s, h1, hst⟩
  | false =>
    right
    obtain ⟨g1, g2⟩ := h4 hst
    exact ⟨by rw [habs, g1], by rw [← g1]; exact g2, s, h1, hst⟩

/-- Exchanging two distinct columns negates the determinant of the matrix held. -/
theorem toMatrix_swap_det (A B : Mat) (n p q : Nat) (hp : p < n) (hq : q < n) (hpq : p ≠ q)
    (h : ∀ r c, r < n → c < n → B.get r c = A.get r (swapIdx p q c)) :
    (B.toMatrix n).det = -(A.toMatrix n).det := by
  have e : B.toMatrix n =
      (A.toMatrix n).submatrix id (Equiv.swap (⟨p, hp⟩ : Fin n) ⟨q, hq⟩) := by
    ext r c
    simp only [Mat.toMatrix, Matrix.of_apply, Matrix.submatrix_apply, id]
    rw [h r c r.2 c.2]
    have hs : ((Equiv.swap (⟨p, hp⟩ : Fin n) ⟨q, hq⟩) c).val = swapIdx p q c.val := by
      rw [Equiv.swap_apply_def]
      unfold swapIdx
      by_cases h1 : c.val = p
      · have : c = ⟨p, hp⟩ := Fin.ext h1
        simp [this]
      · have h1f : c ≠ ⟨p, hp⟩ := fun hh => h1 (congrArg Fin.val hh)
        by_cases h2 : c.val = q
        · have : c = ⟨q, hq⟩ := Fin.ext h2
          simp [this, Ne.symm hpq]
        · have h2f : c ≠ ⟨q, hq⟩ := fun hh => h2 (congrArg Fin.val hh)
          simp [h1, h2, h1f, h2f]
    rw [hs]
  rw [e, Matrix.det_permute', Equiv.Perm.sign_swap]
  · simp
  · intro hh
    exact hpq (congrArg Fin.val hh)

/-- The rounding done by `allocate`: without wrap-around, the request `n` becomes the
multiple `r` of the pointer size with `n ≤ r < n + 8`. -/
theorem allocate_rounding (n r : Nat) (hn : n + 7 < SIZE_MODULUS) (hr8 : POINTER_SIZE ∣ r)
    (hrn : n ≤ r) (hrn2 : r < n + POINTER_SIZE) :
    (n + (POINTER_SIZE - 1)) % SIZE_MODULUS -
      (n + (POINTER_SIZE - 1)) % SIZE_MODULUS % POINTER_SIZE = r := by
  unfold POINTER_SIZE SIZE_MODULUS at *
  obtain ⟨k, hk⟩ := hr8
  rw [Nat.mod_eq_of_lt hn]
  omega

/-- C8. For an arena with cursor `s` and capacity `c` and a request of `n` bytes, with `r`
the request rounded up to the next multiple of the pointer size, and no wrap-around in
`n + 7` and `s + r`: `allocate` succeeds exactly when `s + r ≤ c`; it then returns the
block at offset `s` and moves the cursor to `s + r`; otherwise it returns `NULL` and
leaves the cursor unchanged. The same holds through `allocate(Allocator &, size_t)`. -/
theorem arena_allocate_spec (malloc : Nat → Option Nat) (s c n r : Nat)
    (hn : n + 7 < SIZE_MODULUS) (hr8 : POINTER_SIZE ∣ r) (hrn : n ≤ r)
    (hrn2 : r < n + POINTER_SIZE) (hs : s + r < SIZE_MODULUS) :
    LinearAllocator.allocate ⟨s, c⟩ n =
      (if s + r ≤ c then (some s, ⟨s + r, c⟩) else (none, ⟨s, c⟩)) ∧
    Allocator.allocate malloc (.Linear ⟨s, c⟩) n =
      (if s + r ≤ c then (some s, .Linear ⟨s + r, c⟩) else (none, .Linear ⟨s, c⟩)) := by
  have h1 : LinearAllocator.allocate ⟨s, c⟩ n =
      (if s + r ≤ c then (some s, ⟨s + r, c⟩) else (none, ⟨s, c⟩)) := by
    unfold LinearAllocator.allocate
    simp only [allocate_rounding n r hn hr8 hrn hrn2, Nat.mod_eq_of_lt hs]
    by_cases h : s + r ≤ c
    · rw [if_pos h, if_neg (by omega)]
    · rw [if_neg h, if_pos (by omega)]
  refine ⟨h1, ?_⟩
  unfold Allocator.allocate
  simp only [h1]
  by_cases h : s + r ≤ c
  · simp only [if_pos h]
  · simp only [if_neg h]

/-- C8, on an arena of capacity 16: `allocate(8)` succeeds, `allocate(8)` succeeds and
leaves the cursor at 16, `allocate(1)` fails. -/
theorem arena_allocate_spec_witness :
    (LinearAllocator.allocate ⟨0, 16⟩ 8 = (some 0, ⟨8, 16⟩) ∧
      Allocator.allocate (fun _ => none) (.Linear ⟨0, 16⟩) 8 = (some 0, .Linear ⟨8, 16⟩)) ∧
    (LinearAllocator.allocate ⟨8, 16⟩ 8 = (some 8, ⟨16, 16⟩) ∧
      Allocator.allocate (fun _ => none) (.Linear ⟨8, 16⟩) 8 = (some 8, .Linear ⟨16, 16⟩)) ∧
    (LinearAllocator.allocate ⟨16, 16⟩ 1 = (none, ⟨16, 16⟩) ∧
      Allocator.allocate (fun _ => none) (.Linear ⟨16, 16⟩) 1 = (none, .Linear ⟨16, 16⟩)) :=
  ⟨arena_allocate_spec (fun _ => none) 0 16 8 8 (by decide) (by decide) (by decide)
      (by decide) (by decide),
    arena_allocate_spec (fun _ => none) 8 16 8 8 (by decide) (by decide) (by decide)
      (by decide) (by decide),
    arena_allocate_spec (fun _ => none) 16 16 1 8 (by decide) (by decide) (by decide)
      (by decide) (by decide)⟩

/-- After `allocate` the cursor is within the capacity whenever it was before. -/
theorem allocate_cursor_le_capacity (a : LinearAllocator) (size : Nat)
    (h : a.size ≤ a.capacity) : (a.allocate size).2.size ≤ (a.allocate size).2.capacity := by
  unfold LinearAllocator.allocate
  simp only
  split_ifs with hgt
  · exact h
  · exact not_lt.mp hgt

/-- The routine `deallocate` leaves an arena as it is. -/
theorem deallocate_linear (a : LinearAllocator) (data : Option Nat) :
    Allocator.deallocate (.Linear a) data = .Linear a := rfl

/-- C9 fails on the code. On an arena with cursor 16 and capacity 16 the request
`2^64 - 8` makes `allocator.size + size` wrap around to 8: `allocate` returns the block at
offset 16 and moves the cursor back to 8. -/
theorem arena_cursor_moves_back :
    LinearAllocator.allocate ⟨16, 16⟩ (2 ^ 64 - 8) = (some 16, ⟨8, 16⟩) ∧
    2 ^ 64 - 8 < SIZE_MODULUS ∧
    (LinearAllocator.allocate ⟨16, 16⟩ (2 ^ 64 - 8)).2.size < 16 := by
  decide

/-- C10 fails on the code. On an arena with cursor 0 and capacity 16 the request
`2^64 - 1` is rounded to 0 because `size + 7` wraps around: `allocate` returns the block
at offset 0 and the cursor stays at 0, so the block does not hold `2^64 - 1` bytes. -/
theorem arena_block_too_small :
    LinearAllocator.allocate ⟨0, 16⟩ (2 ^ 64 - 1) = (some 0, ⟨0, 16⟩) ∧
    2 ^ 64 - 1 < SIZE_MODULUS ∧
    ¬ (0 + (2 ^ 64 - 1) ≤ 16) ∧
    ¬ ((LinearAllocator.allocate ⟨0, 16⟩ (2 ^ 64 - 1)).2.size ≥ 0 + (2 ^ 64 - 1)) := by
  decide

/-- The elimination of one row in the forward pass of `inverse`. -/
theorem forwardRow_spec (m : Mat) (n i j : Nat) (hm : m.Square n) (hi : i < n) (hj : j < n)
    (hij : i < j) :
    ∃ t, forwardRow i j m = .ok t ∧ t.Square n ∧
      ∀ r c, r < n → c < n →
        t.get r c = if r = j then
            (if c = i then -(m.get j i) / m.get i i
              else m.get r c + -(m.get j i) / m.get i i * m.get i c)
          else m.get r c := by
  have e1 : m.at_ j i = .ok (m.get j i) := Mat.at_ok (by rw [hm.1]; omega) (by rw [hm.2.1]; omega)
  have e2 : m.at_ i i = .ok (m.get i i) := Mat.at_ok (by rw [hm.1]; omega) (by rw [hm.2.1]; omega)
  have e3 : m.assign j i (-(m.get j i) / m.get i i) = .ok (m.put j i (-(m.get j i) / m.get i i)) :=
    Mat.assign_ok _ (by rw [hm.1]; omega) (by rw [hm.2.1]; omega)
  have hsq1 := Mat.put_square hm j i (-(m.get j i) / m.get i i)
  obtain ⟨t2, ht2, hsq2, g2⟩ := addScaledRow_spec _ n j i (i + 1) n (-(m.get j i) / m.get i i)
    hsq1 hj hi (by omega) (by omega) (le_refl _)
  obtain ⟨t3, ht3, hsq3, g3⟩ := addScaledRow_spec t2 n j i 0 i (-(m.get j i) / m.get i i)
    hsq2 hj hi (by omega) (by omega) (by omega)
  refine ⟨t3, ?_, hsq3, ?_⟩
  · unfold forwardRow
    simp only [e1, e2, e3, bind, Except.bind, Mat.put_cols, hm.2.1, ht2]
    exact ht3
  · intro r c hr hc
    have hp : ∀ r c, r < n → c < n → (m.put j i (-(m.get j i) / m.get i i)).get r c =
        if r = j ∧ c = i then -(m.get j i) / m.get i i else m.get r c := by
      intro r c _ hc
      exact Mat.get_put hm.wf _ (by rw [hm.1]; omega) (by rw [hm.2.1]; omega)
        (by rw [hm.2.1]; omega)
    rw [g3 r c hr hc, g2 r c hr hc, g2 i c hi hc, hp r c hr hc, hp i c hi hc]
    by_cases hrj : r = j
    · subst hrj
      by_cases hci : c = i
      · subst hci; split_ifs <;> first | rfl | omega
      · split_ifs <;> first | rfl | omega
    · split_ifs <;> first | rfl | omega

/-- The elimination loop of the forward pass of `inverse` at column `i`. -/
theorem forwardRows_spec (m : Mat) (n i : Nat) (hm : m.Square n) (hi : i < n) :
    ∃ t, forUp (i + 1) m.rows (forwardRow i) m = .ok t ∧ t.Square n ∧
      ∀ r c, r < n → c < n →
        t.get r c = if i < r then
            (if c = i then -(m.get r i) / m.get i i
              else m.get r c + -(m.get r i) / m.get i i * m.get i c)
          else m.get r c := by
  obtain ⟨t, ht, h1, h2⟩ := forUp_inv (b := forwardRow i)
    (fun k (t : Mat) => t.Square n ∧
      ∀ r c, r < n → c < n →
        t.get r c = if i < r ∧ r < k then
            (if c = i then -(m.get r i) / m.get i i
              else m.get r c + -(m.get r i) / m.get i i * m.get i c)
          else m.get r c)
    (l := i + 1) (h := m.rows) (s := m) (by rw [hm.1]; omega)
    ⟨hm, fun r c _ _ => by
      have : ¬ (i < r ∧ r < i + 1) := by omega
      rw [if_neg this]⟩
    (by
      intro k t hk hk2 ⟨h1, h2⟩
      rw [hm.1] at hk2
      obtain ⟨u, hu, g1, g2⟩ := forwardRow_spec t n i k h1 hi hk2 (by omega)
      refine ⟨u, hu, g1, ?_⟩
      intro r c hr hc
      rw [g2 r c hr hc, h2 r c hr hc, h2 k i hk2 hi, h2 i i hi hi, h2 i c hi hc]
      by_cases hrk : r = k
      · subst hrk; split_ifs <;> first | rfl | omega
      · split_ifs <;> first | rfl | omega)
  refine ⟨t, ht, h1, ?_⟩
  intro r c hr hc
  rw [h2 r c hr hc]
  have : (i < r ∧ r < m.rows) ↔ i < r := by rw [hm.1]; omega
  simp only [this]

theorem swap_val {n : Nat} (i b : Nat) (hi : i < n) (hb : b < n) (c : Fin n) :
    ((Equiv.swap (⟨i, hi⟩ : Fin n) ⟨b, hb⟩) c).val = swapIdx i b c.val := by
  rw [Equiv.swap_apply_def]
  unfold swapIdx
  by_cases h1 : c.val = i
  · have : c = ⟨i, hi⟩ := Fin.ext h1
    simp [this]
  · have h1f : c ≠ ⟨i, hi⟩ := fun hh => h1 (congrArg Fin.val hh)
    by_cases h2 : c.val = b
    · have : c = ⟨b, hb⟩ := Fin.ext h2
      have hbi : ¬ b = i := by omega
      simp [this, hbi]
    · have h2f : c ≠ ⟨b, hb⟩ := fun hh => h2 (congrArg Fin.val hh)
      simp [h1, h2, h1f, h2f]

/-- A row operation on the left factor acts in the same way on the product. -/
theorem rowop_mul {n : Nat} (V W U : Matrix (Fin n) (Fin n) ℚ) (i : Fin n) (α β : Fin n → ℚ)
    (h : ∀ r k, W r k = α r * V r k + β r * V i k) (r c : Fin n) :
    (W * U) r c = α r * (V * U) r c + β r * (V * U) i c := by
  simp only [Matrix.mul_apply, h, add_mul, Finset.sum_add_distrib, Finset.mul_sum, mul_assoc]

/-- One iteration of the forward pass of `inverse`. -/
theorem forwardStep_spec (lu : Mat) (perms : List Nat) (n i : Nat) (hs : lu.Square n)
    (hi : i < n) :
    ∃ (bv : ℚ) (bc : Nat) (t u : Mat), i ≤ bc ∧ bc < n ∧ bv = |t.get i i| ∧ t.Square n ∧
      u.Square n ∧
      (∀ r c, r < n → c < n → t.get r c = lu.get r (swapIdx i bc c)) ∧
      (∀ r c, r < n → c < n →
        u.get r c = if i < r then
            (if c = i then -(t.get r i) / t.get i i
              else t.get r c + -(t.get r i) / t.get i i * t.get i c)
          else t.get r c) ∧
      forwardStep i (lu, perms) = (if bv < epsilon then .error .notInvertible
        else .ok (u, if bc = i then perms else swapPerms perms i bc)) := by
  obtain ⟨bv, bc, flags, t, -, hp, h1, h2, h3, -, -, h6, h7, h8, -⟩ :=
    pivot_spec lu n i (some perms) hs hi
  obtain ⟨u, hu, g1, g2⟩ := forwardRows_spec t n i h6 hi
  have hbv : bv = |t.get i i| := by
    rw [h3, h7 i i hi hi]
    unfold swapIdx; simp
  refine ⟨bv, bc, t, u, h1, h2, hbv, h6, g1, h7, g2, ?_⟩
  unfold forwardStep
  simp only [hp, bind, Except.bind]
  by_cases hz : bv < epsilon
  · have : flags &&& PIVOT_CLOSE_TO_ZERO ≠ 0 := h8.mpr hz
    rw [if_pos this, if_pos hz]
  · have hf : ¬ (flags &&& PIVOT_CLOSE_TO_ZERO ≠ 0) := fun h => hz (h8.mp h)
    rw [if_neg hf, if_neg hz]
    simp only [hu, pure, Except.pure]
    by_cases hb : bc = i
    · simp only [if_pos hb, Option.getD_some]
    · simp only [if_neg hb, Option.map_some', Option.getD_some]

theorem upperPart_swap (m t : Mat) (n i b : Nat) (hi : i < n) (hb : b < n) (hib : i ≤ b)
    (h : ∀ r c, r < n → c < n → t.get r c = m.get r (swapIdx i b c)) :
    t.upperPart n i =
      (m.upperPart n i).submatrix id (Equiv.swap (⟨i, hi⟩ : Fin n) ⟨b, hb⟩) := by
  ext r c
  simp only [Mat.upperPart, Matrix.of_apply, Matrix.submatrix_apply, id]
  rw [h r c r.2 c.2, swap_val]
  have hc : (min r.val i ≤ c.val) ↔ (min r.val i ≤ swapIdx i b c.val) := by
    unfold swapIdx
    split_ifs <;> omega
  by_cases hh : min r.val i ≤ c.val
  · rw [if_pos hh, if_pos (hc.mp hh)]
  · rw [if_neg hh, if_neg (fun h2 => hh (hc.mpr h2))]

theorem lowerPart_swap (m t : Mat) (n i b : Nat) (hib : i ≤ b)
    (h : ∀ r c, r < n → c < n → t.get r c = m.get r (swapIdx i b c)) :
    t.lowerPart n i = m.lowerPart n i := by
  ext r c
  simp only [Mat.lowerPart, Matrix.of_apply]
  rw [h r c r.2 c.2]
  by_cases hc : c.val < i
  · have : swapIdx i b c.val = c.val := by unfold swapIdx; split_ifs <;> omega
    rw [this]
  · have : ¬ (c.val < r.val ∧ c.val < i) := fun hh => hc hh.2
    simp only [if_neg this]

theorem permuted_swap (A : Mat) (perms : List Nat) (n i b : Nat) (hi : i < n) (hb : b < n)
    (hlen : perms.length = n) :
    permuted A (if b = i then perms else swapPerms perms i b) n =
      (permuted A perms n).submatrix id (Equiv.swap (⟨i, hi⟩ : Fin n) ⟨b, hb⟩) := by
  ext r c
  simp only [permuted, Matrix.of_apply, Matrix.submatrix_apply, id]
  rw [swap_val]
  by_cases hbi : b = i
  · rw [if_pos hbi, hbi, swapIdx_self]
  · rw [if_neg hbi, swapPerms_getD _ _ _ _ (by omega) (by omega)]

/-- The relation between the parts still to be eliminated before and after the
elimination at column `i`. -/
theorem upperPart_elim (m t : Mat) (n i : Nat) (hi : i < n) (hp : m.get i i ≠ 0)
    (h : ∀ r c, r < n → c < n → (r ≤ i ∨ i < c) →
      t.get r c = if i < r then m.get r c + -(m.get r i) / m.get i i * m.get i c
        else m.get r c) (r c : Fin n) :
    t.upperPart n (i + 1) r c = 1 * m.upperPart n i r c +
      (if i < r.val then -(m.get r i) / m.get i i else 0) * m.upperPart n i ⟨i, hi⟩ c := by
  simp only [Mat.upperPart, Matrix.of_apply]
  by_cases hr : i < r.val
  · have m1 : min r.val (i + 1) = i + 1 := by omega
    have m2 : min r.val i = i := by omega
    simp only [m1, m2, if_pos hr, min_self]
    by_cases hc : i + 1 ≤ c.val
    · have c2 : i ≤ c.val := by omega
      rw [h r c r.2 c.2 (Or.inr (by omega))]
      simp only [if_pos hc, if_pos c2, if_pos hr]
      ring
    · simp only [if_neg hc]
      by_cases hc2 : i ≤ c.val
      · have : c.val = i := by omega
        simp only [if_pos hc2, this]
        field_simp
      · simp only [if_neg hc2]; simp
  · have m1 : min r.val (i + 1) = r.val := by omega
    have m2 : min r.val i = r.val := by omega
    rw [h r c r.2 c.2 (Or.inl (by omega))]
    simp only [m1, m2, if_neg hr]
    simp

/-- The relation between the stored factors before and after the elimination at column
`i` in the forward pass of `inverse`. -/
theorem lowerPart_elim (m t : Mat) (n i : Nat) (hi : i < n)
    (h : ∀ r c, r < n → c < n →
      t.get r c = if i < r then
          (if c = i then -(m.get r i) / m.get i i
            else m.get r c + -(m.get r i) / m.get i i * m.get i c)
        else m.get r c) (r c : Fin n) :
    t.lowerPart n (i + 1) r c = 1 * m.lowerPart n i r c +
      (if i < r.val then -(m.get r i) / m.get i i else 0) * m.lowerPart n i ⟨i, hi⟩ c := by
  simp only [Mat.lowerPart, Matrix.of_apply]
  rw [h r c r.2 c.2]
  have e1 : (r = c) ↔ (r.val = c.val) := Fin.ext_iff
  have e2 : ((⟨i, hi⟩ : Fin n) = c) ↔ (i = c.val) := Fin.ext_iff
  simp only [e1, e2]
  split_ifs <;> first | omega | simp

theorem isPerm_range (n : Nat) : IsPerm (List.range n) n := by
  have hget : ∀ i, i < n → (List.range n).getD i 0 = i := by
    intro i hi
    simp [List.getD_eq_getElem?_getD, List.getElem?_range hi]
  refine ⟨List.length_range n, ?_, ?_⟩
  · intro i hi
    rw [hget i hi]; exact hi
  · intro i j hi hj hij
    rw [hget i hi, hget j hj] at hij
    exact hij

theorem permuted_range (A : Mat) (n : Nat) : permuted A (List.range n) n = A.toMatrix n := by
  ext r c
  simp [permuted, Mat.toMatrix, List.getD_eq_getElem?_getD, List.getElem?_range c.2]

theorem lowerPart_zero (m : Mat) (n : Nat) : m.lowerPart n 0 = 1 := by
  ext r c
  simp [Mat.lowerPart, Matrix.one_apply]

/-- The first `k` iterations of the forward pass of `inverse` on an `n x n` matrix: either
the non-invertible exit is taken, or the buffer is well-formed, `perms` is a permutation,
the first `k` diagonal elements have a magnitude of at least the machine epsilon, and the
stored factors multiplied by the permuted input equal the part still to be eliminated. -/
theorem forward_prefix (A : Mat) (n k : Nat) (hr : A.rows = n) (hc : A.cols = n)
    (hk : k ≤ n) :
    (∃ lu perms, forUp 0 k forwardStep (copy A, List.range n) = .ok (lu, perms) ∧
      lu.Square n ∧ IsPerm perms n ∧ (∀ r, r < k → epsilon ≤ |lu.get r r|) ∧
      lu.lowerPart n k * permuted A perms n = lu.upperPart n k) ∨
    forUp 0 k forwardStep (copy A, List.range n) = .error .notInvertible := by
  obtain ⟨hsq, hget⟩ := copy_spec A n hr hc
  have hA : (copy A).upperPart n 0 = A.toMatrix n := by
    rw [upperPart_zero]
    ext r c
    simp only [Mat.toMatrix, Matrix.of_apply]
    exact hget r c r.2 c.2
  rcases forUp_cases (b := forwardStep)
    (fun t (s : Mat × List Nat) => s.1.Square n ∧ IsPerm s.2 n ∧
      (∀ r, r < t → epsilon ≤ |s.1.get r r|) ∧
      s.1.lowerPart n t * permuted A s.2 n = s.1.upperPart n t)
    (fun e => e = .notInvertible)
    (l := 0) (h := k) (s := (copy A, List.range n)) (Nat.zero_le _)
    ⟨hsq, isPerm_range n, fun r hr => by omega, by
      simp only [lowerPart_zero, permuted_range, hA, one_mul]⟩
    (by
      rintro i ⟨lu, perms⟩ _ hi ⟨h1, h2, h3, h4⟩
      simp only at h1 h2 h3 h4
      have hin : i < n := by omega
      obtain ⟨bv, bc, t, u, k1, k2, k3, k4, k5, k6, k7, k8⟩ :=
        forwardStep_spec lu perms n i h1 hin
      by_cases hz : bv < epsilon
      · right
        exact ⟨_, by rw [k8, if_pos hz], rfl⟩
      · left
        rw [if_neg hz] at k8
        have heps : epsilon ≤ |t.get i i| := by rw [← k3]; exact not_lt.mp hz
        have hpiv : t.get i i ≠ 0 := by
          intro h0
          rw [h0, abs_zero] at heps
          exact absurd epsilon_pos (not_lt.mpr heps)
        refine ⟨_, k8, k5, ?_, ?_, ?_⟩
        · show IsPerm (if bc = i then perms else swapPerms perms i bc) n
          by_cases hb : bc = i
          · rw [if_pos hb]; exact h2
          · rw [if_neg hb]; exact swapPerms_isPerm h2 hin k2
        · intro r hr
          show epsilon ≤ |u.get r r|
          rw [k7 r r (by omega) (by omega), if_neg (by omega)]
          by_cases hri : r = i
          · rw [hri]; exact heps
          · rw [k6 r r (by omega) (by omega)]
            have : swapIdx i bc r = r := by unfold swapIdx; split_ifs <;> omega
            rw [this]
            exact h3 r (by omega)
        · show u.lowerPart n (i + 1) *
              permuted A (if bc = i then perms else swapPerms perms i bc) n =
            u.upperPart n (i + 1)
          have ht : t.lowerPart n i *
              permuted A (if bc = i then perms else swapPerms perms i bc) n =
              t.upperPart n i := by
            rw [lowerPart_swap lu t n i bc k1 k6, permuted_swap A perms n i bc hin k2 h2.1,
              upperPart_swap lu t n i bc hin k2 k1 k6, ← h4]
            ext r c
            simp [Matrix.mul_apply]
          ext r c
          rw [rowop_mul (t.lowerPart n i) (u.lowerPart n (i + 1)) _ ⟨i, hin⟩ (fun _ => 1)
            (fun r => if i < r.val then -(t.get r i) / t.get i i else 0)
            (fun r k => lowerPart_elim t u n i hin k7 r k) r c, ht]
          refine (upperPart_elim t u n i hin hpiv ?_ r c).symm
          intro r c hr hc hor
          rw [k7 r c hr hc]
          by_cases hir : i < r
          · have : c ≠ i := by omega
            rw [if_pos hir, if_pos hir, if_neg this]
          · rw [if_neg hir, if_neg hir]) with ⟨⟨lu, perms⟩, h1, h2, h3, h4, h5⟩ | ⟨e, h1, h2⟩
  · left
    exact ⟨lu, perms, h1, h2, h3, h4, h5⟩
  · right
    rw [h1, h2]

/-- The forward pass of `inverse` on an `n x n` matrix: either it takes the
non-invertible exit, or it returns with non-zero diagonal elements, `perms` a
permutation, and the stored factors multiplied by the permuted input equal to the upper
triangle of the buffer. -/
theorem forward_spec (A : Mat) (n : Nat) (hr : A.rows = n) (hc : A.cols = n) :
    (∃ lu perms, forUp 0 n forwardStep (copy A, List.range n) = .ok (lu, perms) ∧
      lu.Square n ∧ IsPerm perms n ∧ (∀ r, r < n → lu.get r r ≠ 0) ∧
      lu.lowerPart n n * permuted A perms n = lu.upperPart n n) ∨
    forUp 0 n forwardStep (copy A, List.range n) = .error .notInvertible := by
  rcases forward_prefix A n n hr hc (le_refl n) with ⟨lu, perms, h1, h2, h3, h4, h5⟩ | h
  · left
    refine ⟨lu, perms, h1, h2, h3, ?_, h5⟩
    intro r hr h0
    have := h4 r hr
    rw [h0, abs_zero] at this
    exact absurd epsilon_pos (not_lt.mpr this)
  · exact Or.inr h

/-- The elimination of one row in the backward pass of `inverse`. -/
theorem backwardRow_spec (m : Mat) (n i j : Nat) (hm : m.Square n) (hi : i < n)
    (hji : j < i) :
    ∃ t, backwardRow i j m = .ok t ∧ t.Square n ∧
      ∀ r c, r < n → c < n →
        t.get r c = if r = j then
            (if c = i then -(m.get j i) / m.get i i
              else if i < c then m.get r c + -(m.get j i) / m.get i i * m.get i c
              else m.get r c)
          else m.get r c := by
  have hj : j < n := by omega
  have e1 : m.at_ j i = .ok (m.get j i) := Mat.at_ok (by rw [hm.1]; omega) (by rw [hm.2.1]; omega)
  have e2 : m.at_ i i = .ok (m.get i i) := Mat.at_ok (by rw [hm.1]; omega) (by rw [hm.2.1]; omega)
  have e3 : m.assign j i (-(m.get j i) / m.get i i) = .ok (m.put j i (-(m.get j i) / m.get i i)) :=
    Mat.assign_ok _ (by rw [hm.1]; omega) (by rw [hm.2.1]; omega)
  have hsq1 := Mat.put_square hm j i (-(m.get j i) / m.get i i)
  obtain ⟨t2, ht2, hsq2, g2⟩ := addScaledRow_spec _ n j i (i + 1) n (-(m.get j i) / m.get i i)
    hsq1 hj hi (by omega) (by omega) (le_refl _)
  refine ⟨t2, ?_, hsq2, ?_⟩
  · unfold backwardRow
    simp only [e1, e2, e3, bind, Except.bind, Mat.put_cols, hm.2.1]
    exact ht2
  · intro r c hr hc
    have hp : ∀ r c, r < n → c < n → (m.put j i (-(m.get j i) / m.get i i)).get r c =
        if r = j ∧ c = i then -(m.get j i) / m.get i i else m.get r c := by
      intro r c _ hc
      exact Mat.get_put hm.wf _ (by rw [hm.1]; omega) (by rw [hm.2.1]; omega)
        (by rw [hm.2.1]; omega)
    rw [g2 r c hr hc, hp r c hr hc, hp i c hi hc]
    by_cases hrj : r = j
    · subst hrj
      by_cases hci : c = i
      · subst hci; split_ifs <;> first | rfl | omega
      · split_ifs <;> first | rfl | omega
    · split_ifs <;> first | rfl | omega

/-- The elimination loop of the backward pass of `inverse` at column `i`. -/
theorem backwardRows_spec (m : Mat) (n i : Nat) (hm : m.Square n) (hi : i < n) :
    ∃ t, forDown (backwardRow i) i m = .ok t ∧ t.Square n ∧
      ∀ r c, r < n → c < n →
        t.get r c = if r < i then
            (if c = i then -(m.get r i) / m.get i i
              else if i < c then m.get r c + -(m.get r i) / m.get i i * m.get i c
              else m.get r c)
          else m.get r c := by
  obtain ⟨t, ht, h1, h2⟩ := forDown_inv (b := backwardRow i)
    (fun k (t : Mat) => t.Square n ∧
      ∀ r c, r < n → c < n →
        t.get r c = if k ≤ r ∧ r < i then
            (if c = i then -(m.get r i) / m.get i i
              else if i < c then m.get r c + -(m.get r i) / m.get i i * m.get i c
              else m.get r c)
          else m.get r c)
    i m
    ⟨hm, fun r c _ _ => by
      have : ¬ (i ≤ r ∧ r < i) := by omega
      rw [if_neg this]⟩
    (by
      intro k t hk ⟨h1, h2⟩
      obtain ⟨u, hu, g1, g2⟩ := backwardRow_spec t n i k h1 hi hk
      refine ⟨u, hu, g1, ?_⟩
      intro r c hr hc
      rw [g2 r c hr hc, h2 r c hr hc, h2 k i (by omega) hi, h2 i i hi hi, h2 i c hi hc]
      by_cases hrk : r = k
      · subst hrk; split_ifs <;> first | rfl | omega
      · split_ifs <;> first | rfl | omega)
  refine ⟨t, ht, h1, ?_⟩
  intro r c hr hc
  rw [h2 r c hr hc]
  have : (0 ≤ r ∧ r < i) ↔ r < i := by omega
  simp only [this]

/-- The loop of the backward pass of `inverse` scaling row `i` after the diagonal. -/
theorem scaleRow_spec (m : Mat) (n i : Nat) (factor : ℚ) (hm : m.Square n) (hi : i < n) :
    ∃ t, forUp (i + 1) m.cols (fun j (lu : Mat) => do
        let x ← lu.at_ i j
        lu.assign i j (x * factor)) m = .ok t ∧ t.Square n ∧
      ∀ r c, r < n → c < n →
        t.get r c = if r = i ∧ i < c then m.get r c * factor else m.get r c := by
  obtain ⟨t, ht, h1, h2⟩ := forUp_inv
    (b := fun j (lu : Mat) => do
        let x ← lu.at_ i j
        lu.assign i j (x * factor))
    (fun k (t : Mat) => t.Square n ∧
      ∀ r c, r < n → c < n →
        t.get r c = if r = i ∧ i < c ∧ c < k then m.get r c * factor else m.get r c)
    (l := i + 1) (h := m.cols) (s := m) (by rw [hm.2.1]; omega)
    ⟨hm, fun r c _ _ => by
      have : ¬ (r = i ∧ i < c ∧ c < i + 1) := by omega
      rw [if_neg this]⟩
    (by
      intro k t hk hk2 ⟨h1, h2⟩
      rw [hm.2.1] at hk2
      have e1 : t.at_ i k = .ok (t.get i k) :=
        Mat.at_ok (by rw [h1.1]; omega) (by rw [h1.2.1]; omega)
      have e2 : t.assign i k (t.get i k * factor) = .ok (t.put i k (t.get i k * factor)) :=
        Mat.assign_ok _ (by rw [h1.1]; omega) (by rw [h1.2.1]; omega)
      refine ⟨t.put i k (t.get i k * factor), by simp only [e1, e2, bind, Except.bind],
        Mat.put_square h1 _ _ _, ?_⟩
      intro r c hr hc
      rw [Mat.get_put h1.wf _ (by rw [h1.1]; omega) (by rw [h1.2.1]; omega)
        (by rw [h1.2.1]; omega), h2 r c hr hc, h2 i k hi hk2]
      by_cases hri : r = i
      · subst hri
        by_cases hck : c = k
        · subst hck; split_ifs <;> first | rfl | omega
        · split_ifs <;> first | rfl | omega
      · split_ifs <;> first | rfl | omega)
  refine ⟨t, ht, h1, ?_⟩
  intro r c hr hc
  rw [h2 r c hr hc]
  have : (r = i ∧ i < c ∧ c < m.cols) ↔ (r = i ∧ i < c) := by rw [hm.2.1]; omega
  simp only [this]

/-- One iteration of the backward pass of `inverse`. -/
theorem backwardStep_spec (m : Mat) (n i : Nat) (hm : m.Square n) (hi : i < n) :
    ∃ t, backwardStep i m = .ok t ∧ t.Square n ∧
      ∀ r c, r < n → c < n →
        t.get r c =
          if r < i then
            (if c = i then -(m.get r i) / m.get i i
              else if i < c then m.get r c + -(m.get r i) / m.get i i * m.get i c
              else m.get r c)
          else if r = i then
            (if c = i then 1 / m.get i i
              else if i < c then m.get r c * (1 / m.get i i)
              else m.get r c)
          else m.get r c := by
  obtain ⟨t1, ht1, hsq1, g1⟩ := backwardRows_spec m n i hm hi
  have e1 : t1.at_ i i = .ok (t1.get i i) :=
    Mat.at_ok (by rw [hsq1.1]; omega) (by rw [hsq1.2.1]; omega)
  have e2 : t1.assign i i (1 / t1.get i i) = .ok (t1.put i i (1 / t1.get i i)) :=
    Mat.assign_ok _ (by rw [hsq1.1]; omega) (by rw [hsq1.2.1]; omega)
  have hsq2 := Mat.put_square hsq1 i i (1 / t1.get i i)
  obtain ⟨t3, ht3, hsq3, g3⟩ := scaleRow_spec _ n i (1 / t1.get i i) hsq2 hi
  refine ⟨t3, ?_, hsq3, ?_⟩
  · unfold backwardStep
    simp only [ht1, e1, e2, bind, Except.bind]
    exact ht3
  · intro r c hr hc
    have hd : t1.get i i = m.get i i := by
      rw [g1 i i hi hi, if_neg (lt_irrefl i)]
    rw [g3 r c hr hc, Mat.get_put hsq1.wf _ (by rw [hsq1.1]; omega) (by rw [hsq1.2.1]; omega)
      (by rw [hsq1.2.1]; omega), hd, g1 r c hr hc]
    by_cases hri : r = i
    · subst hri
      by_cases hcr : c = r
      · subst hcr; split_ifs <;> first | rfl | omega
      · split_ifs <;> first | rfl | omega
    · split_ifs <;> first | rfl | omega

theorem inverseUpper_full (m : Mat) (n : Nat) : m.inverseUpper n n = 1 := by
  ext r c
  have : ¬ (n ≤ c.val ∧ r.val ≤ c.val) := by have := c.2; omega
  simp only [Mat.inverseUpper, Matrix.of_apply, if_neg this, Matrix.one_apply]

theorem inverseUpper_zero (m : Mat) (n : Nat) : m.inverseUpper n 0 = m.upperPart n n := by
  ext r c
  simp only [Mat.inverseUpper, Mat.upperPart, Matrix.of_apply]
  have e1 : (r = c) ↔ (r.val = c.val) := Fin.ext_iff
  have := r.2
  simp only [e1]
  split_ifs <;> first | rfl | omega

theorem remainingUpper_full (m : Mat) (n : Nat) : m.remainingUpper n n = m.upperPart n n := by
  ext r c
  simp only [Mat.remainingUpper, Matrix.of_apply, if_pos c.2]

theorem remainingUpper_zero (m : Mat) (n : Nat) : m.remainingUpper n 0 = 1 := by
  ext r c
  simp only [Mat.remainingUpper, Matrix.of_apply, Nat.not_lt_zero, if_false, Matrix.one_apply]

/-- The row operation done by one iteration of the backward pass, on the matrix read
from the buffer. -/
theorem inverseUpper_step (x y : Mat) (n i : Nat) (hi : i < n) (a : ℚ) (b : Nat → ℚ)
    (h : ∀ r c, r < n → c < n →
      y.get r c =
        if r < i then
          (if c = i then b r else if i < c then x.get r c + b r * x.get i c else x.get r c)
        else if r = i then
          (if c = i then a else if i < c then x.get r c * a else x.get r c)
        else x.get r c) (r c : Fin n) :
    y.inverseUpper n i r c =
      (if r.val = i then a else 1) * x.inverseUpper n (i + 1) r c +
      (if r.val < i then b r else 0) * x.inverseUpper n (i + 1) ⟨i, hi⟩ c := by
  simp only [Mat.inverseUpper, Matrix.of_apply]
  rw [h r c r.2 c.2]
  have e1 : (r = c) ↔ (r.val = c.val) := Fin.ext_iff
  have e2 : ((⟨i, hi⟩ : Fin n) = c) ↔ (i = c.val) := Fin.ext_iff
  simp only [e1, e2]
  by_cases hri : r.val = i
  · split_ifs <;> first | omega | ring1
  · split_ifs <;> first | omega | ring1

/-- The same row operation on the upper triangle left by the forward pass clears its
column `i`. -/
theorem remainingUpper_step (lu : Mat) (n i : Nat) (hi : i < n) (hd : lu.get i i ≠ 0)
    (r c : Fin n) :
    lu.remainingUpper n i r c =
      (if r.val = i then 1 / lu.get i i else 1) * lu.remainingUpper n (i + 1) r c +
      (if r.val < i then -(lu.get r i) / lu.get i i else 0) *
        lu.remainingUpper n (i + 1) ⟨i, hi⟩ c := by
  simp only [Mat.remainingUpper, Mat.upperPart, Matrix.of_apply]
  have e1 : (r = c) ↔ (r.val = c.val) := Fin.ext_iff
  have e2 : ((⟨i, hi⟩ : Fin n) = c) ↔ (i = c.val) := Fin.ext_iff
  have m1 : min r.val n = r.val := by have := r.2; omega
  have m2 : min i n = i := by omega
  simp only [e1, e2, m1, m2]
  by_cases hci : c.val = i
  · rw [hci]
    by_cases hri : r.val = i
    · rw [hri]
      split_ifs <;> first | omega | field_simp
    · split_ifs <;> first | omega | field_simp
  · by_cases hri : r.val = i
    · rw [hri]
      split_ifs <;> first | omega | simp
    · split_ifs <;> first | omega | simp

/-- The backward pass of `inverse` on the buffer left by the forward pass: it returns, the
part below the diagonal is unchanged, and the part on and above the diagonal is a left
inverse of the upper triangle it started from. -/
theorem backward_spec (lu : Mat) (n : Nat) (hsq : lu.Square n)
    (hdiag : ∀ r, r < n → lu.get r r ≠ 0) :
    ∃ x, forDown backwardStep n lu = .ok x ∧ x.Square n ∧
      (∀ r c, r < n → c < n → c < r → x.get r c = lu.get r c) ∧
      x.upperPart n n * lu.upperPart n n = 1 := by
  obtain ⟨x, hx, h1, h2, h3⟩ := forDown_inv (b := backwardStep)
    (fun s (x : Mat) => x.Square n ∧
      (∀ r c, r < n → c < n → (c < r ∨ c < s) → x.get r c = lu.get r c) ∧
      x.inverseUpper n s * lu.upperPart n n = lu.remainingUpper n s)
    n lu
    ⟨hsq, fun r c _ _ _ => rfl, by
      rw [inverseUpper_full, remainingUpper_full, one_mul]⟩
    (by
      intro i x hi ⟨h1, h2, h3⟩
      obtain ⟨y, hy, g1, g2⟩ := backwardStep_spec x n i h1 hi
      refine ⟨y, hy, g1, ?_, ?_⟩
      · intro r c hr hc hor
        rw [g2 r c hr hc]
        have hx : x.get r c = lu.get r c := h2 r c hr hc (by omega)
        split_ifs <;> first | exact hx | omega
      · have hii : x.get i i = lu.get i i := h2 i i hi hi (Or.inr (by omega))
        have hstep : ∀ r c, r < n → c < n →
            y.get r c =
              if r < i then
                (if c = i then -(lu.get r i) / lu.get i i
                  else if i < c then x.get r c + -(lu.get r i) / lu.get i i * x.get i c
                  else x.get r c)
              else if r = i then
                (if c = i then 1 / lu.get i i
                  else if i < c then x.get r c * (1 / lu.get i i) else x.get r c)
              else x.get r c := by
          intro r c hr hc
          rw [g2 r c hr hc, hii]
          by_cases hri : r < i
          · rw [h2 r i hr hi (Or.inr (by omega))]
          · rw [if_neg hri, if_neg hri]
        ext r c
        rw [rowop_mul (x.inverseUpper n (i + 1)) (y.inverseUpper n i) _ ⟨i, hi⟩
          (fun r => if r.val = i then 1 / lu.get i i else 1)
          (fun r => if r.val < i then -(lu.get r i) / lu.get i i else 0)
          (fun r k => inverseUpper_step x y n i hi (1 / lu.get i i)
            (fun r => -(lu.get r i) / lu.get i i) hstep r k) r c, h3]
        exact (remainingUpper_step lu n i hi (hdiag i hi) r c).symm)
  refine ⟨x, hx, h1, fun r c hr hc hcr => h2 r c hr hc (Or.inl hcr), ?_⟩
  rw [inverseUpper_zero, remainingUpper_zero] at h3
  exact h3

/-- The innermost loop of the product block of `inverse`. -/
theorem assemble_inner (lu tmp : Mat) (n i j : Nat) (factor : ℚ) (hlu : lu.Square n)
    (htmp : tmp.Square n) (hi : i < n) (hj : j < n) :
    ∃ t, forUp 0 j (fun k (tmp : Mat) => do
        let y ← lu.at_ j k
        let x ← tmp.at_ i k
        tmp.assign i k (x + factor * y)) tmp = .ok t ∧ t.Square n ∧
      ∀ r c, r < n → c < n →
        t.get r c = if r = i ∧ c < j then tmp.get r c + factor * lu.get j c
          else tmp.get r c := by
  refine forUp_inv
    (fun k (t : Mat) => t.Square n ∧
      ∀ r c, r < n → c < n →
        t.get r c = if r = i ∧ c < k then tmp.get r c + factor * lu.get j c
          else tmp.get r c)
    (Nat.zero_le j)
    ⟨htmp, fun r c _ _ => by
      have : ¬ (r = i ∧ c < 0) := by omega
      rw [if_neg this]⟩ ?_
  intro k t _ hk ⟨h1, h2⟩
  have e1 : lu.at_ j k = .ok (lu.get j k) :=
    Mat.at_ok (by rw [hlu.1]; omega) (by rw [hlu.2.1]; omega)
  have e2 : t.at_ i k = .ok (t.get i k) := Mat.at_ok (by rw [h1.1]; omega) (by rw [h1.2.1]; omega)
  have e3 : t.assign i k (t.get i k + factor * lu.get j k) =
      .ok (t.put i k (t.get i k + factor * lu.get j k)) :=
    Mat.assign_ok _ (by rw [h1.1]; omega) (by rw [h1.2.1]; omega)
  refine ⟨t.put i k (t.get i k + factor * lu.get j k),
    by simp only [e1, e2, e3, bind, Except.bind], Mat.put_square h1 _ _ _, ?_⟩
  intro r c hr hc
  rw [Mat.get_put h1.wf _ (by rw [h1.1]; omega) (by rw [h1.2.1]; omega)
    (by rw [h1.2.1]; omega), h2 r c hr hc, h2 i k hi (by omega)]
  by_cases hri : r = i
  · subst hri
    by_cases hck : c = k
    · subst hck; split_ifs <;> first | rfl | omega
    · split_ifs <;> first | rfl | omega
  · split_ifs <;> first | rfl | omega

/-- One iteration of the middle loop of the product block of `inverse`. -/
theorem assemble_body (lu tmp : Mat) (n i j : Nat) (hlu : lu.Square n)
    (htmp : tmp.Square n) (hi : i < n) (hj : j < n) :
    ∃ t, (do
        let factor ← lu.at_ i j
        let x ← tmp.at_ i j
        let tmp ← tmp.assign i j (x + factor)
        forUp 0 j (fun k (tmp : Mat) => do
          let y ← lu.at_ j k
          let x ← tmp.at_ i k
          tmp.assign i k (x + factor * y)) tmp) = .ok t ∧ t.Square n ∧
      ∀ r c, r < n → c < n →
        t.get r c = tmp.get r c +
          (if r = i then lu.get i j * lu.unitLowerEntry j c else 0) := by
  have e1 : lu.at_ i j = .ok (lu.get i j) :=
    Mat.at_ok (by rw [hlu.1]; omega) (by rw [hlu.2.1]; omega)
  have e2 : tmp.at_ i j = .ok (tmp.get i j) :=
    Mat.at_ok (by rw [htmp.1]; omega) (by rw [htmp.2.1]; omega)
  have e3 : tmp.assign i j (tmp.get i j + lu.get i j) =
      .ok (tmp.put i j (tmp.get i j + lu.get i j)) :=
    Mat.assign_ok _ (by rw [htmp.1]; omega) (by rw [htmp.2.1]; omega)
  obtain ⟨t, ht, g1, g2⟩ := assemble_inner lu (tmp.put i j (tmp.get i j + lu.get i j)) n i j
    (lu.get i j) hlu (Mat.put_square htmp _ _ _) hi hj
  refine ⟨t, ?_, g1, ?_⟩
  · simp only [e1, e2, e3, bind, Except.bind]
    exact ht
  · intro r c hr hc
    rw [g2 r c hr hc, Mat.get_put htmp.wf _ (by rw [htmp.1]; omega) (by rw [htmp.2.1]; omega)
      (by rw [htmp.2.1]; omega)]
    unfold Mat.unitLowerEntry
    by_cases hri : r = i
    · subst hri
      by_cases hcj : c = j
      · subst hcj; split_ifs <;> first | omega | ring1
      · split_ifs <;> first | omega | ring1
    · split_ifs <;> first | omega | ring1

/-- The middle loop of the product block of `inverse`. -/
theorem assemble_middle (lu tmp : Mat) (n i : Nat) (hlu : lu.Square n)
    (htmp : tmp.Square n) (hi : i < n) :
    ∃ t, forUp i lu.cols (fun j (tmp : Mat) => do
        let factor ← lu.at_ i j
        let x ← tmp.at_ i j
        let tmp ← tmp.assign i j (x + factor)
        forUp 0 j (fun k (tmp : Mat) => do
          let y ← lu.at_ j k
          let x ← tmp.at_ i k
          tmp.assign i k (x + factor * y)) tmp) tmp = .ok t ∧ t.Square n ∧
      ∀ r c, r < n → c < n →
        t.get r c = tmp.get r c +
          (if r = i then ∑ j in Finset.range n, lu.upperEntry i j * lu.unitLowerEntry j c
            else 0) := by
  rw [hlu.2.1]
  refine forUp_inv
    (fun k (t : Mat) => t.Square n ∧
      ∀ r c, r < n → c < n →
        t.get r c = tmp.get r c +
          (if r = i then ∑ j in Finset.range k, lu.upperEntry i j * lu.unitLowerEntry j c
            else 0))
    (le_of_lt hi)
    ⟨htmp, fun r c _ _ => by
      have hz : ∑ j in Finset.range i, lu.upperEntry i j * lu.unitLowerEntry j c = 0 := by
        refine Finset.sum_eq_zero ?_
        intro j hj
        have : ¬ i ≤ j := by have := Finset.mem_range.mp hj; omega
        simp [Mat.upperEntry, this]
      rw [hz]; simp⟩ ?_
  intro k t hk hk2 ⟨h1, h2⟩
  obtain ⟨u, hu, g1, g2⟩ := assemble_body lu t n i k hlu h1 hi hk2
  refine ⟨u, hu, g1, ?_⟩
  intro r c hr hc
  rw [g2 r c hr hc, h2 r c hr hc, Finset.sum_range_succ]
  have : lu.upperEntry i k = lu.get i k := by simp [Mat.upperEntry, hk]
  rw [this]
  by_cases hri : r = i
  · simp only [if_pos hri]; ring
  · simp only [if_neg hri]; ring

/-- The product block of `inverse`: `tmp` receives the product of the upper triangle and
the unit lower triangle of `lu`. -/
theorem assemble_spec (matrix lu : Mat) (n : Nat) (hr : matrix.rows = n)
    (hc : matrix.cols = n) (hlu : lu.Square n) :
    ∃ tmp, assemble matrix lu = .ok tmp ∧ tmp.Square n ∧
      ∀ i k, i < n → k < n →
        tmp.get i k = ∑ j in Finset.range n, lu.upperEntry i j * lu.unitLowerEntry j k := by
  obtain ⟨z, hz, z1, z2, z3, z4⟩ := zeroFill_spec (create_matrix matrix.rows matrix.cols)
    (create_matrix_WF _ _)
  have z1 : z.rows = n := by rw [z1]; exact hr
  have z2 : z.cols = n := by rw [z2]; exact hc
  have zsq : z.Square n := ⟨z1, z2, by unfold Mat.WF at z3; rw [z3, z1, z2]⟩
  have z4 : ∀ r c, r < n → c < n → z.get r c = 0 := by
    intro r c h1 h2
    exact z4 r c (by show r < matrix.rows; omega) (by show c < matrix.cols; omega)
  obtain ⟨t, ht, h1, h2⟩ := forUp_inv
    (b := fun i (tmp : Mat) =>
      forUp i lu.cols (fun j (tmp : Mat) => do
        let factor ← lu.at_ i j
        let x ← tmp.at_ i j
        let tmp ← tmp.assign i j (x + factor)
        forUp 0 j (fun k (tmp : Mat) => do
          let y ← lu.at_ j k
          let x ← tmp.at_ i k
          tmp.assign i k (x + factor * y)) tmp) tmp)
    (fun k (t : Mat) => t.Square n ∧
      ∀ r c, r < n → c < n →
        t.get r c = if r < k then
          ∑ j in Finset.range n, lu.upperEntry r j * lu.unitLowerEntry j c else 0)
    (l := 0) (h := lu.rows) (s := z) (Nat.zero_le _)
    ⟨zsq, fun r c hr hc => by simpa using z4 r c hr hc⟩
    (by
      intro i t _ hi ⟨h1, h2⟩
      rw [hlu.1] at hi
      obtain ⟨u, hu, g1, g2⟩ := assemble_middle lu t n i hlu h1 hi
      refine ⟨u, hu, g1, ?_⟩
      intro r c hr hc
      rw [g2 r c hr hc, h2 r c hr hc]
      by_cases hri : r = i
      · subst hri
        have a1 : ¬ r < r := lt_irrefl r
        have a2 : r < r + 1 := Nat.lt_succ_self r
        simp only [if_neg a1, if_pos a2, if_true, zero_add]
      · have : r < i + 1 ↔ r < i := by omega
        simp only [if_neg hri, add_zero, this])
  refine ⟨t, ?_, h1, ?_⟩
  · unfold assemble
    rw [hz]
    exact ht
  · intro i k hi hk
    rw [h2 i k hi hk, if_pos (by rw [hlu.1]; exact hi)]

/-- The effect of `memcpy` on the destination buffer. -/
theorem memcpy_spec (dst src : Mat) (p q : Nat) :
    ∀ count, (memcpy dst p src q count).rows = dst.rows ∧
      (memcpy dst p src q count).cols = dst.cols ∧
      (memcpy dst p src q count).data.length = dst.data.length ∧
      ∀ k, (memcpy dst p src q count).load k =
        if p ≤ k ∧ k < p + count ∧ k < dst.data.length then src.load (q + (k - p))
        else dst.load k := by
  intro count
  induction count with
  | zero =>
    refine ⟨rfl, rfl, rfl, fun k => ?_⟩
    have : ¬ (p ≤ k ∧ k < p + 0 ∧ k < dst.data.length) := by omega
    rw [if_neg this]
    rfl
  | succ count ih =>
    obtain ⟨h1, h2, h3, h4⟩ := ih
    have e : memcpy dst p src q (count + 1) =
        (memcpy dst p src q count).store (p + count) (src.load (q + count)) := by
      simp only [memcpy, List.range_succ, List.foldl_append, List.foldl_cons, List.foldl_nil]
    rw [e]
    refine ⟨h1, h2, by simpa [Mat.store] using h3, fun k => ?_⟩
    rw [Mat.load_store, h4 k, h3]
    by_cases hk : p + count = k
    · subst hk
      have e2 : p + count - p = count := by omega
      split_ifs <;> first | rfl | omega | (rw [e2])
    · split_ifs <;> first | rfl | omega

theorem row_range {n r p c : Nat} (hc : c < n) :
    (p * n ≤ r * n + c ∧ r * n + c < p * n + n) ↔ r = p := by
  constructor
  · rintro ⟨h1, h2⟩
    by_contra hne
    rcases Nat.lt_or_gt_of_ne hne with h | h
    · have : (r + 1) * n ≤ p * n := Nat.mul_le_mul_right n h
      rw [Nat.add_mul, Nat.one_mul] at this
      omega
    · have : (p + 1) * n ≤ r * n := Nat.mul_le_mul_right n h
      rw [Nat.add_mul, Nat.one_mul] at this
      omega
  · intro h
    subst h
    omega

/-- Copying row `i` of `tmp` over row `p` of `lu`. -/
theorem memcpy_row (lu tmp : Mat) (n p i : Nat) (hlu : lu.Square n) (htmp : tmp.Square n)
    (hp : p < n) :
    (memcpy lu (p * n + 0) tmp (i * n + 0) n).Square n ∧
      ∀ r c, r < n → c < n →
        (memcpy lu (p * n + 0) tmp (i * n + 0) n).get r c =
          if r = p then tmp.get i c else lu.get r c := by
  obtain ⟨h1, h2, h3, h4⟩ := memcpy_spec lu tmp (p * n + 0) (i * n + 0) n
  refine ⟨⟨by rw [h1]; exact hlu.1, by rw [h2]; exact hlu.2.1, by rw [h3]; exact hlu.2.2⟩, ?_⟩
  intro r c hr hc
  unfold Mat.get
  rw [h2, hlu.2.1, htmp.2.1, h4]
  have hlen : r * n + c < lu.data.length := by rw [hlu.2.2]; exact flat_lt hr hc
  have hrow := row_range (n := n) (r := r) (p := p) hc
  by_cases hrp : r = p
  · subst hrp
    have e : r * n + 0 + (r * n + c - (r * n + 0)) = r * n + c := by omega
    have cond : r * n + 0 ≤ r * n + c ∧ r * n + c < r * n + 0 + n ∧
        r * n + c < lu.data.length := by omega
    rw [if_pos cond, if_pos rfl]
    congr 1
    omega
  · have cond : ¬ (p * n + 0 ≤ r * n + c ∧ r * n + c < p * n + 0 + n ∧
        r * n + c < lu.data.length) := by
      intro hh
      exact hrp (hrow.mp ⟨by omega, by omega⟩)
    rw [if_neg cond, if_neg hrp]

/-- The last loop of `inverse`: row `perms[i]` of the result is row `i` of `tmp`. -/
theorem unpermute_spec (matrix lu tmp : Mat) (perms : List Nat) (n : Nat)
    (hc : matrix.cols = n) (hlu : lu.Square n) (htmp : tmp.Square n) (hp : IsPerm perms n) :
    ∃ res, unpermute matrix lu tmp perms = .ok res ∧ res.Square n ∧
      ∀ i c, i < n → c < n → res.get (perms.getD i 0) c = tmp.get i c := by
  unfold unpermute
  rw [hc]
  refine forUp_inv
    (fun k (t : Mat) => t.Square n ∧
      ∀ i c, i < k → c < n → t.get (perms.getD i 0) c = tmp.get i c)
    (Nat.zero_le n) ⟨hlu, fun i c hi _ => by omega⟩ ?_
  intro k t _ hk ⟨h1, h2⟩
  have hpk : perms.getD k 0 < n := hp.2.1 k hk
  have e1 : t.ref (perms.getD k 0) 0 = .ok (perms.getD k 0 * n + 0) := by
    unfold Mat.ref
    rw [h1.1, h1.2.1, if_pos ⟨hpk, by omega⟩]
  have e2 : tmp.ref k 0 = .ok (k * n + 0) := by
    unfold Mat.ref
    rw [htmp.1, htmp.2.1, if_pos ⟨hk, by omega⟩]
  obtain ⟨g1, g2⟩ := memcpy_row t tmp n (perms.getD k 0) k h1 htmp hpk
  refine ⟨memcpy t (perms.getD k 0 * n + 0) tmp (k * n + 0) n,
    by simp only [e1, e2, bind, Except.bind, pure, Except.pure], g1, ?_⟩
  intro i c hi hc1
  rw [g2 _ c (hp.2.1 i (by omega)) hc1]
  by_cases hik : i = k
  · subst hik
    rw [if_pos rfl]
  · have : perms.getD i 0 ≠ perms.getD k 0 := fun hh => hik (hp.2.2 i k (by omega) hk hh)
    rw [if_neg this]
    exact h2 i c (by omega) hc1

/-- Undoing the column order: if the permuted input times `tmp` is the identity and row
`perms[i]` of `res` is row `i` of `tmp`, the input times `res` is the identity. -/
theorem unpermute_product (A res tmp : Mat) (perms : List Nat) (n : Nat) (hp : IsPerm perms n)
    (hres : ∀ i c, i < n → c < n → res.get (perms.getD i 0) c = tmp.get i c)
    (h : permuted A perms n * tmp.toMatrix n = 1) :
    A.toMatrix n * res.toMatrix n = 1 := by
  let σ : Fin n → Fin n := fun i => ⟨perms.getD i.val 0, hp.2.1 i.val i.2⟩
  have hinj : Function.Injective σ := by
    intro i j hij
    have : perms.getD i.val 0 = perms.getD j.val 0 := congrArg Fin.val hij
    exact Fin.ext (hp.2.2 i.val j.val i.2 j.2 this)
  have hbij : Function.Bijective σ := Finite.injective_iff_bijective.mp hinj
  ext r c
  have hrc := congrFun (congrFun h r) c
  rw [← hrc]
  simp only [Matrix.mul_apply, permuted, Mat.toMatrix, Matrix.of_apply]
  rw [← Function.Bijective.sum_comp hbij (fun k => A.get r k * res.get k c)]
  refine Finset.sum_congr rfl ?_
  intro i _
  show A.get r (perms.getD i.val 0) * res.get (perms.getD i.val 0) c = _
  rw [hres i.val c.val i.2 c.2]

/-- The matrix held by `tmp` after the product block is the product of the two
triangles of the buffer. -/
theorem assemble_product (x lu tmp : Mat) (n : Nat)
    (hlow : ∀ r c, r < n → c < n → c < r → x.get r c = lu.get r c)
    (htmp : ∀ i k, i < n → k < n →
      tmp.get i k = ∑ j in Finset.range n, x.upperEntry i j * x.unitLowerEntry j k) :
    tmp.toMatrix n = x.upperPart n n * lu.lowerPart n n := by
  ext i k
  simp only [Matrix.mul_apply, Mat.toMatrix, Matrix.of_apply]
  rw [htmp i k i.2 k.2,
    ← Fin.sum_univ_eq_sum_range (fun j => x.upperEntry i j * x.unitLowerEntry j k) n]
  refine Finset.sum_congr rfl ?_
  intro j _
  have e1 : x.upperEntry i j = x.upperPart n n i j := by
    simp only [Mat.upperEntry, Mat.upperPart, Matrix.of_apply]
    have m1 : min i.val n = i.val := by have := i.2; omega
    rw [m1]
  have e2 : x.unitLowerEntry j k = lu.lowerPart n n j k := by
    simp only [Mat.unitLowerEntry, Mat.lowerPart, Matrix.of_apply]
    have e3 : (j = k) ↔ (j.val = k.val) := Fin.ext_iff
    simp only [e3]
    by_cases hjk : j.val = k.val
    · rw [if_pos hjk, if_pos hjk]
    · rw [if_neg hjk, if_neg hjk]
      by_cases hlt : k.val < j.val
      · rw [if_pos hlt, if_pos ⟨hlt, k.2⟩, hlow j k j.2 k.2 hlt]
      · rw [if_neg hlt, if_neg (fun hh => hlt hh.1)]
  rw [e1, e2]

/-- The routine `inverse` on an `n x n` matrix: either it returns a well-formed `n x n`
matrix that is a left inverse of the input, or it takes the non-invertible exit. -/
theorem inverse_spec (A : Mat) (n : Nat) (hr : A.rows = n) (hc : A.cols = n) :
    (∃ res, inverse A = .ok res ∧ res.Square n ∧ res.toMatrix n * A.toMatrix n = 1) ∨
    inverse A = .error .notInvertible := by
  have hsq : ¬ A.rows ≠ A.cols := by rw [hr, hc]; simp
  have hcopy : (copy A).cols = n := (copy_spec A n hr hc).1.2.1
  unfold inverse
  rw [if_neg hsq]
  simp only [hcopy, hc]
  rcases forward_spec A n hr hc with ⟨lu, perms, h1, h2, h3, h4, h5⟩ | hfail
  · left
    obtain ⟨x, hx, x1, x2, x3⟩ := backward_spec lu n h2 h4
    obtain ⟨tmp, ht, t1, t2⟩ := assemble_spec A x n hr hc x1
    obtain ⟨res, hres, r1, r2⟩ := unpermute_spec A x tmp perms n hc x1 t1 h3
    refine ⟨res, ?_, r1, ?_⟩
    · simp only [h1, bind, Except.bind, h2.2.1, hx, ht]
      exact hres
    · have hT := assemble_product x lu tmp n x2 t2
      have hprod : tmp.toMatrix n * permuted A perms n = 1 := by
        rw [hT, Matrix.mul_assoc, h5, x3]
      have hprod2 : permuted A perms n * tmp.toMatrix n = 1 :=
        Matrix.mul_eq_one_comm.mp hprod
      exact Matrix.mul_eq_one_comm.mp (unpermute_product A res tmp perms n h3 r2 hprod2)
  · right
    simp only [hfail, bind, Except.bind]

/-- C1. Over exact arithmetic, whenever `inverse` returns a value `B` on an `n x n`
matrix `A` (no pivot step reports near-zero), `B` is a left inverse of `A` and
`multiply(B, A)` returns the `n x n` identity matrix. -/
theorem inverse_mul_self (A B : Mat) (n : Nat) (hr : A.rows = n) (hc : A.cols = n)
    (hinv : inverse A = .ok B) :
    B.toMatrix n * A.toMatrix n = 1 ∧
    ∃ P, multiply B A = .ok P ∧ P.rows = n ∧ P.cols = n ∧
      ∀ i k, i < n → k < n → P.at_ i k = .ok (if i = k then 1 else 0) := by
  rcases inverse_spec A n hr hc with ⟨res, h1, h2, h3⟩ | hfail
  · rw [hinv] at h1
    cases h1
    refine ⟨h3, ?_⟩
    obtain ⟨P, p1, p2, p3, -, p5⟩ := multiply_spec B A (by rw [h2.2.1, hr])
    refine ⟨P, p1, by rw [p2, h2.1], by rw [p3, hc], ?_⟩
    intro i k hi hk
    rw [Mat.at_ok (by rw [p2, h2.1]; exact hi) (by rw [p3, hc]; exact hk),
      p5 i k (by rw [h2.1]; exact hi) (by rw [hc]; exact hk), h2.2.1]
    have hik := congrFun (congrFun h3 ⟨i, hi⟩) ⟨k, hk⟩
    simp only [Matrix.mul_apply, Mat.toMatrix, Matrix.of_apply, Matrix.one_apply,
      Fin.mk.injEq] at hik
    rw [← hik, ← Fin.sum_univ_eq_sum_range (fun j => B.get i j * A.get j k) n]
  · rw [hinv] at hfail
    cases hfail

set_option maxRecDepth 100000 in
/-- C1, at `[[4,3],[6,3]]`, where `inverse` returns `[[-1/2, 1/2],[1, -2/3]]` and the
product with the input is the `2 x 2` identity. -/
theorem inverse_mul_self_witness :
    inverse ⟨[4, 3, 6, 3], 2, 2⟩ = .ok ⟨[-1 / 2, 1 / 2, 1, -2 / 3], 2, 2⟩ ∧
    multiply ⟨[-1 / 2, 1 / 2, 1, -2 / 3], 2, 2⟩ ⟨[4, 3, 6, 3], 2, 2⟩ =
      .ok ⟨[1, 0, 0, 1], 2, 2⟩ ∧
    ((⟨[-1 / 2, 1 / 2, 1, -2 / 3], 2, 2⟩ : Mat).toMatrix 2 *
        (⟨[4, 3, 6, 3], 2, 2⟩ : Mat).toMatrix 2 = 1 ∧
      ∃ P, multiply ⟨[-1 / 2, 1 / 2, 1, -2 / 3], 2, 2⟩ ⟨[4, 3, 6, 3], 2, 2⟩ = .ok P ∧
        P.rows = 2 ∧ P.cols = 2 ∧
        ∀ i k, i < 2 → k < 2 → P.at_ i k = .ok (if i = k then 1 else 0)) := by
  have h : inverse ⟨[4, 3, 6, 3], 2, 2⟩ = .ok ⟨[-1 / 2, 1 / 2, 1, -2 / 3], 2, 2⟩ := by
    norm_num [inverse, copy, create_matrix, forUp, forUpAux, forDown, forwardStep,
      forwardRow, backwardStep, backwardRow, assemble, unpermute, memcpy, zeroFill, pivot,
      pivotScan, Mat.at_, Mat.ref, Mat.load, Mat.store, Mat.assign, swapColumns, swapPerms,
      addScaledRow, epsilon, PIVOT_CLOSE_TO_ZERO, PIVOT_SWAPPED, bind, Except.bind, pure,
      Except.pure, List.range, List.range.loop, abs_eq_max_neg, max_def, List.replicate]
  refine ⟨h, ?_, inverse_mul_self ⟨[4, 3, 6, 3], 2, 2⟩ _ 2 rfl rfl h⟩
  norm_num [multiply, zeroFill, create_matrix, forUp, forUpAux, forDown, Mat.at_, Mat.ref,
    Mat.load, Mat.store, Mat.assign, bind, Except.bind, List.replicate]

/-- One call of `allocate` keeps the cursor a multiple of the pointer size and returns
the cursor it found. -/
theorem allocate_aligned (a : LinearAllocator) (size : Nat) (h : POINTER_SIZE ∣ a.size) :
    POINTER_SIZE ∣ (a.allocate size).2.size ∧
      ∀ o, (a.allocate size).1 = some o → o = a.size := by
  unfold LinearAllocator.allocate
  unfold POINTER_SIZE SIZE_MODULUS at *
  simp only
  split_ifs with hgt
  · exact ⟨h, fun o ho => by simp at ho⟩
  · refine ⟨?_, fun o ho => by simpa using ho.symm⟩
    simp only
    norm_num
    omega

theorem allocateAll_aligned (sizes : List Nat) :
    ∀ a : LinearAllocator, POINTER_SIZE ∣ a.size →
      POINTER_SIZE ∣ (a.allocateAll sizes).2.size ∧
      ∀ e, e ∈ (a.allocateAll sizes).1 → ∀ o, e.2 = some o → POINTER_SIZE ∣ o := by
  induction sizes with
  | nil =>
    intro a h
    exact ⟨h, fun e he => by simp [LinearAllocator.allocateAll] at he⟩
  | cons size rest ih =>
    intro a h
    obtain ⟨h1, h2⟩ := allocate_aligned a size h
    obtain ⟨g1, g2⟩ := ih (a.allocate size).2 h1
    refine ⟨g1, ?_⟩
    intro e he o ho
    simp only [LinearAllocator.allocateAll, List.mem_cons] at he
    rcases he with he | he
    · subst he
      rw [h2 o ho]
      exact h
    · exact g2 e he o ho

/-- C11. For an arena created by `create_linear_allocator` and any sequence of calls of
`allocate`, with arbitrary sizes, the cursor after the calls is a multiple of the pointer
size, and so is the offset of every block returned. -/
theorem arena_cursor_aligned (capacity : Nat) (sizes : List Nat) :
    POINTER_SIZE ∣ ((create_linear_allocator capacity).allocateAll sizes).2.size ∧
    ∀ e, e ∈ ((create_linear_allocator capacity).allocateAll sizes).1 →
      ∀ o, e.2 = some o → POINTER_SIZE ∣ o :=
  allocateAll_aligned sizes (create_linear_allocator capacity) (dvd_zero _)

/-- Without wrap-around, `allocate` either returns the cursor and advances it by the
rounded size, which fits in the capacity, or returns `NULL` and changes nothing. -/
theorem allocate_nowrap (a : LinearAllocator) (size : Nat) (hn : size + 7 < SIZE_MODULUS)
    (hs : a.size + (size + 7 - (size + 7) % POINTER_SIZE) < SIZE_MODULUS) :
    a.allocate size =
      (if a.size + (size + 7 - (size + 7) % POINTER_SIZE) ≤ a.capacity then
        (some a.size,
          { a with size := a.size + (size + 7 - (size + 7) % POINTER_SIZE) })
      else (none, a)) := by
  unfold LinearAllocator.allocate
  have e1 : (size + (POINTER_SIZE - 1)) % SIZE_MODULUS = size + 7 := by
    unfold POINTER_SIZE
    exact Nat.mod_eq_of_lt hn
  simp only [e1, Nat.mod_eq_of_lt hs]
  by_cases h : a.size + (size + 7 - (size + 7) % POINTER_SIZE) ≤ a.capacity
  · rw [if_pos h, if_neg (by omega)]
  · rw [if_neg h, if_pos (by omega)]

/-- A call of `allocate` that returns `NULL` leaves the arena as it was. -/
theorem allocate_null_unchanged (a : LinearAllocator) (size : Nat)
    (h : (a.allocate size).1 = none) : (a.allocate size).2 = a := by
  unfold LinearAllocator.allocate at *
  simp only at *
  by_cases hgt : (a.size + ((size + (POINTER_SIZE - 1)) % SIZE_MODULUS -
      (size + (POINTER_SIZE - 1)) % SIZE_MODULUS % POINTER_SIZE)) % SIZE_MODULUS > a.capacity
  · rw [if_pos hgt]
  · rw [if_neg hgt] at h
    simp at h

/-- Without wrap-around, every block returned by a sequence of calls starts at or after
the cursor the sequence started from, ends within the capacity, and ends before every
block returned later. -/
theorem allocateAll_blocks (sizes : List Nat) :
    ∀ a : LinearAllocator, a.NoWrap sizes →
      (∀ e, e ∈ (a.allocateAll sizes).1 → ∀ o, e.2 = some o →
        a.size ≤ o ∧ o + e.1 ≤ a.capacity) ∧
      (a.allocateAll sizes).1.Pairwise
        (fun e1 e2 => ∀ o1 o2, e1.2 = some o1 → e2.2 = some o2 → o1 + e1.1 ≤ o2) := by
  induction sizes with
  | nil =>
    intro a _
    exact ⟨fun e he => by simp [LinearAllocator.allocateAll] at he,
      by simp [LinearAllocator.allocateAll]⟩
  | cons size rest ih =>
    intro a hnw
    obtain ⟨hn, hs, hrest⟩ := hnw
    obtain ⟨g1, g2⟩ := ih (a.allocate size).2 hrest
    have hstep := allocate_nowrap a size hn hs
    have hmod : (size + 7) % POINTER_SIZE ≤ 7 := by
      unfold POINTER_SIZE; omega
    have hcap : (a.allocate size).2.capacity = a.capacity := by
      rw [hstep]; split_ifs <;> rfl
    have hmono : a.size ≤ (a.allocate size).2.size := by
      rw [hstep]; split_ifs
      · exact Nat.le_add_right _ _
      · exact le_refl _
    have hhead : ∀ o, (a.allocate size).1 = some o →
        o = a.size ∧ o + size ≤ (a.allocate size).2.size ∧ o + size ≤ a.capacity := by
      intro o ho
      rw [hstep] at ho ⊢
      by_cases hle : a.size + (size + 7 - (size + 7) % POINTER_SIZE) ≤ a.capacity
      · rw [if_pos hle] at ho ⊢
        simp only [Option.some.injEq] at ho
        subst ho
        refine ⟨rfl, ?_, ?_⟩
        · show a.size + size ≤ a.size + (size + 7 - (size + 7) % POINTER_SIZE)
          omega
        · omega
      · rw [if_neg hle] at ho
        simp at ho
    constructor
    · intro e he o ho
      simp only [LinearAllocator.allocateAll, List.mem_cons] at he
      rcases he with he | he
      · subst he
        obtain ⟨h1, -, h3⟩ := hhead o ho
        exact ⟨by omega, h3⟩
      · obtain ⟨k1, k2⟩ := g1 e he o ho
        exact ⟨by omega, by omega⟩
    · simp only [LinearAllocator.allocateAll, List.pairwise_cons]
      refine ⟨?_, g2⟩
      intro e he o1 o2 ho1 ho2
      obtain ⟨-, h2, -⟩ := hhead o1 ho1
      obtain ⟨k1, -⟩ := g1 e he o2 ho2
      show o1 + size ≤ o2
      omega

/-- Leaving the failed requests out of a sequence of calls changes neither the results
of the other calls nor the final state of the arena. -/
theorem allocateAll_without_failures (sizes : List Nat) :
    ∀ a : LinearAllocator,
      a.allocateAll (((a.allocateAll sizes).1.filter (fun e => e.2.isSome)).map Prod.fst) =
        ((a.allocateAll sizes).1.filter (fun e => e.2.isSome), (a.allocateAll sizes).2) := by
  induction sizes with
  | nil =>
    intro a
    simp [LinearAllocator.allocateAll]
  | cons size rest ih =>
    intro a
    cases hres : (a.allocate size).1 with
    | none =>
      have hsame := allocate_null_unchanged a size hres
      simp only [LinearAllocator.allocateAll, hres, hsame, List.filter_cons, Option.isSome_none,
        Bool.false_eq_true, if_false]
      exact ih a
    | some o =>
      have := ih (a.allocate size).2
      simp only [LinearAllocator.allocateAll, hres, List.filter_cons, Option.isSome_some,
        if_true, List.map_cons, this]

/-- C20. For an arena starting at cursor 0 and a sequence of calls of `allocate` in which
no `size_t` operation wraps around: the byte range `[offset, offset + size)` of every
successful call lies within `[0, capacity)`, the range of an earlier successful call
ends before the range of a later one starts, a failed call leaves the arena unchanged,
and leaving the failed calls out changes neither the other results nor the final state. -/
theorem arena_blocks_disjoint (capacity : Nat) (sizes : List Nat)
    (hnw : (create_linear_allocator capacity).NoWrap sizes) :
    (∀ e, e ∈ ((create_linear_allocator capacity).allocateAll sizes).1 →
      ∀ o, e.2 = some o → o + e.1 ≤ capacity) ∧
    ((create_linear_allocator capacity).allocateAll sizes).1.Pairwise
      (fun e1 e2 => ∀ o1 o2, e1.2 = some o1 → e2.2 = some o2 → o1 + e1.1 ≤ o2) ∧
    (∀ (a : LinearAllocator) (size : Nat),
      (a.allocate size).1 = none → (a.allocate size).2 = a) ∧
    (create_linear_allocator capacity).allocateAll
        ((((create_linear_allocator capacity).allocateAll sizes).1.filter
          (fun e => e.2.isSome)).map Prod.fst) =
      (((create_linear_allocator capacity).allocateAll sizes).1.filter (fun e => e.2.isSome),
        ((create_linear_allocator capacity).allocateAll sizes).2) := by
  obtain ⟨h1, h2⟩ := allocateAll_blocks sizes (create_linear_allocator capacity) hnw
  exact ⟨fun e he o ho => (h1 e he o ho).2, h2, allocate_null_unchanged,
    allocateAll_without_failures sizes _⟩

/-- C20, on an arena of capacity 16 with the requests 8, 16, 3: the blocks `[0, 8)` and
`[8, 11)` are returned and the request of 16 bytes fails in between. -/
theorem arena_blocks_disjoint_witness :
    (create_linear_allocator 16).NoWrap [8, 16, 3] ∧
    (create_linear_allocator 16).allocateAll [8, 16, 3] =
      ([(8, some 0), (16, none), (3, some 8)], ⟨16, 16⟩) ∧
    (create_linear_allocator 16).allocateAll [8, 3] = ([(8, some 0), (3, some 8)], ⟨16, 16⟩) ∧
    ((∀ e, e ∈ ((create_linear_allocator 16).allocateAll [8, 16, 3]).1 →
      ∀ o, e.2 = some o → o + e.1 ≤ 16) ∧
    ((create_linear_allocator 16).allocateAll [8, 16, 3]).1.Pairwise
      (fun e1 e2 => ∀ o1 o2, e1.2 = some o1 → e2.2 = some o2 → o1 + e1.1 ≤ o2) ∧
    (∀ (a : LinearAllocator) (size : Nat),
      (a.allocate size).1 = none → (a.allocate size).2 = a) ∧
    (create_linear_allocator 16).allocateAll
        ((((create_linear_allocator 16).allocateAll [8, 16, 3]).1.filter
          (fun e => e.2.isSome)).map Prod.fst) =
      (((create_linear_allocator 16).allocateAll [8, 16, 3]).1.filter (fun e => e.2.isSome),
        ((create_linear_allocator 16).allocateAll [8, 16, 3]).2)) :=
  ⟨by decide, by decide, by decide, arena_blocks_disjoint 16 [8, 16, 3] (by decide)⟩

/-- Without wrap-around in `rows * cols * sizeof (double)` and in `allocate`, a matrix
returned by `create_matrix` on an arena has the given dimensions and the cursor has
advanced by at least `rows * cols * 8` bytes within the capacity. -/
theorem create_matrix_alloc_nowrap (malloc : Nat → Option Nat) (rows cols : Nat)
    (a : LinearAllocator) (m : MatFields) (al : Allocator)
    (hn : rows * cols * SIZEOF_DOUBLE + 7 < SIZE_MODULUS)
    (hs : a.size + (rows * cols * SIZEOF_DOUBLE + 7 -
      (rows * cols * SIZEOF_DOUBLE + 7) % POINTER_SIZE) < SIZE_MODULUS)
    (h : create_matrix_alloc malloc rows cols (.Linear a) = .ok (m, al)) :
    m.rows = rows ∧ m.cols = cols ∧ m.data = a.size ∧
      ∃ b : LinearAllocator, al = .Linear b ∧ b.capacity = a.capacity ∧
        a.size + rows * cols * SIZEOF_DOUBLE ≤ b.size ∧ b.size ≤ a.capacity := by
  unfold create_matrix_alloc Allocator.allocate at h
  have hmod : rows * cols * SIZEOF_DOUBLE % SIZE_MODULUS = rows * cols * SIZEOF_DOUBLE :=
    Nat.mod_eq_of_lt (by omega)
  simp only [hmod, allocate_nowrap a _ hn hs] at h
  have h7 : (rows * cols * SIZEOF_DOUBLE + 7) % POINTER_SIZE ≤ 7 := by
    unfold POINTER_SIZE; omega
  by_cases hle : a.size + (rows * cols * SIZEOF_DOUBLE + 7 -
      (rows * cols * SIZEOF_DOUBLE + 7) % POINTER_SIZE) ≤ a.capacity
  · simp only [if_pos hle, Except.ok.injEq, Prod.mk.injEq] at h
    obtain ⟨h1, h2⟩ := h
    subst h1; subst h2
    refine ⟨rfl, rfl, rfl, _, rfl, rfl, ?_, hle⟩
    show a.size + rows * cols * SIZEOF_DOUBLE ≤
      a.size + (rows * cols * SIZEOF_DOUBLE + 7 - (rows * cols * SIZEOF_DOUBLE + 7) % POINTER_SIZE)
    omega
  · simp only [if_neg hle] at h
    cases h

/-- C13 fails on the code. On an arena with cursor 0 and capacity 16,
`create_matrix(2^31, 2^31, allocator)` requests `2^31 * 2^31 * 8 = 2^65` bytes, which is
`0` in `size_t` arithmetic: it returns a matrix with `2^31` rows and columns whose block
starts at offset 0, and the cursor has not advanced. -/
theorem create_matrix_buffer_too_small :
    create_matrix_alloc (fun _ => none) (2 ^ 31) (2 ^ 31) (.Linear ⟨0, 16⟩) =
      .ok (⟨0, 2 ^ 31, 2 ^ 31⟩, .Linear ⟨0, 16⟩) ∧
    2 ^ 31 < SIZE_MODULUS ∧
    ¬ (0 + 2 ^ 31 * 2 ^ 31 * SIZEOF_DOUBLE ≤ 0) :=
  ⟨rfl, by decide, by decide⟩

/-- The value returned by `pivot` in terms of the result `(bv, bc)` of its scan: the
near-zero flag, joined with the swapped flag when an exchange is made, and the matrix
and permutation vector themselves when no exchange is made. -/
theorem pivot_value (m : Mat) (n column : Nat) (perms : Option (List Nat)) (hm : m.Square n)
    (hcol : column < n) (bv : ℚ) (bc : Nat) (hscan : pivotScan m column = .ok (bv, bc))
    (hbc : bc < n) :
    (bc = column → pivot m column perms =
      .ok (PIVOT_CLOSE_TO_ZERO * (if bv < epsilon then 1 else 0), m, perms)) ∧
    (bc ≠ column → ∃ t, swapColumns m column bc = .ok t ∧ pivot m column perms =
      .ok ((PIVOT_CLOSE_TO_ZERO * (if bv < epsilon then 1 else 0)) ||| PIVOT_SWAPPED, t,
        perms.map (fun p => swapPerms p column bc))) := by
  have hsq : ¬ m.rows ≠ m.cols := by rw [hm.1, hm.2.1]; simp
  constructor
  · intro h
    unfold pivot
    rw [if_neg hsq, hscan]
    simp only [bind, Except.bind, h, ne_eq, not_true_eq_false, if_false, pure, Except.pure]
  · intro h
    obtain ⟨t, ht, -, -⟩ := swapColumns_spec m n column bc hm hcol hbc (Ne.symm h)
    refine ⟨t, ht, ?_⟩
    unfold pivot
    rw [if_neg hsq, hscan]
    simp only [bind, Except.bind, ne_eq, Ne.symm h, not_false_eq_true, if_true, ht, pure,
      Except.pure]

theorem get_swapIdx (m : Mat) (r a b c : Nat) :
    m.get r (swapIdx a b c) =
      if c = a then m.get r b else if c = b then m.get r a else m.get r c := by
  unfold swapIdx
  split_ifs <;> rfl

/-- C15. On a well-formed `n x n` matrix with `column < n`: when `best_column` differs
from `column`, the matrix after `pivot` is the input with the entries at columns `column`
and `best_column` exchanged in every row and every other entry unchanged, and a supplied
`perms` has exactly its entries at these two positions exchanged; when `best_column` is
`column`, the matrix and `perms` are unchanged. -/
theorem pivot_frame (m : Mat) (n column : Nat) (perms : Option (List Nat)) (hm : m.Square n)
    (hcol : column < n) (hlen : ∀ p, perms = some p → p.length = n) :
    ∃ best_value best_column flags t perms1,
      pivotScan m column = .ok (best_value, best_column) ∧
      pivot m column perms = .ok (flags, t, perms1) ∧
      (best_column ≠ column →
        t.Square n ∧
        (∀ r c, r < n → c < n →
          t.get r c = if c = column then m.get r best_column
            else if c = best_column then m.get r column else m.get r c) ∧
        (perms = none → perms1 = none) ∧
        (∀ p, perms = some p → ∃ p1, perms1 = some p1 ∧ p1.length = p.length ∧
          ∀ i, p1.getD i 0 = if i = column then p.getD best_column 0
            else if i = best_column then p.getD column 0 else p.getD i 0)) ∧
      (best_column = column → t = m ∧ perms1 = perms) := by
  obtain ⟨bv, bc, hscan, h1, h2, -, -, -⟩ := pivotScan_spec m n column hm hcol
  obtain ⟨v1, v2⟩ := pivot_value m n column perms hm hcol bv bc hscan h2
  by_cases hbc : bc = column
  · exact ⟨bv, bc, _, m, perms, hscan, v1 hbc, fun h => absurd hbc h, fun _ => ⟨rfl, rfl⟩⟩
  · obtain ⟨t, ht, hp⟩ := v2 hbc
    obtain ⟨t1, ht1, g1, g2⟩ := swapColumns_spec m n column bc hm hcol h2 (Ne.symm hbc)
    rw [ht] at ht1
    cases ht1
    refine ⟨bv, bc, _, t, _, hscan, hp, fun _ => ⟨g1, ?_, ?_, ?_⟩, fun h => absurd h hbc⟩
    · intro r c hr hc
      rw [g2 r c hr hc, get_swapIdx]
    · intro h
      rw [h]; rfl
    · intro p hpp
      refine ⟨swapPerms p column bc, by rw [hpp]; rfl, by simp [swapPerms], ?_⟩
      intro i
      have hl := hlen p hpp
      rw [swapPerms_getD p column bc i (by omega) (by omega)]
      unfold swapIdx
      split_ifs <;> rfl

set_option maxRecDepth 100000 in
/-- C15, at `[[1,-5,5],[0,1,0],[0,0,1]]`, `column = 0` and `perms = [0,1,2]`, where columns
0 and 1 are exchanged. -/
theorem pivot_frame_witness :
    pivot ⟨[1, -5, 5, 0, 1, 0, 0, 0, 1], 3, 3⟩ 0 (some [0, 1, 2]) =
      .ok (2, ⟨[-5, 1, 5, 1, 0, 0, 0, 0, 1], 3, 3⟩, some [1, 0, 2]) ∧
    ∃ best_value best_column flags t perms1,
      pivotScan ⟨[1, -5, 5, 0, 1, 0, 0, 0, 1], 3, 3⟩ 0 = .ok (best_value, best_column) ∧
      pivot ⟨[1, -5, 5, 0, 1, 0, 0, 0, 1], 3, 3⟩ 0 (some [0, 1, 2]) =
        .ok (flags, t, perms1) ∧
      (best_column ≠ 0 →
        t.Square 3 ∧
        (∀ r c, r < 3 → c < 3 →
          t.get r c =
            if c = 0 then (⟨[1, -5, 5, 0, 1, 0, 0, 0, 1], 3, 3⟩ : Mat).get r best_column
            else if c = best_column then (⟨[1, -5, 5, 0, 1, 0, 0, 0, 1], 3, 3⟩ : Mat).get r 0
            else (⟨[1, -5, 5, 0, 1, 0, 0, 0, 1], 3, 3⟩ : Mat).get r c) ∧
        (some [0, 1, 2] = none → perms1 = none) ∧
        (∀ p, some [0, 1, 2] = some p → ∃ p1, perms1 = some p1 ∧ p1.length = p.length ∧
          ∀ i, p1.getD i 0 = if i = 0 then p.getD best_column 0
            else if i = best_column then p.getD 0 0 else p.getD i 0)) ∧
      (best_column = 0 →
        t = ⟨[1, -5, 5, 0, 1, 0, 0, 0, 1], 3, 3⟩ ∧ perms1 = some [0, 1, 2]) := by
  refine ⟨?_, pivot_frame ⟨[1, -5, 5, 0, 1, 0, 0, 0, 1], 3, 3⟩ 3 0 (some [0, 1, 2])
    ⟨rfl, rfl, rfl⟩ (by decide) (fun p hp => by cases hp; rfl)⟩
  norm_num [pivot, pivotScan, swapColumns, swapPerms, forUp, forUpAux, Mat.at_, Mat.ref,
    Mat.load, Mat.store, Mat.assign, epsilon, PIVOT_CLOSE_TO_ZERO, PIVOT_SWAPPED, bind,
    Except.bind, pure, Except.pure, abs_eq_max_neg, max_def]

theorem flags_bound (b : Prop) [Decidable b] :
    PIVOT_CLOSE_TO_ZERO * (if b then 1 else 0) < 4 ∧
    (PIVOT_CLOSE_TO_ZERO * (if b then 1 else 0)) ||| PIVOT_SWAPPED < 4 := by
  by_cases h : b <;> simp [h, PIVOT_CLOSE_TO_ZERO, PIVOT_SWAPPED]

set_option maxRecDepth 100000 in
/-- C16. On a well-formed `n x n` matrix with `column < n`, the value returned by `pivot`
has the near-zero bit set exactly when every magnitude of row `column` in `[column, n)`
is below the machine epsilon, the swapped bit set exactly when `best_column` differs from
`column`, and no other bit set; each of the four combinations of the two flags is
returned for some input. -/
theorem pivot_flags (m : Mat) (n column : Nat) (perms : Option (List Nat)) (hm : m.Square n)
    (hcol : column < n) :
    (∃ best_value best_column flags t perms1,
      pivotScan m column = .ok (best_value, best_column) ∧
      pivot m column perms = .ok (flags, t, perms1) ∧
      (flags &&& PIVOT_CLOSE_TO_ZERO ≠ 0 ↔
        ∀ i, column ≤ i → i < n → |m.get column i| < epsilon) ∧
      (flags &&& PIVOT_SWAPPED ≠ 0 ↔ best_column ≠ column) ∧
      flags < 4) ∧
    (∃ t p, pivot ⟨[1, 0, 0, 1], 2, 2⟩ 0 none = .ok (0, t, p)) ∧
    (∃ t p, pivot ⟨[0, 0, 0, 0], 2, 2⟩ 0 none = .ok (PIVOT_CLOSE_TO_ZERO, t, p)) ∧
    (∃ t p, pivot ⟨[0, 1, 1, 0], 2, 2⟩ 0 none = .ok (PIVOT_SWAPPED, t, p)) ∧
    (∃ t p, pivot ⟨[0, epsilon / 2, 1, 0], 2, 2⟩ 0 none =
      .ok (PIVOT_CLOSE_TO_ZERO ||| PIVOT_SWAPPED, t, p)) := by
  refine ⟨?_, ?_, ?_, ?_, ?_⟩
  · obtain ⟨bv, bc, hscan, h1, h2, h3, h4, -⟩ := pivotScan_spec m n column hm hcol
    obtain ⟨v1, v2⟩ := pivot_value m n column perms hm hcol bv bc hscan h2
    obtain ⟨f1, f2, f3, f4⟩ := flags_close (bv < epsilon)
    obtain ⟨b1, b2⟩ := flags_bound (bv < epsilon)
    have hnz : bv < epsilon ↔ ∀ i, column ≤ i → i < n → |m.get column i| < epsilon := by
      constructor
      · intro h i hi1 hi2
        exact lt_of_le_of_lt (h4 i hi1 hi2) h
      · intro h
        rw [h3]
        exact h bc h1 h2
    by_cases hbc : bc = column
    · refine ⟨bv, bc, _, m, perms, hscan, v1 hbc, f1.trans hnz, ?_, b1⟩
      rw [f3]
      simp [hbc]
    · obtain ⟨t, -, hp⟩ := v2 hbc
      exact ⟨bv, bc, _, t, _, hscan, hp, f2.trans hnz, ⟨fun _ => hbc, fun _ => f4⟩, b2⟩
  · refine ⟨⟨[1, 0, 0, 1], 2, 2⟩, none, ?_⟩
    norm_num [pivot, pivotScan, swapColumns, swapPerms, forUp, forUpAux, Mat.at_, Mat.ref,
      Mat.load, Mat.store, Mat.assign, epsilon, PIVOT_CLOSE_TO_ZERO, PIVOT_SWAPPED, bind,
      Except.bind, pure, Except.pure, abs_eq_max_neg, max_def]
  · refine ⟨⟨[0, 0, 0, 0], 2, 2⟩, none, ?_⟩
    norm_num [pivot, pivotScan, swapColumns, swapPerms, forUp, forUpAux, Mat.at_, Mat.ref,
      Mat.load, Mat.store, Mat.assign, epsilon, PIVOT_CLOSE_TO_ZERO, PIVOT_SWAPPED, bind,
      Except.bind, pure, Except.pure, abs_eq_max_neg, max_def]
  · refine ⟨⟨[1, 0, 0, 1], 2, 2⟩, none, ?_⟩
    norm_num [pivot, pivotScan, swapColumns, swapPerms, forUp, forUpAux, Mat.at_, Mat.ref,
      Mat.load, Mat.store, Mat.assign, epsilon, PIVOT_CLOSE_TO_ZERO, PIVOT_SWAPPED, bind,
      Except.bind, pure, Except.pure, abs_eq_max_neg, max_def]
    rfl
  · refine ⟨⟨[epsilon / 2, 0, 0, 1], 2, 2⟩, none, ?_⟩
    norm_num [pivot, pivotScan, swapColumns, swapPerms, forUp, forUpAux, Mat.at_, Mat.ref,
      Mat.load, Mat.store, Mat.assign, epsilon, PIVOT_CLOSE_TO_ZERO, PIVOT_SWAPPED, bind,
      Except.bind, pure, Except.pure, abs_eq_max_neg, max_def]

/-- C16, at `[[0, e/2],[1, 0]]` (with `e` the machine epsilon) and `column = 0`, where both
flags are returned. -/
theorem pivot_flags_witness :
    (⟨[0, epsilon / 2, 1, 0], 2, 2⟩ : Mat).Square 2 ∧
    ((∃ best_value best_column flags t perms1,
      pivotScan ⟨[0, epsilon / 2, 1, 0], 2, 2⟩ 0 = .ok (best_value, best_column) ∧
      pivot ⟨[0, epsilon / 2, 1, 0], 2, 2⟩ 0 none = .ok (flags, t, perms1) ∧
      (flags &&& PIVOT_CLOSE_TO_ZERO ≠ 0 ↔
        ∀ i, 0 ≤ i → i < 2 →
          |(⟨[0, epsilon / 2, 1, 0], 2, 2⟩ : Mat).get 0 i| < epsilon) ∧
      (flags &&& PIVOT_SWAPPED ≠ 0 ↔ best_column ≠ 0) ∧
      flags < 4) ∧
    (∃ t p, pivot ⟨[1, 0, 0, 1], 2, 2⟩ 0 none = .ok (0, t, p)) ∧
    (∃ t p, pivot ⟨[0, 0, 0, 0], 2, 2⟩ 0 none = .ok (PIVOT_CLOSE_TO_ZERO, t, p)) ∧
    (∃ t p, pivot ⟨[0, 1, 1, 0], 2, 2⟩ 0 none = .ok (PIVOT_SWAPPED, t, p)) ∧
    (∃ t p, pivot ⟨[0, epsilon / 2, 1, 0], 2, 2⟩ 0 none =
      .ok (PIVOT_CLOSE_TO_ZERO ||| PIVOT_SWAPPED, t, p))) :=
  ⟨⟨rfl, rfl, rfl⟩,
    pivot_flags ⟨[0, epsilon / 2, 1, 0], 2, 2⟩ 2 0 none ⟨rfl, rfl, rfl⟩ (by decide)⟩

set_option maxRecDepth 100000 in
/-- C18. The near-zero test is a magnitude threshold: on the `1 x 1` matrix `[[e/2]]`,
with `e` the machine epsilon, `abs` returns `0` and `inverse` takes the non-invertible
exit, although the determinant `e/2` is not `0`. -/
theorem near_zero_is_a_threshold :
    (⟨[epsilon / 2], 1, 1⟩ : Mat).abs = .ok 0 ∧
    inverse ⟨[epsilon / 2], 1, 1⟩ = .error .notInvertible ∧
    ((⟨[epsilon / 2], 1, 1⟩ : Mat).toMatrix 1).det = epsilon / 2 ∧
    ((⟨[epsilon / 2], 1, 1⟩ : Mat).toMatrix 1).det ≠ 0 := by
  have hdet : ((⟨[epsilon / 2], 1, 1⟩ : Mat).toMatrix 1).det = epsilon / 2 := by
    simp [Matrix.det_unique, Mat.toMatrix, Mat.get, Mat.load]
  refine ⟨?_, ?_, hdet, ?_⟩
  · norm_num [Mat.abs, absLoop, copy, create_matrix, forUp, forUpAux, absStep, pivot,
      pivotScan, Mat.at_, Mat.ref, Mat.load, Mat.store, Mat.assign, swapColumns, absRow,
      addScaledRow, epsilon, PIVOT_CLOSE_TO_ZERO, PIVOT_SWAPPED, bind, Except.bind, pure,
      Except.pure, List.range, List.range.loop, abs_eq_max_neg, max_def]
  · norm_num [inverse, copy, create_matrix, forUp, forUpAux, forDown, forwardStep,
      forwardRow, backwardStep, backwardRow, assemble, unpermute, memcpy, zeroFill, pivot,
      pivotScan, Mat.at_, Mat.ref, Mat.load, Mat.store, Mat.assign, swapColumns, swapPerms,
      addScaledRow, epsilon, PIVOT_CLOSE_TO_ZERO, PIVOT_SWAPPED, bind, Except.bind, pure,
      Except.pure, List.range, List.range.loop, abs_eq_max_neg, max_def, List.replicate]
  · rw [hdet]
    norm_num [epsilon]

/-- A permutation vector reaches every index below `n`. -/
theorem IsPerm.reaches {perms : List Nat} {n : Nat} (hp : IsPerm perms n) (v : Nat)
    (hv : v < n) : ∃ i, i < n ∧ perms.getD i 0 = v := by
  let σ : Fin n → Fin n := fun i => ⟨perms.getD i.val 0, hp.2.1 i.val i.2⟩
  have hinj : Function.Injective σ := by
    intro i j hij
    have : perms.getD i.val 0 = perms.getD j.val 0 := congrArg Fin.val hij
    exact Fin.ext (hp.2.2 i.val j.val i.2 j.2 this)
  obtain ⟨i, hi⟩ := (Finite.injective_iff_surjective.mp hinj) ⟨v, hv⟩
  exact ⟨i.val, i.2, congrArg Fin.val hi⟩

/-- C12. The permutation vector of `inverse` is a bijection on `[0, n)`: the initial
vector is, `pivot` on an `n x n` matrix with `column < n` turns a permutation of `[0, n)`
into a permutation of `[0, n)`, and so is `perms` after any number `k ≤ n` of iterations
of the forward pass of `inverse`, the only place where it is written. -/
theorem perms_stay_permutation (m A : Mat) (n column k : Nat) (perms : List Nat)
    (hm : m.Square n) (hcol : column < n) (hp : IsPerm perms n) (hr : A.rows = n)
    (hc : A.cols = n) (hk : k ≤ n) :
    (IsPerm (List.range n) n ∧ ∀ v, v < n → ∃ i, i < n ∧ (List.range n).getD i 0 = v) ∧
    (∃ flags t perms1, pivot m column (some perms) = .ok (flags, t, some perms1) ∧
      IsPerm perms1 n ∧ ∀ v, v < n → ∃ i, i < n ∧ perms1.getD i 0 = v) ∧
    (∀ lu perms2, forUp 0 k forwardStep (copy A, List.range A.cols) = .ok (lu, perms2) →
      IsPerm perms2 n ∧ ∀ v, v < n → ∃ i, i < n ∧ perms2.getD i 0 = v) := by
  refine ⟨⟨isPerm_range n, (isPerm_range n).reaches⟩, ?_, ?_⟩
  · obtain ⟨bv, bc, flags, t, -, hpiv, -, h2, -, -, -, -, -, -, -⟩ :=
      pivot_spec m n column (some perms) hm hcol
    by_cases hbc : bc = column
    · rw [if_pos hbc] at hpiv
      exact ⟨flags, t, perms, hpiv, hp, hp.reaches⟩
    · rw [if_neg hbc] at hpiv
      have := swapPerms_isPerm hp hcol h2
      exact ⟨flags, t, _, hpiv, this, this.reaches⟩
  · intro lu perms2 h
    rw [hc] at h
    rcases forward_prefix A n k hr hc hk with ⟨lu1, perms1, h1, -, h3, -, -⟩ | hfail
    · rw [h] at h1
      cases h1
      exact ⟨h3, h3.reaches⟩
    · rw [h] at hfail
      cases hfail

set_option maxRecDepth 100000 in
/-- C12, at `[[1,-5,5],[0,1,0],[0,0,1]]` with `column = 0` and `perms = [0,1,2]`, and two
iterations of the forward pass on the same matrix, which leave `perms = [1,2,0]`. -/
theorem perms_stay_permutation_witness :
    forUp 0 2 forwardStep (copy ⟨[1, -5, 5, 0, 1, 0, 0, 0, 1], 3, 3⟩, List.range 3) =
      .ok (⟨[-5, 5, 1, 1 / 5, 1, 1 / 5, -1 / 5, -1, -1 / 5], 3, 3⟩, [1, 2, 0]) ∧
    ((IsPerm (List.range 3) 3 ∧ ∀ v, v < 3 → ∃ i, i < 3 ∧ (List.range 3).getD i 0 = v) ∧
    (∃ flags t perms1,
      pivot ⟨[1, -5, 5, 0, 1, 0, 0, 0, 1], 3, 3⟩ 0 (some (List.range 3)) =
        .ok (flags, t, some perms1) ∧
      IsPerm perms1 3 ∧ ∀ v, v < 3 → ∃ i, i < 3 ∧ perms1.getD i 0 = v) ∧
    (∀ lu perms2,
      forUp 0 2 forwardStep (copy ⟨[1, -5, 5, 0, 1, 0, 0, 0, 1], 3, 3⟩,
        List.range (⟨[1, -5, 5, 0, 1, 0, 0, 0, 1], 3, 3⟩ : Mat).cols) = .ok (lu, perms2) →
      IsPerm perms2 3 ∧ ∀ v, v < 3 → ∃ i, i < 3 ∧ perms2.getD i 0 = v)) := by
  refine ⟨?_, perms_stay_permutation ⟨[1, -5, 5, 0, 1, 0, 0, 0, 1], 3, 3⟩
    ⟨[1, -5, 5, 0, 1, 0, 0, 0, 1], 3, 3⟩ 3 0 2 (List.range 3) ⟨rfl, rfl, rfl⟩ (by decide)
    (isPerm_range 3) rfl rfl (by decide)⟩
  norm_num [copy, create_matrix, forUp, forUpAux, forwardStep, forwardRow, pivot,
    pivotScan, Mat.at_, Mat.ref, Mat.load, Mat.store, Mat.assign, swapColumns, swapPerms,
    addScaledRow, epsilon, PIVOT_CLOSE_TO_ZERO, PIVOT_SWAPPED, bind, Except.bind, pure,
    Except.pure, List.range, List.range.loop, abs_eq_max_neg, max_def]

theorem lowerPart_det (m : Mat) (n t : Nat) : (m.lowerPart n t).det = 1 := by
  have htri : (m.lowerPart n t).BlockTriangular OrderDual.toDual := by
    intro r c hrc
    have hlt : r.val < c.val := hrc
    have h1 : r ≠ c := fun h => by rw [h] at hlt; exact lt_irrefl _ hlt
    have h2 : ¬ (c.val < r.val ∧ c.val < t) := by omega
    simp only [Mat.lowerPart, Matrix.of_apply, if_neg h1, if_neg h2]
  rw [Matrix.det_of_lowerTriangular _ htri]
  refine Finset.prod_eq_one ?_
  intro r _
  simp [Mat.lowerPart]

/-- C17. Over exact arithmetic, when the forward pass of `inverse` on an `n x n` matrix
`A` returns (no pivot step reports near-zero), with `U` the upper triangle of the buffer,
`M` the unit lower triangular matrix whose entries below the diagonal are those of the
buffer, and `AP` the input with its columns in the order of `perms`: `M * AP = U`, every
diagonal entry of `U` has a magnitude of at least the machine epsilon, and `M` is the
inverse of a matrix `L` with `AP = L * U`. -/
theorem forward_factorization (A lu : Mat) (perms : List Nat) (n : Nat) (hr : A.rows = n)
    (hc : A.cols = n)
    (h : forUp 0 (copy A).cols forwardStep (copy A, List.range A.cols) = .ok (lu, perms)) :
    lu.lowerPart n n * permuted A perms n = lu.upperPart n n ∧
    (∀ r c : Fin n, r ≤ c → lu.upperPart n n r c = lu.get r c) ∧
    (∀ r c : Fin n, c < r → lu.upperPart n n r c = 0) ∧
    (∀ r : Fin n, lu.lowerPart n n r r = 1) ∧
    (∀ r c : Fin n, c < r → lu.lowerPart n n r c = lu.get r c) ∧
    (∀ r c : Fin n, r < c → lu.lowerPart n n r c = 0) ∧
    (∀ r c : Fin n, permuted A perms n r c = A.get r (perms.getD c 0)) ∧
    (∀ r, r < n → epsilon ≤ |lu.get r r|) ∧
    ∃ L : Matrix (Fin n) (Fin n) ℚ, L * lu.lowerPart n n = 1 ∧ lu.lowerPart n n * L = 1 ∧
      permuted A perms n = L * lu.upperPart n n := by
  rw [(copy_spec A n hr hc).1.2.1, hc] at h
  rcases forward_prefix A n n hr hc (le_refl n) with ⟨lu1, perms1, h1, -, -, h4, h5⟩ | hfail
  · rw [h] at h1
    cases h1
    refine ⟨h5, ?_, ?_, ?_, ?_, ?_, fun _ _ => rfl, h4, ?_⟩
    · intro r c hrc
      have hle : r.val ≤ c.val := hrc
      have : min r.val n ≤ c.val := by omega
      simp only [Mat.upperPart, Matrix.of_apply, if_pos this]
    · intro r c hcr
      have hlt : c.val < r.val := hcr
      have : ¬ min r.val n ≤ c.val := by have := r.2; omega
      simp only [Mat.upperPart, Matrix.of_apply, if_neg this]
    · intro r
      simp [Mat.lowerPart]
    · intro r c hcr
      have hlt : c.val < r.val := hcr
      have h1 : r ≠ c := fun h => by rw [h] at hlt; exact lt_irrefl _ hlt
      have h2 : c.val < r.val ∧ c.val < n := ⟨hlt, c.2⟩
      simp only [Mat.lowerPart, Matrix.of_apply, if_neg h1, if_pos h2]
    · intro r c hrc
      have hlt : r.val < c.val := hrc
      have h1 : r ≠ c := fun h => by rw [h] at hlt; exact lt_irrefl _ hlt
      have h2 : ¬ (c.val < r.val ∧ c.val < n) := by omega
      simp only [Mat.lowerPart, Matrix.of_apply, if_neg h1, if_neg h2]
    · have hunit : IsUnit (lu.lowerPart n n).det := by
        rw [lowerPart_det]; exact isUnit_one
      refine ⟨(lu.lowerPart n n)⁻¹, Matrix.nonsing_inv_mul _ hunit,
        Matrix.mul_nonsing_inv _ hunit, ?_⟩
      rw [← h5, ← Matrix.mul_assoc, Matrix.nonsing_inv_mul _ hunit, Matrix.one_mul]
  · rw [h] at hfail
    cases hfail

set_option maxRecDepth 100000 in
/-- C17, at `[[4,3],[6,3]]`, where the forward pass leaves the buffer
`[[4,3],[-3/2,-3/2]]` and `perms = [0,1]`. -/
theorem forward_factorization_witness :
    forUp 0 (copy ⟨[4, 3, 6, 3], 2, 2⟩).cols forwardStep
        (copy ⟨[4, 3, 6, 3], 2, 2⟩, List.range (⟨[4, 3, 6, 3], 2, 2⟩ : Mat).cols) =
      .ok (⟨[4, 3, -3 / 2, -3 / 2], 2, 2⟩, [0, 1]) ∧
    ((⟨[4, 3, -3 / 2, -3 / 2], 2, 2⟩ : Mat).lowerPart 2 2 * permuted (⟨[4, 3, 6, 3], 2, 2⟩ : Mat) [0, 1] 2 = (⟨[4, 3, -3 / 2, -3 / 2], 2, 2⟩ : Mat).upperPart 2 2 ∧
    (∀ r c : Fin 2, r ≤ c → (⟨[4, 3, -3 / 2, -3 / 2], 2, 2⟩ : Mat).upperPart 2 2 r c = (⟨[4, 3, -3 / 2, -3 / 2], 2, 2⟩ : Mat).get r c) ∧
    (∀ r c : Fin 2, c < r → (⟨[4, 3, -3 / 2, -3 / 2], 2, 2⟩ : Mat).upperPart 2 2 r c = 0) ∧
    (∀ r : Fin 2, (⟨[4, 3, -3 / 2, -3 / 2], 2, 2⟩ : Mat).lowerPart 2 2 r r = 1) ∧
    (∀ r c : Fin 2, c < r → (⟨[4, 3, -3 / 2, -3 / 2], 2, 2⟩ : Mat).lowerPart 2 2 r c = (⟨[4, 3, -3 / 2, -3 / 2], 2, 2⟩ : Mat).get r c) ∧
    (∀ r c : Fin 2, r < c → (⟨[4, 3, -3 / 2, -3 / 2], 2, 2⟩ : Mat).lowerPart 2 2 r c = 0) ∧
    (∀ r c : Fin 2, permuted (⟨[4, 3, 6, 3], 2, 2⟩ : Mat) [0, 1] 2 r c = (⟨[4, 3, 6, 3], 2, 2⟩ : Mat).get r (([0, 1] : List Nat).getD c 0)) ∧
    (∀ r, r < 2 → epsilon ≤ |(⟨[4, 3, -3 / 2, -3 / 2], 2, 2⟩ : Mat).get r r|) ∧
    ∃ L : Matrix (Fin 2) (Fin 2) ℚ, L * (⟨[4, 3, -3 / 2, -3 / 2], 2, 2⟩ : Mat).lowerPart 2 2 = 1 ∧
      (⟨[4, 3, -3 / 2, -3 / 2], 2, 2⟩ : Mat).lowerPart 2 2 * L = 1 ∧
      permuted (⟨[4, 3, 6, 3], 2, 2⟩ : Mat) [0, 1] 2 = L * (⟨[4, 3, -3 / 2, -3 / 2], 2, 2⟩ : Mat).upperPart 2 2) := by
  have h : forUp 0 (copy ⟨[4, 3, 6, 3], 2, 2⟩).cols forwardStep
      (copy ⟨[4, 3, 6, 3], 2, 2⟩, List.range (⟨[4, 3, 6, 3], 2, 2⟩ : Mat).cols) =
      .ok (⟨[4, 3, -3 / 2, -3 / 2], 2, 2⟩, [0, 1]) := by
    norm_num [copy, create_matrix, forUp, forUpAux, forwardStep, forwardRow, pivot,
      pivotScan, Mat.at_, Mat.ref, Mat.load, Mat.store, Mat.assign, swapColumns, swapPerms,
      addScaledRow, epsilon, PIVOT_CLOSE_TO_ZERO, PIVOT_SWAPPED, bind, Except.bind, pure,
      Except.pure, List.range, List.range.loop, abs_eq_max_neg, max_def]
  exact ⟨h, forward_factorization ⟨[4, 3, 6, 3], 2, 2⟩ _ _ 2 rfl rfl h⟩

theorem forUpAux_congr {σ : Type} (b c : Nat → σ → Except Err σ) (P : Nat → σ → Prop) :
    ∀ (count i : Nat) (s : σ), P i s →
      (∀ k t, i ≤ k → k < i + count → P k t →
        c k t = b k t ∧ ∀ t1, b k t = .ok t1 → P (k + 1) t1) →
      forUpAux c count i s = forUpAux b count i s := by
  intro count
  induction count with
  | zero =>
    intro i s _ _
    rfl
  | succ count ih =>
    intro i s h0 hstep
    obtain ⟨heq, hP⟩ := hstep i s (le_refl i) (by omega) h0
    simp only [forUpAux, heq]
    cases hb : b i s with
    | error e => rfl
    | ok t1 =>
      exact ih (i + 1) t1 (hP t1 hb)
        (fun k t hk hk2 hPk => hstep k t (by omega) (by omega) hPk)

/-- Two loop bodies that agree on the states satisfying an invariant give the same
`forUp` loop. -/
theorem forUp_congr {σ : Type} {b c : Nat → σ → Except Err σ} (P : Nat → σ → Prop)
    {l h : Nat} {s : σ} (h0 : P l s)
    (hstep : ∀ k t, l ≤ k → k < h → P k t →
      c k t = b k t ∧ ∀ t1, b k t = .ok t1 → P (k + 1) t1) :
    forUp l h c s = forUp l h b s :=
  forUpAux_congr b c P (h - l) l s h0
    (fun k t hk hk2 hPk => hstep k t hk (by omega) hPk)

/-- Two loop bodies that agree on the states satisfying an invariant give the same
`forDown` loop. -/
theorem forDown_congr {σ : Type} {b c : Nat → σ → Except Err σ} (P : Nat → σ → Prop) :
    ∀ (n : Nat) (s : σ), P n s →
      (∀ k t, k < n → P (k + 1) t → c k t = b k t ∧ ∀ t1, b k t = .ok t1 → P k t1) →
      forDown c n s = forDown b n s := by
  intro n
  induction n with
  | zero =>
    intro s _ _
    rfl
  | succ n ih =>
    intro s h0 hstep
    obtain ⟨heq, hP⟩ := hstep n s (by omega) h0
    simp only [forDown, heq]
    cases hb : b n s with
    | error e => rfl
    | ok t1 =>
      exact ih t1 (hP t1 hb) (fun k t hk hPk => hstep k t (by omega) hPk)

theorem guardedDiv_ok (a b : ℚ) (h : epsilon ≤ |b|) : guardedDiv a b = .ok (a / b) := by
  unfold guardedDiv
  rw [if_neg (not_lt.mpr h)]

theorem absRowGuarded_eq (m : Mat) (n i j : Nat) (hm : m.Square n) (hi : i < n) (hj : j < n)
    (heps : epsilon ≤ |m.get i i|) : absRowGuarded i j m = absRow i j m := by
  have e1 : m.at_ j i = .ok (m.get j i) := Mat.at_ok (by rw [hm.1]; omega) (by rw [hm.2.1]; omega)
  have e2 : m.at_ i i = .ok (m.get i i) := Mat.at_ok (by rw [hm.1]; omega) (by rw [hm.2.1]; omega)
  unfold absRowGuarded absRow
  simp only [e1, e2, guardedDiv_ok _ _ heps, bind, Except.bind]

theorem absRowsGuarded_eq (m : Mat) (n i : Nat) (hm : m.Square n) (hi : i < n)
    (heps : epsilon ≤ |m.get i i|) :
    forUp (i + 1) m.rows (absRowGuarded i) m = forUp (i + 1) m.rows (absRow i) m := by
  refine forUp_congr (fun _ (t : Mat) => t.Square n ∧ t.get i i = m.get i i) ⟨hm, rfl⟩ ?_
  intro k t hk hk2 ⟨h1, h2⟩
  rw [hm.1] at hk2
  refine ⟨absRowGuarded_eq t n i k h1 hi hk2 (by rw [h2]; exact heps), ?_⟩
  intro t1 ht1
  obtain ⟨u, hu, g1, g2⟩ := absRow_spec t n i k h1 hi hk2 (by omega)
  rw [ht1] at hu
  cases hu
  refine ⟨g1, ?_⟩
  rw [g2 i i hi hi, if_neg (by omega), h2]

theorem absStepGuarded_eq (s : AbsState) (n i : Nat) (hs : s.upper.Square n) (hi : i < n) :
    absStepGuarded i s = absStep i s := by
  unfold absStepGuarded absStep
  by_cases hst : s.stopped = true
  · rw [if_pos hst, if_pos hst]
  · rw [if_neg hst, if_neg hst]
    obtain ⟨bv, bc, flags, t, -, hp, -, h2, h3, -, -, h6, h7, h8, -⟩ :=
      pivot_spec s.upper n i none hs hi
    simp only [hp, bind, Except.bind]
    by_cases hf : flags &&& PIVOT_CLOSE_TO_ZERO ≠ 0
    · rw [if_pos hf, if_pos hf]
    · rw [if_neg hf, if_neg hf]
      have heps : epsilon ≤ |t.get i i| := by
        have hbv : bv = |t.get i i| := by
          rw [h3, h7 i i hi hi]
          unfold swapIdx; simp
        rw [← hbv]
        exact not_lt.mp (fun h => hf (h8.mpr h))
      rw [absRowsGuarded_eq t n i h6 hi heps]

theorem absLoopGuarded_eq (A : Mat) (n : Nat) (hr : A.rows = n) (hc : A.cols = n) :
    absLoopGuarded A = absLoop A := by
  obtain ⟨hsq, -⟩ := copy_spec A n hr hc
  unfold absLoopGuarded absLoop
  have hne : ¬ A.rows ≠ A.cols := by rw [hr, hc]; simp
  rw [if_neg hne, if_neg hne]
  refine forUp_congr (fun _ (s : AbsState) => s.upper.Square n) hsq ?_
  intro k s _ hk hs
  rw [hsq.2.1] at hk
  refine ⟨absStepGuarded_eq s n k hs hk, ?_⟩
  intro s1 hs1
  by_cases hst : s.stopped = true
  · simp only [absStep, hst, if_true, Except.ok.injEq] at hs1
    rw [← hs1]; exact hs
  · have hns : s.stopped = false := by simpa using hst
    obtain ⟨bv, bc, t, u, -, -, -, k4, k5, -, -, k8⟩ := absStep_spec s n k hs hk hns
    rw [hs1] at k8
    by_cases hz : bv < epsilon
    · rw [if_pos hz] at k8
      cases k8
      exact k4
    · rw [if_neg hz] at k8
      cases k8
      exact k5

theorem forwardRowGuarded_eq (m : Mat) (n i j : Nat) (hm : m.Square n) (hi : i < n)
    (hj : j < n) (heps : epsilon ≤ |m.get i i|) :
    forwardRowGuarded i j m = forwardRow i j m := by
  have e1 : m.at_ j i = .ok (m.get j i) := Mat.at_ok (by rw [hm.1]; omega) (by rw [hm.2.1]; omega)
  have e2 : m.at_ i i = .ok (m.get i i) := Mat.at_ok (by rw [hm.1]; omega) (by rw [hm.2.1]; omega)
  unfold forwardRowGuarded forwardRow
  simp only [e1, e2, guardedDiv_ok _ _ heps, bind, Except.bind]

theorem forwardRowsGuarded_eq (m : Mat) (n i : Nat) (hm : m.Square n) (hi : i < n)
    (heps : epsilon ≤ |m.get i i|) :
    forUp (i + 1) m.rows (forwardRowGuarded i) m = forUp (i + 1) m.rows (forwardRow i) m := by
  refine forUp_congr (fun _ (t : Mat) => t.Square n ∧ t.get i i = m.get i i) ⟨hm, rfl⟩ ?_
  intro k t hk hk2 ⟨h1, h2⟩
  rw [hm.1] at hk2
  refine ⟨forwardRowGuarded_eq t n i k h1 hi hk2 (by rw [h2]; exact heps), ?_⟩
  intro t1 ht1
  obtain ⟨u, hu, g1, g2⟩ := forwardRow_spec t n i k h1 hi hk2 (by omega)
  rw [ht1] at hu
  cases hu
  refine ⟨g1, ?_⟩
  rw [g2 i i hi hi, if_neg (by omega), h2]

theorem forwardStepGuarded_eq (lu : Mat) (perms : List Nat) (n i : Nat) (hs : lu.Square n)
    (hi : i < n) : forwardStepGuarded i (lu, perms) = forwardStep i (lu, perms) := by
  unfold forwardStepGuarded forwardStep
  obtain ⟨bv, bc, flags, t, -, hp, -, h2, h3, -, -, h6, h7, h8, -⟩ :=
    pivot_spec lu n i (some perms) hs hi
  simp only [hp, bind, Except.bind]
  by_cases hf : flags &&& PIVOT_CLOSE_TO_ZERO ≠ 0
  · rw [if_pos hf, if_pos hf]
  · rw [if_neg hf, if_neg hf]
    have heps : epsilon ≤ |t.get i i| := by
      have hbv : bv = |t.get i i| := by
        rw [h3, h7 i i hi hi]
        unfold swapIdx; simp
      rw [← hbv]
      exact not_lt.mp (fun h => hf (h8.mpr h))
    rw [forwardRowsGuarded_eq t n i h6 hi heps]

theorem forwardGuarded_eq (A : Mat) (n : Nat) (hr : A.rows = n) (hc : A.cols = n) :
    forUp 0 n forwardStepGuarded (copy A, List.range n) =
      forUp 0 n forwardStep (copy A, List.range n) := by
  obtain ⟨hsq, -⟩ := copy_spec A n hr hc
  refine forUp_congr (fun _ (s : Mat × List Nat) => s.1.Square n) hsq ?_
  rintro k ⟨lu, perms⟩ _ hk hs
  refine ⟨forwardStepGuarded_eq lu perms n k hs hk, ?_⟩
  intro s1 hs1
  obtain ⟨bv, bc, t, u, -, -, -, -, k5, -, -, k8⟩ := forwardStep_spec lu perms n k hs hk
  rw [hs1] at k8
  by_cases hz : bv < epsilon
  · rw [if_pos hz] at k8
    cases k8
  · rw [if_neg hz] at k8
    cases k8
    exact k5

theorem backwardRowGuarded_eq (m : Mat) (n i j : Nat) (hm : m.Square n) (hi : i < n)
    (hj : j < n) (heps : epsilon ≤ |m.get i i|) :
    backwardRowGuarded i j m = backwardRow i j m := by
  have e1 : m.at_ j i = .ok (m.get j i) := Mat.at_ok (by rw [hm.1]; omega) (by rw [hm.2.1]; omega)
  have e2 : m.at_ i i = .ok (m.get i i) := Mat.at_ok (by rw [hm.1]; omega) (by rw [hm.2.1]; omega)
  unfold backwardRowGuarded backwardRow
  simp only [e1, e2, guardedDiv_ok _ _ heps, bind, Except.bind]

theorem backwardRowsGuarded_eq (m : Mat) (n i : Nat) (hm : m.Square n) (hi : i < n)
    (heps : epsilon ≤ |m.get i i|) :
    forDown (backwardRowGuarded i) i m = forDown (backwardRow i) i m := by
  refine forDown_congr (fun _ (t : Mat) => t.Square n ∧ t.get i i = m.get i i) i m
    ⟨hm, rfl⟩ ?_
  intro k t hk ⟨h1, h2⟩
  refine ⟨backwardRowGuarded_eq t n i k h1 hi (by omega) (by rw [h2]; exact heps), ?_⟩
  intro t1 ht1
  obtain ⟨u, hu, g1, g2⟩ := backwardRow_spec t n i k h1 hi hk
  rw [ht1] at hu
  cases hu
  refine ⟨g1, ?_⟩
  rw [g2 i i hi hi, if_neg (by omega), h2]

theorem backwardStepGuarded_eq (m : Mat) (n i : Nat) (hm : m.Square n) (hi : i < n)
    (heps : epsilon ≤ |m.get i i|) : backwardStepGuarded i m = backwardStep i m := by
  unfold backwardStepGuarded backwardStep
  rw [backwardRowsGuarded_eq m n i hm hi heps]
  obtain ⟨t1, ht1, hsq1, g1⟩ := backwardRows_spec m n i hm hi
  have e1 : t1.at_ i i = .ok (t1.get i i) :=
    Mat.at_ok (by rw [hsq1.1]; omega) (by rw [hsq1.2.1]; omega)
  have hd : t1.get i i = m.get i i := by
    rw [g1 i i hi hi, if_neg (lt_irrefl i)]
  have hg : guardedDiv 1 (t1.get i i) = .ok (1 / t1.get i i) :=
    guardedDiv_ok _ _ (by rw [hd]; exact heps)
  simp only [ht1, e1, bind, Except.bind, hg]

theorem backwardGuarded_eq (lu : Mat) (n : Nat) (hsq : lu.Square n)
    (hdiag : ∀ r, r < n → epsilon ≤ |lu.get r r|) :
    forDown backwardStepGuarded n lu = forDown backwardStep n lu := by
  refine forDown_congr
    (fun s (x : Mat) => x.Square n ∧ ∀ r, r < s → epsilon ≤ |x.get r r|) n lu
    ⟨hsq, hdiag⟩ ?_
  intro k x hk ⟨h1, h2⟩
  refine ⟨backwardStepGuarded_eq x n k h1 hk (h2 k (by omega)), ?_⟩
  intro x1 hx1
  obtain ⟨y, hy, g1, g2⟩ := backwardStep_spec x n k h1 hk
  rw [hx1] at hy
  cases hy
  refine ⟨g1, ?_⟩
  intro r hr
  have hrn : r < n := by omega
  rw [g2 r r hrn hrn, if_pos hr, if_neg (by omega), if_neg (by omega)]
  exact h2 r (by omega)

theorem inverseGuarded_eq (A : Mat) (n : Nat) (hr : A.rows = n) (hc : A.cols = n) :
    inverseGuarded A = inverse A := by
  have hcopy : (copy A).cols = n := (copy_spec A n hr hc).1.2.1
  unfold inverseGuarded inverse
  have hne : ¬ A.rows ≠ A.cols := by rw [hr, hc]; simp
  rw [if_neg hne, if_neg hne]
  simp only [hcopy, hc, forwardGuarded_eq A n hr hc]
  rcases forward_prefix A n n hr hc (le_refl n) with ⟨lu, perms, h1, h2, -, h4, -⟩ | hfail
  · simp only [h1, bind, Except.bind, h2.2.1, backwardGuarded_eq lu n h2 h4]
  · simp only [hfail, bind, Except.bind]

/-- On every `n x n` matrix the working copy of `abs` is obtained by `allocate` and
released by `delete[]`. -/
theorem absOps_spec (A : Mat) (n : Nat) (hr : A.rows = n) (hc : A.cols = n) :
    ∃ d, A.abs = .ok d ∧ A.absOps = .ok (d, copyOps A ++ [.deleteArray]) := by
  obtain ⟨s, h1, -, -, -⟩ := absLoop_spec A n hr hc
  refine ⟨s.det, ?_, ?_⟩
  · unfold Mat.abs; rw [h1]
  · unfold Mat.absOps; rw [h1]

set_option maxRecDepth 100000 in
/-- C14 fails on the code. On the `1 x 1` matrices `[[1]]` (the loop ends) and `[[0]]`
(the loop is left by `break` at the near-zero pivot) `abs` allocates its working copy
through the allocator and releases it with `delete[]`; no call of `deallocate`, the call
made by `destroy`, is made. -/
theorem abs_releases_with_delete :
    (⟨[1], 1, 1⟩ : Mat).absOps = .ok (1, [.allocate 8, .deleteArray]) ∧
    (⟨[0], 1, 1⟩ : Mat).absOps = .ok (0, [.allocate 8, .deleteArray]) ∧
    MemOp.deallocate ∉ [MemOp.allocate 8, MemOp.deleteArray] ∧
    destroyOps = [.deallocate] := by
  refine ⟨?_, ?_, by decide, rfl⟩
  · norm_num [Mat.absOps, copyOps, SIZEOF_DOUBLE, SIZE_MODULUS, absLoop, copy, create_matrix,
      forUp, forUpAux, absStep, pivot,
      pivotScan, Mat.at_, Mat.ref, Mat.load, Mat.store, Mat.assign, swapColumns, absRow,
      addScaledRow, epsilon, PIVOT_CLOSE_TO_ZERO, PIVOT_SWAPPED, bind, Except.bind, pure,
      Except.pure, List.range, List.range.loop, abs_eq_max_neg, max_def]
  · norm_num [Mat.absOps, copyOps, SIZEOF_DOUBLE, SIZE_MODULUS, absLoop, copy, create_matrix,
      forUp, forUpAux, absStep, pivot,
      pivotScan, Mat.at_, Mat.ref, Mat.load, Mat.store, Mat.assign, swapColumns, absRow,
      addScaledRow, epsilon, PIVOT_CLOSE_TO_ZERO, PIVOT_SWAPPED, bind, Except.bind, pure,
      Except.pure, List.range, List.range.loop, abs_eq_max_neg, max_def]

/-! ## The routines together with their allocations -/

/-- The only exit of `create_matrix` is the one on a failed allocation. -/
theorem create_matrix_alloc_error (malloc : Nat → Option Nat) (rows cols : Nat)
    (allocator : Allocator) (e : Err)
    (h : create_matrix_alloc malloc rows cols allocator = .error e) : e = .allocation := by
  unfold create_matrix_alloc at h
  simp only at h
  split at h
  · cases h
    rfl
  · cases h

/-- The routine `abs` with its allocation, on an `n x n` matrix: the exit of
`create_matrix` when the allocation of the working copy fails, otherwise the result of
`abs`. -/
theorem absAlloc_spec (A : Mat) (n : Nat) (hr : A.rows = n) (hc : A.cols = n)
    (malloc : Nat → Nat → Option Nat) (allocator : Allocator) :
    A.absAlloc malloc allocator =
      match create_matrix_alloc (malloc 0) n n allocator with
      | .error _ => .error .allocation
      | .ok r =>
        match A.abs with
        | .ok d => .ok (d, r.2)
        | .error e => .error e := by
  have hne : ¬ A.rows ≠ A.cols := by rw [hr, hc]; simp
  unfold Mat.absAlloc copyAlloc Mat.abs absLoop
  rw [if_neg hne, if_neg hne, hr, hc]
  cases hcm : create_matrix_alloc (malloc 0) n n allocator with
  | error e =>
    have := create_matrix_alloc_error _ _ _ _ _ hcm
    subst this
    rfl
  | ok r =>
    simp only [bind, Except.bind, pure, Except.pure]
    cases forUp 0 (copy A).cols absStep { upper := copy A, det := 1, stopped := false } <;> rfl

/-- The guarded routine `abs` with its allocation coincides with the plain one. -/
theorem absGuardedAlloc_eq (A : Mat) (n : Nat) (hr : A.rows = n) (hc : A.cols = n)
    (malloc : Nat → Nat → Option Nat) (allocator : Allocator) :
    A.absGuardedAlloc malloc allocator = A.absAlloc malloc allocator := by
  have hne : ¬ A.rows ≠ A.cols := by rw [hr, hc]; simp
  have h := absLoopGuarded_eq A n hr hc
  unfold absLoopGuarded absLoop at h
  rw [if_neg hne, if_neg hne] at h
  unfold Mat.absGuardedAlloc Mat.absAlloc copyAlloc
  rw [if_neg hne, if_neg hne]
  cases hcm : create_matrix_alloc (malloc 0) A.rows A.cols allocator with
  | error e => rfl
  | ok r =>
    simp only [bind, Except.bind]
    rw [h]

/-- The routine `inverse` with its allocations, on an `n x n` matrix: the exit of
`create_matrix` or of `malloc_or_panic` when an allocation that is reached fails,
otherwise the result of `inverse`. The buffer of `tmp` is allocated after the two passes,
so the non-invertible exit comes before it. -/
theorem inverseAlloc_spec (A : Mat) (n : Nat) (hr : A.rows = n) (hc : A.cols = n)
    (malloc : Nat → Nat → Option Nat) (allocator : Allocator) :
    inverseAlloc malloc allocator A =
      match create_matrix_alloc (malloc 0) n n allocator with
      | .error _ => .error .allocation
      | .ok r =>
        match malloc 1 (n * SIZEOF_SIZE_T % SIZE_MODULUS) with
        | none => .error .allocation
        | some _ =>
          match inverse A with
          | .error e => .error e
          | .ok B =>
            match malloc 2 (n * n * SIZEOF_DOUBLE % SIZE_MODULUS) with
            | none => .error .allocation
            | some _ => .ok (B, r.2) := by
  have hne : ¬ A.rows ≠ A.cols := by rw [hr, hc]; simp
  have hcopy : (copy A).cols = n := (copy_spec A n hr hc).1.2.1
  unfold inverseAlloc copyAlloc malloc_or_panic inverse
  rw [if_neg hne, if_neg hne, hr, hc]
  cases hcm : create_matrix_alloc (malloc 0) n n allocator with
  | error e =>
    have := create_matrix_alloc_error _ _ _ _ _ hcm
    subst this
    rfl
  | ok r =>
    cases hm1 : malloc 1 (n * SIZEOF_SIZE_T % SIZE_MODULUS) with
    | none => simp only [bind, Except.bind, hm1]
    | some p1 =>
      simp only [bind, Except.bind, hm1, hcopy]
      rcases forward_spec A n hr hc with ⟨lu, perms, h1, h2, h3, h4, -⟩ | hfail
      · obtain ⟨x, hx, x1, -, -⟩ := backward_spec lu n h2 h4
        obtain ⟨tmp, ht, t1, -⟩ := assemble_spec A x n hr hc x1
        obtain ⟨res, hres, -, -⟩ := unpermute_spec A x tmp perms n hc x1 t1 h3
        simp only [h1, h2.2.1, hx, ht, hres]
        cases hm2 : malloc 2 (n * n * SIZEOF_DOUBLE % SIZE_MODULUS) with
        | none => rfl
        | some p2 => rfl
      · simp only [hfail]

/-- The guarded routine `inverse` with its allocations coincides with the plain one. -/
theorem inverseGuardedAlloc_eq (A : Mat) (n : Nat) (hr : A.rows = n) (hc : A.cols = n)
    (malloc : Nat → Nat → Option Nat) (allocator : Allocator) :
    inverseGuardedAlloc malloc allocator A = inverseAlloc malloc allocator A := by
  have hne : ¬ A.rows ≠ A.cols := by rw [hr, hc]; simp
  have hcopy : (copy A).cols = n := (copy_spec A n hr hc).1.2.1
  unfold inverseGuardedAlloc inverseAlloc copyAlloc
  rw [if_neg hne, if_neg hne]
  cases hcm : create_matrix_alloc (malloc 0) A.rows A.cols allocator with
  | error e => rfl
  | ok r =>
    cases hm1 : malloc_or_panic (malloc 1) (A.cols * SIZEOF_SIZE_T % SIZE_MODULUS) with
    | error e => simp only [bind, Except.bind, hm1]
    | ok p1 =>
      simp only [bind, Except.bind, hm1, hcopy, hc, forwardGuarded_eq A n hr hc]
      rcases forward_prefix A n n hr hc (le_refl n) with ⟨lu, perms, h1, h2, -, h4, -⟩ | hfail
      · simp only [h1, h2.2.1, backwardGuarded_eq lu n h2 h4]
      · simp only [hfail]

/-! ## Double arithmetic -/

/-- With the identity as rounding function the rounded routine `abs` is the exact one. -/
theorem absRounded_id (A : Mat) : A.absRounded id = A.abs := rfl

/-- With the identity as rounding function the rounded routine `inverse` is the exact
one. -/
theorem inverseRounded_id (A : Mat) : inverseRounded id A = inverse A := rfl

set_option maxRecDepth 100000 in
set_option maxHeartbeats 4000000 in
/-- The rounding `roundDouble` at some values: doubles are left as they are, `1/10` and
`1/3` become the doubles `0x3FB999999999999A` and `0x3FD5555555555555`, and a value
half-way between two doubles goes to the one with the even significand. -/
theorem roundDouble_examples :
    roundDouble 0 = 0 ∧ roundDouble 1 = 1 ∧ roundDouble (-1) = -1 ∧ roundDouble 7 = 7 ∧
    roundDouble 29 = 29 ∧ roundDouble epsilon = epsilon ∧
    roundDouble (1 / 10) = 3602879701896397 / 2 ^ 55 ∧
    roundDouble (1 / 3) = 6004799503160661 / 2 ^ 54 ∧
    roundDouble (1 + 1 / 2 ^ 53) = 1 ∧
    roundDouble (1 + 3 / 2 ^ 53) = 1 + 1 / 2 ^ 51 ∧
    roundDouble (1 + 1 / 2 ^ 53 + 1 / 2 ^ 60) = 1 + 1 / 2 ^ 52 ∧
    roundDouble (2 ^ 53 + 1) = 2 ^ 53 ∧
    roundDouble (-29 / 7) = -4664442471205157 / 2 ^ 50 := by
  refine ⟨?_, ?_, ?_, ?_, ?_, ?_, ?_, ?_, ?_, ?_, ?_, ?_, ?_⟩ <;>
    norm_num [roundDouble, binade, roundHalfEven, DBL_MANT_DIG, DBL_MIN_EXPONENT, epsilon,
      abs_eq_max_neg, max_def]

/-- The determinant of a matrix with determinant `0`, two equal rows or two equal columns
is `0`. -/
theorem singular_det (A : Mat) (n : Nat)
    (hsing : (A.toMatrix n).det = 0 ∨
      (∃ p q, p < n ∧ q < n ∧ p ≠ q ∧ ∀ c, c < n → A.get p c = A.get q c) ∨
      (∃ p q, p < n ∧ q < n ∧ p ≠ q ∧ ∀ r, r < n → A.get r p = A.get r q)) :
    (A.toMatrix n).det = 0 := by
  rcases hsing with h | ⟨p, q, hp, hq, hpq, h⟩ | ⟨p, q, hp, hq, hpq, h⟩
  · exact h
  · refine Matrix.det_zero_of_row_eq (i := (⟨p, hp⟩ : Fin n)) (j := ⟨q, hq⟩)
      (fun hh => hpq (congrArg Fin.val hh)) ?_
    ext c
    exact h c c.2
  · refine Matrix.det_zero_of_column_eq (i := (⟨p, hp⟩ : Fin n)) (j := ⟨q, hq⟩)
      (fun hh => hpq (congrArg Fin.val hh)) ?_
    intro r
    exact h r r.2

/-- Over exact arithmetic `inverse` takes the non-invertible exit on an `n x n` matrix
with determinant `0`. -/
theorem inverse_det_zero (A : Mat) (n : Nat) (hr : A.rows = n) (hc : A.cols = n)
    (hdet : (A.toMatrix n).det = 0) : inverse A = .error .notInvertible := by
  rcases inverse_spec A n hr hc with ⟨res, -, -, h3⟩ | hfail
  · exfalso
    have := congrArg Matrix.det h3
    rw [Matrix.det_mul, hdet, mul_zero, Matrix.det_one] at this
    exact zero_ne_one this
  · exact hfail

/-- Over exact arithmetic `abs` returns `0` on an `n x n` matrix with determinant `0`. -/
theorem abs_det_zero (A : Mat) (n : Nat) (hr : A.rows = n) (hc : A.cols = n)
    (hdet : (A.toMatrix n).det = 0) : A.abs = .ok 0 := by
  rcases abs_cases A n hr hc with ⟨h, -⟩ | ⟨h, hne, -⟩
  · exact h
  · exact absurd hdet hne

set_option maxRecDepth 100000 in
set_option maxHeartbeats 4000000 in
/-- The spec's singular examples in double arithmetic: on `[[1,2],[2,4]]` and on the
`1 x 1` matrix `[[0]]`, `abs` returns `0` and `inverse` takes the non-invertible exit. -/
theorem singular_examples_rounded :
    (⟨[1, 2, 2, 4], 2, 2⟩ : Mat).absRounded roundDouble = .ok 0 ∧
    (⟨[0], 1, 1⟩ : Mat).absRounded roundDouble = .ok 0 ∧
    inverseRounded roundDouble ⟨[1, 2, 2, 4], 2, 2⟩ = .error .notInvertible ∧
    inverseRounded roundDouble ⟨[0], 1, 1⟩ = .error .notInvertible := by
  refine ⟨?_, ?_, ?_, ?_⟩
  · norm_num [Mat.absRounded, absLoopRounded, absStepRounded, absRowRounded,
      addScaledRowRounded, roundDouble, binade, roundHalfEven, DBL_MANT_DIG,
      DBL_MIN_EXPONENT, copy, create_matrix, pivot, pivotScan, swapColumns, forUp, forUpAux,
      Mat.at_, Mat.ref, Mat.load, Mat.assign, Mat.store, epsilon, PIVOT_CLOSE_TO_ZERO,
      PIVOT_SWAPPED, bind, Except.bind, pure, Except.pure, List.range, List.range.loop,
      List.replicate, abs_eq_max_neg, max_def]
  · norm_num [Mat.absRounded, absLoopRounded, absStepRounded, absRowRounded,
      addScaledRowRounded, roundDouble, binade, roundHalfEven, DBL_MANT_DIG,
      DBL_MIN_EXPONENT, copy, create_matrix, pivot, pivotScan, swapColumns, forUp, forUpAux,
      Mat.at_, Mat.ref, Mat.load, Mat.assign, Mat.store, epsilon, PIVOT_CLOSE_TO_ZERO,
      PIVOT_SWAPPED, bind, Except.bind, pure, Except.pure, List.range, List.range.loop,
      List.replicate, abs_eq_max_neg, max_def]
  · norm_num [inverseRounded, forwardStepRounded, forwardRowRounded, backwardStepRounded,
      backwardRowRounded, assembleRounded, addScaledRowRounded, roundDouble, binade,
      roundHalfEven, DBL_MANT_DIG, DBL_MIN_EXPONENT, unpermute, memcpy, zeroFill, copy,
      create_matrix, pivot, pivotScan, swapColumns, swapPerms, forUp, forUpAux, forDown,
      Mat.at_, Mat.ref, Mat.load, Mat.assign, Mat.store, epsilon, PIVOT_CLOSE_TO_ZERO,
      PIVOT_SWAPPED, bind, Except.bind, pure, Except.pure, List.range, List.range.loop,
      List.replicate, abs_eq_max_neg, max_def]
  · norm_num [inverseRounded, forwardStepRounded, forwardRowRounded, backwardStepRounded,
      backwardRowRounded, assembleRounded, addScaledRowRounded, roundDouble, binade,
      roundHalfEven, DBL_MANT_DIG, DBL_MIN_EXPONENT, unpermute, memcpy, zeroFill, copy,
      create_matrix, pivot, pivotScan, swapColumns, swapPerms, forUp, forUpAux, forDown,
      Mat.at_, Mat.ref, Mat.load, Mat.assign, Mat.store, epsilon, PIVOT_CLOSE_TO_ZERO,
      PIVOT_SWAPPED, bind, Except.bind, pure, Except.pure, List.range, List.range.loop,
      List.replicate, abs_eq_max_neg, max_def]

/-! ## Exchanging two columns -/

/-- C5 as amended. Over exact arithmetic, with `B` the matrix `A` after exchanging two
distinct columns, the value computed by `abs` on `B` is the negated value computed on `A`
exactly when the two runs agree on reporting a near-zero pivot, that is when the two
values are both `0` or both not `0`. -/
theorem abs_column_swap (A B : Mat) (n p q : Nat) (hrA : A.rows = n) (hcA : A.cols = n)
    (hrB : B.rows = n) (hcB : B.cols = n) (hp : p < n) (hq : q < n) (hpq : p ≠ q)
    (h : ∀ r c, r < n → c < n → B.get r c = A.get r (swapIdx p q c)) :
    ∃ d e, A.abs = .ok d ∧ B.abs = .ok e ∧ (e = -d ↔ (d = 0 ↔ e = 0)) := by
  have hdet := toMatrix_swap_det A B n p q hp hq hpq h
  rcases abs_cases A n hrA hcA with ⟨hA, -⟩ | ⟨hA, hneA, -⟩ <;>
    rcases abs_cases B n hrB hcB with ⟨hB, -⟩ | ⟨hB, hneB, -⟩
  · exact ⟨0, 0, hA, hB, by simp⟩
  · refine ⟨0, _, hA, hB, ?_⟩
    simp [hneB]
  · refine ⟨_, 0, hA, hB, ?_⟩
    simp [hneA]
  · refine ⟨_, _, hA, hB, ?_⟩
    simp [hneA, hneB, hdet]

/-- C5 as amended, at `[[4,3],[6,3]]` and `[[3,4],[3,6]]`. -/
theorem abs_column_swap_witness :
    ∃ d e, (⟨[4, 3, 6, 3], 2, 2⟩ : Mat).abs = .ok d ∧ (⟨[3, 4, 3, 6], 2, 2⟩ : Mat).abs = .ok e ∧
      (e = -d ↔ (d = 0 ↔ e = 0)) :=
  abs_column_swap ⟨[4, 3, 6, 3], 2, 2⟩ ⟨[3, 4, 3, 6], 2, 2⟩ 2 0 1 rfl rfl rfl rfl (by decide)
    (by decide) (by decide) (by
      intro r c hr hc
      interval_cases r <;> interval_cases c <;> norm_num [Mat.get, Mat.load, swapIdx])

set_option maxRecDepth 100000 in
set_option maxHeartbeats 4000000 in
/-- C5 fails as stated, in two ways. The threshold: `B` is `A = [[1,1,1],[0,1,2],[0,0,e]]`
(with `e` the machine epsilon) after exchanging columns `0` and `1`; `abs` returns `0` on
`A`, where the last pivot `-e/2` is reported near-zero, and `-e` on `B`. Rounding: `D` is
`C = [[49,-49],[1,0]]` after exchanging its two columns; in double arithmetic no pivot is
reported near-zero, `abs` returns `49 - 2^-47` on `C`, where the factor `-1/49` is
rounded, and `-49` on `D`. -/
theorem column_swap_breaks_negation :
    (∀ r c, r < 3 → c < 3 →
      (⟨[1, 1, 1, 1, 0, 2, 0, 0, epsilon], 3, 3⟩ : Mat).get r c =
        (⟨[1, 1, 1, 0, 1, 2, 0, 0, epsilon], 3, 3⟩ : Mat).get r (swapIdx 0 1 c)) ∧
    (⟨[1, 1, 1, 0, 1, 2, 0, 0, epsilon], 3, 3⟩ : Mat).abs = .ok 0 ∧
    (⟨[1, 1, 1, 1, 0, 2, 0, 0, epsilon], 3, 3⟩ : Mat).abs = .ok (-epsilon) ∧
    -epsilon ≠ -(0 : ℚ) ∧
    (∀ r c, r < 2 → c < 2 →
      (⟨[-49, 49, 0, 1], 2, 2⟩ : Mat).get r c =
        (⟨[49, -49, 1, 0], 2, 2⟩ : Mat).get r (swapIdx 0 1 c)) ∧
    absLoopRounded roundDouble ⟨[49, -49, 1, 0], 2, 2⟩ =
      .ok ⟨⟨[49, -49, 1, 1 - 1 / 2 ^ 53], 2, 2⟩, 49 - 1 / 2 ^ 47, false⟩ ∧
    absLoopRounded roundDouble ⟨[-49, 49, 0, 1], 2, 2⟩ =
      .ok ⟨⟨[-49, 49, 0, 1], 2, 2⟩, -49, false⟩ ∧
    (⟨[49, -49, 1, 0], 2, 2⟩ : Mat).absRounded roundDouble = .ok (49 - 1 / 2 ^ 47) ∧
    (⟨[-49, 49, 0, 1], 2, 2⟩ : Mat).absRounded roundDouble = .ok (-49) ∧
    (-49 : ℚ) ≠ -(49 - 1 / 2 ^ 47) := by
  have hC : absLoopRounded roundDouble ⟨[49, -49, 1, 0], 2, 2⟩ =
      .ok ⟨⟨[49, -49, 1, 1 - 1 / 2 ^ 53], 2, 2⟩, 49 - 1 / 2 ^ 47, false⟩ := by
    norm_num [absLoopRounded, absStepRounded, absRowRounded,
      addScaledRowRounded, roundDouble, binade, roundHalfEven, DBL_MANT_DIG,
      DBL_MIN_EXPONENT, copy, create_matrix, pivot, pivotScan, swapColumns, forUp, forUpAux,
      Mat.at_, Mat.ref, Mat.load, Mat.assign, Mat.store, epsilon, PIVOT_CLOSE_TO_ZERO,
      PIVOT_SWAPPED, bind, Except.bind, pure, Except.pure, List.range, List.range.loop,
      List.replicate, abs_eq_max_neg, max_def]
  have hD : absLoopRounded roundDouble ⟨[-49, 49, 0, 1], 2, 2⟩ =
      .ok ⟨⟨[-49, 49, 0, 1], 2, 2⟩, -49, false⟩ := by
    norm_num [absLoopRounded, absStepRounded, absRowRounded,
      addScaledRowRounded, roundDouble, binade, roundHalfEven, DBL_MANT_DIG,
      DBL_MIN_EXPONENT, copy, create_matrix, pivot, pivotScan, swapColumns, forUp, forUpAux,
      Mat.at_, Mat.ref, Mat.load, Mat.assign, Mat.store, epsilon, PIVOT_CLOSE_TO_ZERO,
      PIVOT_SWAPPED, bind, Except.bind, pure, Except.pure, List.range, List.range.loop,
      List.replicate, abs_eq_max_neg, max_def]
  refine ⟨?_, ?_, ?_, ?_, ?_, hC, hD, ?_, ?_, ?_⟩
  · intro r c hr hc
    interval_cases r <;> interval_cases c <;> norm_num [Mat.get, Mat.load, swapIdx]
  · norm_num [Mat.abs, absLoop, copy, create_matrix, forUp, forUpAux, absStep, pivot,
      pivotScan, Mat.at_, Mat.ref, Mat.load, Mat.store, Mat.assign, swapColumns, absRow,
      addScaledRow, epsilon, PIVOT_CLOSE_TO_ZERO, PIVOT_SWAPPED, bind, Except.bind, pure,
      Except.pure, List.range, List.range.loop, abs_eq_max_neg, max_def]
  · norm_num [Mat.abs, absLoop, copy, create_matrix, forUp, forUpAux, absStep, pivot,
      pivotScan, Mat.at_, Mat.ref, Mat.load, Mat.store, Mat.assign, swapColumns, absRow,
      addScaledRow, epsilon, PIVOT_CLOSE_TO_ZERO, PIVOT_SWAPPED, bind, Except.bind, pure,
      Except.pure, List.range, List.range.loop, abs_eq_max_neg, max_def]
  · norm_num [epsilon]
  · intro r c hr hc
    interval_cases r <;> interval_cases c <;> norm_num [Mat.get, Mat.load, swapIdx]
  · unfold Mat.absRounded
    rw [hC]
  · unfold Mat.absRounded
    rw [hD]
  · norm_num

/-! ## Error branches -/

set_option maxRecDepth 100000 in
/-- C19 fails as stated. An exit other than the non-invertible one is reached inside
`abs` and `inverse` when an allocation fails: on the `1 x 1` matrix `[[1]]`, `abs` exits
in `create_matrix` (called by `copy`) when the arena is full, and `inverse` exits there
too, or in `malloc_or_panic` when `std::malloc` fails for `perms` or, after the two
passes, for `tmp`. -/
theorem allocation_exit_reachable :
    (⟨[1], 1, 1⟩ : Mat).absAlloc (fun _ _ => some 0) (.Linear ⟨16, 16⟩) = .error .allocation ∧
    inverseAlloc (fun _ _ => some 0) (.Linear ⟨16, 16⟩) ⟨[1], 1, 1⟩ = .error .allocation ∧
    inverseAlloc (fun _ _ => none) (.Linear ⟨0, 16⟩) ⟨[1], 1, 1⟩ = .error .allocation ∧
    inverseAlloc (fun k _ => if k = 2 then none else some 0) (.Linear ⟨0, 16⟩) ⟨[1], 1, 1⟩ =
      .error .allocation ∧
    Err.allocation ≠ Err.notInvertible := by
  refine ⟨rfl, rfl, rfl, ?_, by decide⟩
  · norm_num [inverseAlloc, copyAlloc, malloc_or_panic, create_matrix_alloc,
      Allocator.allocate, LinearAllocator.allocate, SIZEOF_DOUBLE, SIZEOF_SIZE_T,
      SIZE_MODULUS, POINTER_SIZE, copy, create_matrix, forUp, forUpAux, forDown, forwardStep,
      forwardRow, backwardStep, backwardRow, assemble, unpermute, memcpy, zeroFill, pivot,
      pivotScan, Mat.at_, Mat.ref, Mat.load, Mat.store, Mat.assign, swapColumns, swapPerms,
      addScaledRow, epsilon, PIVOT_CLOSE_TO_ZERO, PIVOT_SWAPPED, bind, Except.bind, pure,
      Except.pure, List.range, List.range.loop, abs_eq_max_neg, max_def, List.replicate]

/-- C19 as amended. On an `n x n` matrix, `n ≥ 0`, the only exits reached inside `abs`
and `inverse` are the non-invertible exit of `inverse` and the exits on a failed
allocation (`create_matrix`, called by `copy`, and `malloc_or_panic`), and an allocation
exit is reached only when that allocation fails. The runs in which every `at` is checked
and every division is guarded coincide with the plain runs: no `at` is out of range and
no divisor has a magnitude below the machine epsilon. -/
theorem no_error_branch (A : Mat) (n : Nat) (hr : A.rows = n) (hc : A.cols = n)
    (malloc : Nat → Nat → Option Nat) (allocator : Allocator) :
    (A.absGuardedAlloc malloc allocator = .error .allocation ∨
      ∃ d al, A.absGuardedAlloc malloc allocator = .ok (d, al)) ∧
    (inverseGuardedAlloc malloc allocator A = .error .allocation ∨
      inverseGuardedAlloc malloc allocator A = .error .notInvertible ∨
      ∃ B al, inverseGuardedAlloc malloc allocator A = .ok (B, al)) ∧
    (A.absGuardedAlloc malloc allocator = .error .allocation →
      create_matrix_alloc (malloc 0) n n allocator = .error .allocation) ∧
    (inverseGuardedAlloc malloc allocator A = .error .allocation →
      create_matrix_alloc (malloc 0) n n allocator = .error .allocation ∨
      malloc 1 (n * SIZEOF_SIZE_T % SIZE_MODULUS) = none ∨
      malloc 2 (n * n * SIZEOF_DOUBLE % SIZE_MODULUS) = none) ∧
    A.absGuardedAlloc malloc allocator = A.absAlloc malloc allocator ∧
    inverseGuardedAlloc malloc allocator A = inverseAlloc malloc allocator A ∧
    A.absGuarded = A.abs ∧ (∃ d, A.absGuarded = .ok d) ∧
    inverseGuarded A = inverse A ∧
    ((∃ B, inverseGuarded A = .ok B) ∨ inverseGuarded A = .error .notInvertible) := by
  have habs : A.absGuarded = A.abs := by
    unfold Mat.absGuarded Mat.abs
    rw [absLoopGuarded_eq A n hr hc]
  have hinv := inverseGuarded_eq A n hr hc
  have ha := absGuardedAlloc_eq A n hr hc malloc allocator
  have hi := inverseGuardedAlloc_eq A n hr hc malloc allocator
  have hsa := absAlloc_spec A n hr hc malloc allocator
  have hsi := inverseAlloc_spec A n hr hc malloc allocator
  have hd : ∃ d, A.abs = .ok d := by
    rcases abs_cases A n hr hc with ⟨h, -⟩ | ⟨h, -, -⟩
    · exact ⟨_, h⟩
    · exact ⟨_, h⟩
  have hB : (∃ B, inverse A = .ok B) ∨ inverse A = .error .notInvertible := by
    rcases inverse_spec A n hr hc with ⟨res, h, -, -⟩ | h
    · exact Or.inl ⟨res, h⟩
    · exact Or.inr h
  obtain ⟨d, hd1⟩ := hd
  rw [hd1] at hsa
  refine ⟨?_, ?_, ?_, ?_, ha, hi, habs, ?_, hinv, ?_⟩
  · rw [ha, hsa]
    cases create_matrix_alloc (malloc 0) n n allocator with
    | error e => exact Or.inl rfl
    | ok r => exact Or.inr ⟨_, _, rfl⟩
  · rw [hi, hsi]
    cases create_matrix_alloc (malloc 0) n n allocator with
    | error e => exact Or.inl rfl
    | ok r =>
      cases malloc 1 (n * SIZEOF_SIZE_T % SIZE_MODULUS) with
      | none => exact Or.inl rfl
      | some p1 =>
        rcases hB with ⟨B, h⟩ | h
        · rw [h]
          cases malloc 2 (n * n * SIZEOF_DOUBLE % SIZE_MODULUS) with
          | none => exact Or.inl rfl
          | some p2 => exact Or.inr (Or.inr ⟨_, _, rfl⟩)
        · rw [h]
          exact Or.inr (Or.inl rfl)
  · rw [ha, hsa]
    cases hcm : create_matrix_alloc (malloc 0) n n allocator with
    | error e =>
      intro _
      rw [create_matrix_alloc_error _ _ _ _ _ hcm]
    | ok r =>
      intro h
      cases h
  · rw [hi, hsi]
    cases hcm : create_matrix_alloc (malloc 0) n n allocator with
    | error e =>
      intro _
      rw [create_matrix_alloc_error _ _ _ _ _ hcm]
      exact Or.inl rfl
    | ok r =>
      cases hm1 : malloc 1 (n * SIZEOF_SIZE_T % SIZE_MODULUS) with
      | none =>
        intro _
        exact Or.inr (Or.inl rfl)
      | some p1 =>
        rcases hB with ⟨B, h⟩ | h
        · rw [h]
          cases hm2 : malloc 2 (n * n * SIZEOF_DOUBLE % SIZE_MODULUS) with
          | none =>
            intro _
            exact Or.inr (Or.inr rfl)
          | some p2 =>
            intro h
            cases h
        · rw [h]
          intro h
          cases h
  · rw [habs]
    exact ⟨d, hd1⟩
  · rw [hinv]
    exact hB

/-- C19 as amended, at `[[1]]` with an arena of 16 bytes and `std::malloc` succeeding,
where both routines return, and at the `0 x 0` matrix with `std::malloc` failing. -/
theorem no_error_branch_witness :
    (⟨[1], 1, 1⟩ : Mat).absGuardedAlloc (fun _ _ => some 0) (.Linear ⟨0, 16⟩) =
      .ok (1, .Linear ⟨8, 16⟩) ∧
    inverseGuardedAlloc (fun _ _ => some 0) (.Linear ⟨0, 16⟩) ⟨[1], 1, 1⟩ =
      .ok (⟨[1], 1, 1⟩, .Linear ⟨8, 16⟩) ∧
    (inverseGuardedAlloc (fun _ _ => none) .Standard ⟨[], 0, 0⟩ = .error .allocation ∨
      inverseGuardedAlloc (fun _ _ => none) .Standard ⟨[], 0, 0⟩ = .error .notInvertible ∨
      ∃ B al, inverseGuardedAlloc (fun _ _ => none) .Standard ⟨[], 0, 0⟩ = .ok (B, al)) ∧
    (⟨[], 0, 0⟩ : Mat).absGuarded = (⟨[], 0, 0⟩ : Mat).abs := by
  have w1 := no_error_branch ⟨[1], 1, 1⟩ 1 rfl rfl (fun _ _ => some 0) (.Linear ⟨0, 16⟩)
  have w2 := no_error_branch ⟨[], 0, 0⟩ 0 rfl rfl (fun _ _ => none) .Standard
  have e1 : (⟨[1], 1, 1⟩ : Mat).absAlloc (fun _ _ => some 0) (.Linear ⟨0, 16⟩) =
      .ok (1, .Linear ⟨8, 16⟩) := by
    norm_num [Mat.absAlloc, copyAlloc, create_matrix_alloc,
      Allocator.allocate, LinearAllocator.allocate, SIZEOF_DOUBLE,
      SIZE_MODULUS, POINTER_SIZE, copy, create_matrix, forUp, forUpAux, absStep, absRow, pivot,
      pivotScan, Mat.at_, Mat.ref, Mat.load, Mat.store, Mat.assign, swapColumns,
      addScaledRow, epsilon, PIVOT_CLOSE_TO_ZERO, PIVOT_SWAPPED, bind, Except.bind, pure,
      Except.pure, List.range, List.range.loop, abs_eq_max_neg, max_def, List.replicate]
  have e2 : inverseAlloc (fun _ _ => some 0) (.Linear ⟨0, 16⟩) ⟨[1], 1, 1⟩ =
      .ok (⟨[1], 1, 1⟩, .Linear ⟨8, 16⟩) := by
    norm_num [inverseAlloc, copyAlloc, malloc_or_panic, create_matrix_alloc,
      Allocator.allocate, LinearAllocator.allocate, SIZEOF_DOUBLE, SIZEOF_SIZE_T,
      SIZE_MODULUS, POINTER_SIZE, copy, create_matrix, forUp, forUpAux, forDown, forwardStep,
      forwardRow, backwardStep, backwardRow, assemble, unpermute, memcpy, zeroFill, pivot,
      pivotScan, Mat.at_, Mat.ref, Mat.load, Mat.store, Mat.assign, swapColumns, swapPerms,
      addScaledRow, epsilon, PIVOT_CLOSE_TO_ZERO, PIVOT_SWAPPED, bind, Except.bind, pure,
      Except.pure, List.range, List.range.loop, abs_eq_max_neg, max_def, List.replicate]
  exact ⟨w1.2.2.2.2.1.trans e1, w1.2.2.2.2.2.1.trans e2, w2.2.1, w2.2.2.2.2.2.2.1⟩

/-! ## Rounding to the nearest double -/

theorem roundHalfEven_intCast (k : Int) : roundHalfEven (k : ℚ) = k := by
  unfold roundHalfEven
  simp
theorem roundHalfEven_neg (q : ℚ) : roundHalfEven (-q) = -roundHalfEven q := by
  have hf1 : ((⌊q⌋ : Int) : ℚ) ≤ q := Int.floor_le q
  have hf2 : q < ((⌊q⌋ : Int) : ℚ) + 1 := Int.lt_floor_add_one q
  by_cases hq : q = ((⌊q⌋ : Int) : ℚ)
  · rw [hq, ← Int.cast_neg, roundHalfEven_intCast, roundHalfEven_intCast]
  · have hlt : ((⌊q⌋ : Int) : ℚ) < q := lt_of_le_of_ne hf1 (Ne.symm hq)
    have hfl : ⌊-q⌋ = -⌊q⌋ - 1 := by
      rw [Int.floor_eq_iff]
      push_cast
      constructor <;> linarith
    unfold roundHalfEven
    simp only [hfl]
    push_cast
    generalize hg : ⌊q⌋ = f at *
    by_cases h1 : q - (f : ℚ) < 1 / 2
    · have a1 : ¬ (-q - (-(f : ℚ) - 1) < 1 / 2) := by linarith
      have a2 : (1 : ℚ) / 2 < -q - (-(f : ℚ) - 1) := by linarith
      rw [if_pos h1, if_neg a1, if_pos a2]
      ring
    · by_cases h2 : (1 : ℚ) / 2 < q - (f : ℚ)
      · have a1 : -q - (-(f : ℚ) - 1) < 1 / 2 := by linarith
        rw [if_neg h1, if_pos h2, if_pos a1]
        ring
      · have a1 : ¬ (-q - (-(f : ℚ) - 1) < 1 / 2) := by linarith
        have a2 : ¬ ((1 : ℚ) / 2 < -q - (-(f : ℚ) - 1)) := by linarith
        rw [if_neg h1, if_neg h2, if_neg a1, if_neg a2]
        by_cases h3 : f % 2 = 0
        · have a3 : ¬ ((-f - 1) % 2 = 0) := by omega
          rw [if_pos h3, if_neg a3]
          ring
        · have a3 : (-f - 1) % 2 = 0 := by omega
          rw [if_neg h3, if_pos a3]
          ring
theorem roundHalfEven_bounds (q : ℚ) :
    (roundHalfEven q : ℚ) ≤ q + 1 / 2 ∧ q - 1 / 2 ≤ (roundHalfEven q : ℚ) := by
  have hf1 : ((⌊q⌋ : Int) : ℚ) ≤ q := Int.floor_le q
  have hf2 : q < ((⌊q⌋ : Int) : ℚ) + 1 := Int.lt_floor_add_one q
  unfold roundHalfEven
  simp only
  split_ifs with h1 h2 h3
  · constructor <;> linarith
  · push_cast
    constructor <;> linarith
  · constructor <;> linarith
  · push_cast
    constructor <;> linarith
theorem roundHalfEven_le (q : ℚ) (k : Int) (h : q ≤ k) : roundHalfEven q ≤ k := by
  have hb := (roundHalfEven_bounds q).1
  have : (roundHalfEven q : ℚ) < (k : ℚ) + 1 := by linarith
  have : roundHalfEven q < k + 1 := by exact_mod_cast this
  omega
theorem le_roundHalfEven (q : ℚ) (k : Int) (h : (k : ℚ) ≤ q) : k ≤ roundHalfEven q := by
  have hb := (roundHalfEven_bounds q).2
  have : (k : ℚ) - 1 < (roundHalfEven q : ℚ) := by linarith
  have : k - 1 < roundHalfEven q := by exact_mod_cast this
  omega

/-- The search `binade` going down: from a candidate above the binade of `x` it ends in
the binade of `x` or runs out of fuel. -/
theorem binade_descent (x : ℚ) :
    ∀ (fuel : Nat) (e : Int), x < 2 ^ (e + 1) →
      e - fuel ≤ binade fuel x e ∧ binade fuel x e ≤ e ∧ x < 2 ^ (binade fuel x e + 1) ∧
        (2 ^ binade fuel x e ≤ x ∨ binade fuel x e = e - fuel) := by
  intro fuel
  induction fuel with
  | zero =>
    intro e h
    simp only [binade]
    exact ⟨by simp, le_refl _, h, Or.inr (by simp)⟩
  | succ fuel ih =>
    intro e h
    by_cases h1 : x < 2 ^ e
    · have e1 : binade (fuel + 1) x e = binade fuel x (e - 1) := by
        simp only [binade, h1, decide_True]
      rw [e1]
      have h' : x < 2 ^ (e - 1 + 1) := by simpa using h1
      obtain ⟨a1, a2, a3, a4⟩ := ih (e - 1) h'
      refine ⟨by push_cast; omega, by omega, a3, ?_⟩
      rcases a4 with a4 | a4
      · exact Or.inl a4
      · exact Or.inr (by push_cast; omega)
    · have h2 : ¬ (2 : ℚ) ^ (e + 1) ≤ x := not_le.mpr h
      have e1 : binade (fuel + 1) x e = e := by
        simp only [binade, h1, h2, decide_False]
      rw [e1]
      exact ⟨by push_cast; omega, le_refl _, h, Or.inl (not_lt.mp h1)⟩

/-- The search `binade` going up: from a candidate below the binade of `x` it ends in the
binade of `x` or runs out of fuel. -/
theorem binade_ascent (x : ℚ) :
    ∀ (fuel : Nat) (e : Int), 2 ^ e ≤ x →
      e ≤ binade fuel x e ∧ binade fuel x e ≤ e + fuel ∧ 2 ^ binade fuel x e ≤ x ∧
        (x < 2 ^ (binade fuel x e + 1) ∨ binade fuel x e = e + fuel) := by
  intro fuel
  induction fuel with
  | zero =>
    intro e h
    simp only [binade]
    exact ⟨le_refl _, by simp, h, Or.inr (by simp)⟩
  | succ fuel ih =>
    intro e h
    have h1 : ¬ x < 2 ^ e := not_lt.mpr h
    by_cases h2 : (2 : ℚ) ^ (e + 1) ≤ x
    · have e1 : binade (fuel + 1) x e = binade fuel x (e + 1) := by
        simp only [binade, h1, h2, decide_False, decide_True]
      rw [e1]
      obtain ⟨a1, a2, a3, a4⟩ := ih (e + 1) h2
      refine ⟨by omega, by push_cast; omega, a3, ?_⟩
      rcases a4 with a4 | a4
      · exact Or.inl a4
      · exact Or.inr (by push_cast; omega)
    · have e1 : binade (fuel + 1) x e = e := by
        simp only [binade, h1, h2, decide_False]
      rw [e1]
      exact ⟨le_refl _, by push_cast; omega, h, Or.inl (not_le.mp h2)⟩

/-- The exponent found for a value `x`: it lies within the fuel, `2^e ≤ x`
unless `e` is the least exponent tried, and `x < 2^(e+1)` unless it is the largest. -/
theorem binade_spec (x : ℚ) :
    -2100 ≤ binade 2100 x 0 ∧ binade 2100 x 0 ≤ 2100 ∧
    (2 ^ binade 2100 x 0 ≤ x ∨ binade 2100 x 0 = -2100) ∧
    (x < 2 ^ (binade 2100 x 0 + 1) ∨ binade 2100 x 0 = 2100) := by
  by_cases h : x < 2 ^ ((0 : Int) + 1)
  · obtain ⟨a1, a2, a3, a4⟩ := binade_descent x 2100 0 h
    refine ⟨by simpa using a1, by omega, ?_, Or.inl a3⟩
    rcases a4 with a4 | a4
    · exact Or.inl a4
    · exact Or.inr (by simpa using a4)
  · have h0 : (2 : ℚ) ^ (0 : Int) ≤ x := by
      have : (2 : ℚ) ^ ((0 : Int) + 1) ≤ x := not_lt.mp h
      norm_num at this ⊢
      linarith
    obtain ⟨a1, a2, a3, a4⟩ := binade_ascent x 2100 0 h0
    refine ⟨by omega, by simpa using a2, Or.inl a3, ?_⟩
    rcases a4 with a4 | a4
    · exact Or.inl a4
    · exact Or.inr (by simpa using a4)

/-- Zero is a double. -/
theorem roundDouble_zero : roundDouble 0 = 0 := by
  unfold roundDouble
  simp

/-- The rounding of a value other than zero: the nearest multiple of the spacing of the
doubles at its exponent. -/
theorem roundDouble_of_ne_zero (x : ℚ) (hx : x ≠ 0) :
    roundDouble x =
      (roundHalfEven (x / 2 ^ (max (binade 2100 |x| 0) (-1022) - 52)) : ℚ) *
        2 ^ (max (binade 2100 |x| 0) (-1022) - 52) := by
  unfold roundDouble
  simp only [hx, decide_False, DBL_MIN_EXPONENT, DBL_MANT_DIG]
  norm_num

/-- Rounding to the nearest double commutes with negation. -/
theorem roundDouble_neg (x : ℚ) : roundDouble (-x) = -roundDouble x := by
  by_cases hx : x = 0
  · subst hx
    simp [roundDouble_zero]
  · have hnx : -x ≠ 0 := neg_ne_zero.mpr hx
    rw [roundDouble_of_ne_zero x hx, roundDouble_of_ne_zero (-x) hnx, abs_neg, neg_div,
      roundHalfEven_neg]
    push_cast
    ring


/-- A multiple of the spacing at its own exponent is left as it is. -/
theorem roundDouble_of_multiple (z : ℚ) (m : Int)
    (h : z / 2 ^ (max (binade 2100 |z| 0) (-1022) - 52) = m) : roundDouble z = z := by
  by_cases hz : z = 0
  · subst hz
    exact roundDouble_zero
  · rw [roundDouble_of_ne_zero z hz, h, roundHalfEven_intCast, ← h]
    have hu : (2 : ℚ) ^ (max (binade 2100 |z| 0) (-1022) - 52) ≠ 0 :=
      zpow_ne_zero _ two_ne_zero
    field_simp

/-- Rounding a positive value to the nearest double gives a double. -/
theorem roundDouble_idem_pos (y : ℚ) (hy : 0 < y) :
    roundDouble (roundDouble y) = roundDouble y := by
  have hy0 : y ≠ 0 := ne_of_gt hy
  have h2 : (1 : ℚ) < 2 := by norm_num
  rw [roundDouble_of_ne_zero y hy0, abs_of_pos hy]
  obtain ⟨b1, b2, b3, b4⟩ := binade_spec y
  generalize hr : binade 2100 y 0 = r at *
  generalize he : max r (-1022) = e at *
  have he1 : -1022 ≤ e := by rw [← he]; exact le_max_right _ _
  have he2 : r ≤ e := by rw [← he]; exact le_max_left _ _
  have hu : (0 : ℚ) < 2 ^ (e - 52) := zpow_pos (by norm_num) _
  generalize hn : roundHalfEven (y / 2 ^ (e - 52)) = n at *
  have hq : 0 < y / 2 ^ (e - 52) := div_pos hy hu
  have hn0 : 0 ≤ n := by
    rw [← hn]
    exact le_roundHalfEven _ 0 (by exact_mod_cast le_of_lt hq)
  by_cases hnz : n = 0
  · subst hnz
    simp [roundDouble_zero]
  have hn1 : 1 ≤ n := by omega
  have hz : (0 : ℚ) < (n : ℚ) * 2 ^ (e - 52) := by
    have : (0 : ℚ) < (n : ℚ) := by exact_mod_cast hn1
    positivity
  obtain ⟨c1, c2, c3, c4⟩ := binade_spec ((n : ℚ) * 2 ^ (e - 52))
  have hclaim : max (binade 2100 |(n : ℚ) * 2 ^ (e - 52)| 0) (-1022) ≤ e ∨
      (max (binade 2100 |(n : ℚ) * 2 ^ (e - 52)| 0) (-1022) = e + 1 ∧
        (n : ℚ) * 2 ^ (e - 52) = 2 ^ (e + 1)) := by
    rw [abs_of_pos hz]
    generalize hr' : binade 2100 ((n : ℚ) * 2 ^ (e - 52)) 0 = r' at *
    by_cases hle : max r' (-1022) ≤ e
    · exact Or.inl hle
    · right
      have hgt : e < max r' (-1022) := not_le.mp hle
      have hr'e : max r' (-1022) = r' := by
        rcases le_total r' (-1022) with h | h
        · rw [max_eq_right h] at hgt
          omega
        · exact max_eq_left h
      rw [hr'e] at hgt ⊢
      have hlow : (2 : ℚ) ^ r' ≤ (n : ℚ) * 2 ^ (e - 52) := by
        rcases c3 with c3 | c3
        · exact c3
        · omega
      have hyup : y < 2 ^ (r + 1) := by
        rcases b4 with b4 | b4
        · exact b4
        · omega
      have hyup2 : y < 2 ^ (e + 1) :=
        lt_of_lt_of_le hyup ((zpow_le_zpow_iff_right₀ h2).mpr (by omega))
      have hq53 : y / 2 ^ (e - 52) ≤ ((2 ^ 53 : Int) : ℚ) := by
        rw [div_le_iff₀ hu]
        have : ((2 ^ 53 : Int) : ℚ) * 2 ^ (e - 52) = 2 ^ (e + 1) := by
          have e1 : e + 1 = 53 + (e - 52) := by ring
          rw [e1, zpow_add₀ (two_ne_zero)]
          norm_num
        rw [this]
        exact le_of_lt hyup2
      have hn53 : n ≤ 2 ^ 53 := by
        rw [← hn]
        exact roundHalfEven_le _ _ hq53
      have hzup : (n : ℚ) * 2 ^ (e - 52) ≤ 2 ^ (e + 1) := by
        have e1 : e + 1 = 53 + (e - 52) := by ring
        rw [e1, zpow_add₀ (two_ne_zero)]
        have : (n : ℚ) ≤ 2 ^ (53 : Int) := by
          have : (n : ℚ) ≤ ((2 ^ 53 : Int) : ℚ) := by exact_mod_cast hn53
          norm_num at this ⊢
          exact this
        exact mul_le_mul_of_nonneg_right this (le_of_lt hu)
      have hr'le : r' ≤ e + 1 := (zpow_le_zpow_iff_right₀ h2).mp (le_trans hlow hzup)
      have hr'eq : r' = e + 1 := by omega
      refine ⟨hr'eq, le_antisymm hzup ?_⟩
      rw [← hr'eq]
      exact hlow
  rcases hclaim with hcl | ⟨hcl1, hcl2⟩
  · generalize he' : max (binade 2100 |(n : ℚ) * 2 ^ (e - 52)| 0) (-1022) = e' at *
    refine roundDouble_of_multiple _ (n * 2 ^ (e - e').toNat) ?_
    rw [he']
    have hk : ((e - e').toNat : Int) = e - e' := Int.toNat_of_nonneg (by omega)
    have e1 : e - 52 = (e - e') + (e' - 52) := by ring
    have hu' : (2 : ℚ) ^ (e' - 52) ≠ 0 := zpow_ne_zero _ two_ne_zero
    have hpow : (2 : ℚ) ^ (e - e') = (2 : ℚ) ^ (e - e').toNat := by
      conv_lhs => rw [← hk]
      exact zpow_natCast 2 _
    rw [e1, zpow_add₀ (two_ne_zero), ← mul_assoc, mul_div_assoc, div_self hu', mul_one, hpow]
    push_cast
    rfl
  · refine roundDouble_of_multiple _ (2 ^ 52) ?_
    rw [hcl1, hcl2]
    have e1 : e + 1 = 52 + (e + 1 - 52) := by ring
    have hu' : (2 : ℚ) ^ (e + 1 - 52) ≠ 0 := zpow_ne_zero _ two_ne_zero
    nth_rewrite 1 [e1]
    rw [zpow_add₀ (two_ne_zero), mul_div_assoc, div_self hu', mul_one]
    norm_num

/-- Rounding to the nearest double gives a double: rounding it again changes nothing. -/
theorem roundDouble_idem (y : ℚ) : roundDouble (roundDouble y) = roundDouble y := by
  rcases lt_trichotomy y 0 with h | h | h
  · have hp := roundDouble_idem_pos (-y) (by linarith)
    rw [roundDouble_neg, roundDouble_neg, neg_inj] at hp
    exact hp
  · subst h
    rw [roundDouble_zero, roundDouble_zero]
  · exact roundDouble_idem_pos y h

/-- The negation of a double is a double. -/
theorem roundDouble_neg_round (y : ℚ) : roundDouble (-roundDouble y) = -roundDouble y := by
  rw [roundDouble_neg, roundDouble_idem]

/-- The rounded value is the nearest multiple of the spacing: it differs from the value
by at most half the spacing `2^(e - 52)` at the exponent `e` of the value. -/
theorem roundDouble_close (x : ℚ) :
    |roundDouble x - x| ≤ 2 ^ (max (binade 2100 |x| 0) (-1022) - 52) / 2 := by
  by_cases hx : x = 0
  · subst hx
    rw [roundDouble_zero]
    simp only [sub_zero, abs_zero]
    positivity
  · rw [roundDouble_of_ne_zero x hx]
    generalize max (binade 2100 |x| 0) (-1022) - 52 = k
    have hu : (0 : ℚ) < 2 ^ k := zpow_pos (by norm_num) _
    obtain ⟨b1, b2⟩ := roundHalfEven_bounds (x / 2 ^ k)
    have e1 : (roundHalfEven (x / 2 ^ k) : ℚ) * 2 ^ k - x =
        ((roundHalfEven (x / 2 ^ k) : ℚ) - x / 2 ^ k) * 2 ^ k := by
      field_simp
    rw [e1, abs_mul, abs_of_pos hu]
    have e2 : |(roundHalfEven (x / 2 ^ k) : ℚ) - x / 2 ^ k| ≤ 1 / 2 := by
      rw [abs_le]
      constructor <;> linarith
    calc |(roundHalfEven (x / 2 ^ k) : ℚ) - x / 2 ^ k| * 2 ^ k ≤ 1 / 2 * 2 ^ k :=
          mul_le_mul_of_nonneg_right e2 (le_of_lt hu)
      _ = 2 ^ k / 2 := by ring

/-- The exponent found for a value in the range of the doubles is its binade. -/
theorem binade_eq (x : ℚ) (e : Int) (h1 : 2 ^ e ≤ x) (h2 : x < 2 ^ (e + 1))
    (h3 : -2100 < e) (h4 : e < 2100) : binade 2100 x 0 = e := by
  have h : (1 : ℚ) < 2 := by norm_num
  obtain ⟨b1, b2, b3, b4⟩ := binade_spec x
  generalize binade 2100 x 0 = r at *
  have hle : r ≤ e := by
    rcases b3 with b3 | b3
    · have := lt_of_le_of_lt b3 h2
      have := (zpow_lt_zpow_iff_right₀ h).mp this
      omega
    · omega
  have hge : e ≤ r := by
    rcases b4 with b4 | b4
    · have := lt_of_le_of_lt h1 b4
      have := (zpow_lt_zpow_iff_right₀ h).mp this
      omega
    · omega
  omega

/-! ## The elimination with rounded arithmetic -/

/-- The row update loop with rounded arithmetic: row `j` receives `factor` times row `i`
on the columns in `[lo, hi)`. -/
theorem addScaledRowRounded_spec (rnd : ℚ → ℚ) (m : Mat) (n j i lo hi : Nat) (factor : ℚ)
    (hm : m.Square n)
    (hj : j < n) (hi1 : i < n) (hji : j ≠ i) (hle : lo ≤ hi) (hhi : hi ≤ n) :
    ∃ t, addScaledRowRounded rnd m j i factor lo hi = .ok t ∧ t.Square n ∧
      ∀ r c, r < n → c < n →
        t.get r c = if r = j ∧ lo ≤ c ∧ c < hi then rnd (m.get r c + rnd (factor * m.get i c))
          else m.get r c := by
  obtain ⟨t, ht, h1, h2⟩ := forUp_inv
    (b := fun k (m : Mat) => do
      let y ← m.at_ i k
      let x ← m.at_ j k
      m.assign j k (rnd (x + rnd (factor * y))))
    (fun k (t : Mat) => t.Square n ∧
      ∀ r c, r < n → c < n →
        t.get r c = if r = j ∧ lo ≤ c ∧ c < k then rnd (m.get r c + rnd (factor * m.get i c))
          else m.get r c)
    (l := lo) (h := hi) (s := m) hle
    ⟨hm, fun r c _ _ => by
      have : ¬ (r = j ∧ lo ≤ c ∧ c < lo) := by omega
      rw [if_neg this]⟩
    (by
      intro k t hk hk2 ⟨h1, h2⟩
      obtain ⟨tr, tc, tl⟩ := h1
      have hsq : t.Square n := ⟨tr, tc, tl⟩
      have e1 : t.at_ i k = .ok (t.get i k) := Mat.at_ok (by omega) (by omega)
      have e2 : t.at_ j k = .ok (t.get j k) := Mat.at_ok (by omega) (by omega)
      have e3 : t.assign j k (rnd (t.get j k + rnd (factor * t.get i k))) =
          .ok (t.put j k (rnd (t.get j k + rnd (factor * t.get i k)))) :=
        Mat.assign_ok _ (by omega) (by omega)
      refine ⟨t.put j k (rnd (t.get j k + rnd (factor * t.get i k))),
        by simp only [e1, e2, e3, bind, Except.bind], Mat.put_square hsq _ _ _, ?_⟩
      intro r c hr hc
      rw [Mat.get_put hsq.wf _ (by omega) (by omega) (by omega), h2 r c hr hc,
        h2 j k hj (by omega), h2 i k hi1 (by omega)]
      have hij : ¬ (i = j ∧ lo ≤ k ∧ k < k) := by omega
      have hjk : ¬ (j = j ∧ lo ≤ k ∧ k < k) := by omega
      rw [if_neg hij, if_neg hjk]
      by_cases hrj : r = j
      · by_cases hck : c = k
        · subst hrj; subst hck
          have : r = r ∧ lo ≤ c ∧ c < c + 1 := by omega
          simp [this]
        · have : (r = j ∧ lo ≤ c ∧ c < k + 1) ↔ (r = j ∧ lo ≤ c ∧ c < k) := by omega
          simp only [this, hck, and_false, if_false]
      · have a1 : ¬ (r = j ∧ c = k) := by omega
        have a2 : ¬ (r = j ∧ lo ≤ c ∧ c < k + 1) := by omega
        have a3 : ¬ (r = j ∧ lo ≤ c ∧ c < k) := by omega
        rw [if_neg a1, if_neg a2, if_neg a3])
  exact ⟨t, ht, h1, h2⟩

/-- The elimination of one row in `abs` with rounded arithmetic. -/
theorem absRowRounded_spec (rnd : ℚ → ℚ) (m : Mat) (n i j : Nat) (hm : m.Square n) (hi : i < n)
    (hj : j < n)
    (hij : i < j) :
    ∃ t, absRowRounded rnd i j m = .ok t ∧ t.Square n ∧
      ∀ r c, r < n → c < n →
        t.get r c = if r = j ∧ i < c then
          rnd (m.get r c + rnd (rnd (-(m.get j i) / m.get i i) * m.get i c))
          else m.get r c := by
  have e1 : m.at_ j i = .ok (m.get j i) := Mat.at_ok (by rw [hm.1]; omega) (by rw [hm.2.1]; omega)
  have e2 : m.at_ i i = .ok (m.get i i) := Mat.at_ok (by rw [hm.1]; omega) (by rw [hm.2.1]; omega)
  obtain ⟨t, ht, h1, h2⟩ := addScaledRowRounded_spec rnd m n j i (i + 1) n
    (rnd (-(m.get j i) / m.get i i)) hm hj hi (by omega) (by omega) (le_refl _)
  refine ⟨t, ?_, h1, ?_⟩
  · unfold absRowRounded
    simp only [e1, e2, bind, Except.bind, hm.2.1]
    exact ht
  · intro r c hr hc
    rw [h2 r c hr hc]
    have : (r = j ∧ i + 1 ≤ c ∧ c < n) ↔ (r = j ∧ i < c) := by omega
    simp only [this]

/-- The elimination loop of `abs` at column `i` with rounded arithmetic: every row below
`i` receives its multiple of row `i` on the columns after `i`. -/
theorem absRowsRounded_spec (rnd : ℚ → ℚ) (m : Mat) (n i : Nat) (hm : m.Square n) (hi : i < n) :
    ∃ t, forUp (i + 1) m.rows (absRowRounded rnd i) m = .ok t ∧ t.Square n ∧
      ∀ r c, r < n → c < n →
        t.get r c = if i < r ∧ i < c then
          rnd (m.get r c + rnd (rnd (-(m.get r i) / m.get i i) * m.get i c))
          else m.get r c := by
  obtain ⟨t, ht, h1, h2⟩ := forUp_inv (b := absRowRounded rnd i)
    (fun k (t : Mat) => t.Square n ∧
      ∀ r c, r < n → c < n →
        t.get r c = if i < r ∧ r < k ∧ i < c then
          rnd (m.get r c + rnd (rnd (-(m.get r i) / m.get i i) * m.get i c)) else m.get r c)
    (l := i + 1) (h := m.rows) (s := m) (by rw [hm.1]; omega)
    ⟨hm, fun r c _ _ => by
      have : ¬ (i < r ∧ r < i + 1 ∧ i < c) := by omega
      rw [if_neg this]⟩
    (by
      intro k t hk hk2 ⟨h1, h2⟩
      rw [hm.1] at hk2
      obtain ⟨u, hu, g1, g2⟩ := absRowRounded_spec rnd t n i k h1 hi hk2 (by omega)
      refine ⟨u, hu, g1, ?_⟩
      intro r c hr hc
      rw [g2 r c hr hc, h2 r c hr hc, h2 k i hk2 hi, h2 i i hi hi, h2 i c hi hc]
      have a1 : ¬ (i < k ∧ k < k ∧ i < i) := by omega
      have a2 : ¬ (i < i ∧ i < k ∧ i < i) := by omega
      have a3 : ¬ (i < i ∧ i < k ∧ i < c) := by omega
      rw [if_neg a1, if_neg a2, if_neg a3]
      by_cases hrk : r = k
      · subst hrk
        by_cases hic : i < c
        · have b1 : r = r ∧ i < c := ⟨rfl, hic⟩
          have b2 : ¬ (i < r ∧ r < r ∧ i < c) := by omega
          have b3 : i < r ∧ r < r + 1 ∧ i < c := by omega
          rw [if_pos b1, if_neg b2, if_pos b3]
        · have b1 : ¬ (r = r ∧ i < c) := by omega
          have b2 : ¬ (i < r ∧ r < r ∧ i < c) := by omega
          have b3 : ¬ (i < r ∧ r < r + 1 ∧ i < c) := by omega
          rw [if_neg b1, if_neg b2, if_neg b3]
      · have b1 : ¬ (r = k ∧ i < c) := by omega
        have b2 : (i < r ∧ r < k + 1 ∧ i < c) ↔ (i < r ∧ r < k ∧ i < c) := by omega
        rw [if_neg b1]
        simp only [b2])
  refine ⟨t, ht, h1, ?_⟩
  intro r c hr hc
  rw [h2 r c hr hc]
  have : (i < r ∧ r < m.rows ∧ i < c) ↔ (i < r ∧ i < c) := by rw [hm.1]; omega
  simp only [this]

/-- One iteration of the main loop of `abs` with rounded arithmetic, on a state that has
not stopped. -/
theorem absStepRounded_spec (rnd : ℚ → ℚ) (s : AbsState) (n i : Nat) (hs : s.upper.Square n)
    (hi : i < n)
    (hns : s.stopped = false) :
    ∃ bv bc t u, i ≤ bc ∧ bc < n ∧ bv = |t.get i i| ∧ t.Square n ∧ u.Square n ∧
      (∀ r c, r < n → c < n → t.get r c = s.upper.get r (swapIdx i bc c)) ∧
      (∀ r c, r < n → c < n →
        u.get r c = if i < r ∧ i < c then
          rnd (t.get r c + rnd (rnd (-(t.get r i) / t.get i i) * t.get i c))
          else t.get r c) ∧
      absStepRounded rnd i s = .ok (if bv < epsilon then { upper := t, det := 0, stopped := true }
        else { upper := u, det := rnd ((if bc = i then s.det else -s.det) * t.get i i),
               stopped := false }) := by
  obtain ⟨bv, bc, flags, t, -, hp, h1, h2, h3, -, -, h6, h7, h8, h9⟩ :=
    pivot_spec s.upper n i none hs hi
  obtain ⟨u, hu, g1, g2⟩ := absRowsRounded_spec rnd t n i h6 hi
  have hbv : bv = |t.get i i| := by
    rw [h3, h7 i i hi hi]
    unfold swapIdx; simp
  refine ⟨bv, bc, t, u, h1, h2, hbv, h6, g1, h7, g2, ?_⟩
  have e1 : t.at_ i i = .ok (t.get i i) := Mat.at_ok (by rw [h6.1]; exact hi)
    (by rw [h6.2.1]; exact hi)
  unfold absStepRounded
  simp only [hns, Bool.false_eq_true, if_false, hp, bind, Except.bind]
  by_cases hz : bv < epsilon
  · have : flags &&& PIVOT_CLOSE_TO_ZERO ≠ 0 := h8.mpr hz
    rw [if_pos this, if_pos hz]
    rfl
  · have hf : ¬ (flags &&& PIVOT_CLOSE_TO_ZERO ≠ 0) := fun h => hz (h8.mp h)
    rw [if_neg hf, if_neg hz]
    simp only [e1, hu, pure, Except.pure]
    by_cases hb : bc = i
    · have : ¬ (flags &&& PIVOT_SWAPPED ≠ 0) := fun h => (h9.mp h) hb
      rw [if_neg this, if_pos hb]
    · have : flags &&& PIVOT_SWAPPED ≠ 0 := h9.mpr hb
      rw [if_pos this, if_neg hb]

/-- The elimination of one row in the forward pass of `inverse` with rounded
arithmetic. -/
theorem forwardRowRounded_spec (rnd : ℚ → ℚ) (m : Mat) (n i j : Nat) (hm : m.Square n)
    (hi : i < n) (hj : j < n)
    (hij : i < j) :
    ∃ t, forwardRowRounded rnd i j m = .ok t ∧ t.Square n ∧
      ∀ r c, r < n → c < n →
        t.get r c = if r = j then
            (if c = i then rnd (-(m.get j i) / m.get i i)
              else rnd (m.get r c + rnd (rnd (-(m.get j i) / m.get i i) * m.get i c)))
          else m.get r c := by
  have e1 : m.at_ j i = .ok (m.get j i) := Mat.at_ok (by rw [hm.1]; omega) (by rw [hm.2.1]; omega)
  have e2 : m.at_ i i = .ok (m.get i i) := Mat.at_ok (by rw [hm.1]; omega) (by rw [hm.2.1]; omega)
  have e3 : m.assign j i (rnd (-(m.get j i) / m.get i i)) =
      .ok (m.put j i (rnd (-(m.get j i) / m.get i i))) :=
    Mat.assign_ok _ (by rw [hm.1]; omega) (by rw [hm.2.1]; omega)
  have hsq1 := Mat.put_square hm j i (rnd (-(m.get j i) / m.get i i))
  obtain ⟨t2, ht2, hsq2, g2⟩ := addScaledRowRounded_spec rnd _ n j i (i + 1) n
    (rnd (-(m.get j i) / m.get i i)) hsq1 hj hi (by omega) (by omega) (le_refl _)
  obtain ⟨t3, ht3, hsq3, g3⟩ := addScaledRowRounded_spec rnd t2 n j i 0 i
    (rnd (-(m.get j i) / m.get i i)) hsq2 hj hi (by omega) (by omega) (by omega)
  refine ⟨t3, ?_, hsq3, ?_⟩
  · unfold forwardRowRounded
    simp only [e1, e2, e3, bind, Except.bind, Mat.put_cols, hm.2.1, ht2]
    exact ht3
  · intro r c hr hc
    have hp : ∀ r c, r < n → c < n → (m.put j i (rnd (-(m.get j i) / m.get i i))).get r c =
        if r = j ∧ c = i then rnd (-(m.get j i) / m.get i i) else m.get r c := by
      intro r c _ hc
      exact Mat.get_put hm.wf _ (by rw [hm.1]; omega) (by rw [hm.2.1]; omega)
        (by rw [hm.2.1]; omega)
    rw [g3 r c hr hc, g2 r c hr hc, g2 i c hi hc, hp r c hr hc, hp i c hi hc]
    by_cases hrj : r = j
    · subst hrj
      by_cases hci : c = i
      · subst hci; split_ifs <;> first | rfl | omega
      · split_ifs <;> first | rfl | omega
    · split_ifs <;> first | rfl | omega

/-- The elimination loop of the forward pass of `inverse` at column `i` with rounded
arithmetic. -/
theorem forwardRowsRounded_spec (rnd : ℚ → ℚ) (m : Mat) (n i : Nat) (hm : m.Square n) (hi : i < n) :
    ∃ t, forUp (i + 1) m.rows (forwardRowRounded rnd i) m = .ok t ∧ t.Square n ∧
      ∀ r c, r < n → c < n →
        t.get r c = if i < r then
            (if c = i then rnd (-(m.get r i) / m.get i i)
              else rnd (m.get r c + rnd (rnd (-(m.get r i) / m.get i i) * m.get i c)))
          else m.get r c := by
  obtain ⟨t, ht, h1, h2⟩ := forUp_inv (b := forwardRowRounded rnd i)
    (fun k (t : Mat) => t.Square n ∧
      ∀ r c, r < n → c < n →
        t.get r c = if i < r ∧ r < k then
            (if c = i then rnd (-(m.get r i) / m.get i i)
              else rnd (m.get r c + rnd (rnd (-(m.get r i) / m.get i i) * m.get i c)))
          else m.get r c)
    (l := i + 1) (h := m.rows) (s := m) (by rw [hm.1]; omega)
    ⟨hm, fun r c _ _ => by
      have : ¬ (i < r ∧ r < i + 1) := by omega
      rw [if_neg this]⟩
    (by
      intro k t hk hk2 ⟨h1, h2⟩
      rw [hm.1] at hk2
      obtain ⟨u, hu, g1, g2⟩ := forwardRowRounded_spec rnd t n i k h1 hi hk2 (by omega)
      refine ⟨u, hu, g1, ?_⟩
      intro r c hr hc
      rw [g2 r c hr hc, h2 r c hr hc, h2 k i hk2 hi, h2 i i hi hi, h2 i c hi hc]
      by_cases hrk : r = k
      · subst hrk; split_ifs <;> first | rfl | omega
      · split_ifs <;> first | rfl | omega)
  refine ⟨t, ht, h1, ?_⟩
  intro r c hr hc
  rw [h2 r c hr hc]
  have : (i < r ∧ r < m.rows) ↔ i < r := by rw [hm.1]; omega
  simp only [this]

/-- One iteration of the forward pass of `inverse` with rounded arithmetic. -/
theorem forwardStepRounded_spec (rnd : ℚ → ℚ) (lu : Mat) (perms : List Nat) (n i : Nat)
    (hs : lu.Square n)
    (hi : i < n) :
    ∃ (bv : ℚ) (bc : Nat) (t u : Mat), i ≤ bc ∧ bc < n ∧ bv = |t.get i i| ∧ t.Square n ∧
      u.Square n ∧
      (∀ r c, r < n → c < n → t.get r c = lu.get r (swapIdx i bc c)) ∧
      (∀ r c, r < n → c < n →
        u.get r c = if i < r then
            (if c = i then rnd (-(t.get r i) / t.get i i)
              else rnd (t.get r c + rnd (rnd (-(t.get r i) / t.get i i) * t.get i c)))
          else t.get r c) ∧
      forwardStepRounded rnd i (lu, perms) = (if bv < epsilon then .error .notInvertible
        else .ok (u, if bc = i then perms else swapPerms perms i bc)) := by
  obtain ⟨bv, bc, flags, t, -, hp, h1, h2, h3, -, -, h6, h7, h8, -⟩ :=
    pivot_spec lu n i (some perms) hs hi
  obtain ⟨u, hu, g1, g2⟩ := forwardRowsRounded_spec rnd t n i h6 hi
  have hbv : bv = |t.get i i| := by
    rw [h3, h7 i i hi hi]
    unfold swapIdx; simp
  refine ⟨bv, bc, t, u, h1, h2, hbv, h6, g1, h7, g2, ?_⟩
  unfold forwardStepRounded
  simp only [hp, bind, Except.bind]
  by_cases hz : bv < epsilon
  · have : flags &&& PIVOT_CLOSE_TO_ZERO ≠ 0 := h8.mpr hz
    rw [if_pos this, if_pos hz]
  · have hf : ¬ (flags &&& PIVOT_CLOSE_TO_ZERO ≠ 0) := fun h => hz (h8.mp h)
    rw [if_neg hf, if_neg hz]
    simp only [hu, pure, Except.pure]
    by_cases hb : bc = i
    · simp only [if_pos hb, Option.getD_some]
    · simp only [if_neg hb, Option.map_some', Option.getD_some]

/-! ## Two equal rows in rounded arithmetic -/

/-- One elimination step keeps the invariant `RowsInv`: `t` is the matrix `s` after the
column exchange of `pivot`, whose pivot is not near zero, and `u` the matrix after the
rows below `i` have received their multiple of row `i` on the columns after `i`. -/
theorem rowsInv_step (rnd : ℚ → ℚ) (h0 : rnd 0 = 0) (h1 : rnd (-1) = -1)
    (s t u : Mat) (n p q i bc : Nat) (hpq : p < q) (hq : q < n) (hi : i < n) (hb1 : i ≤ bc)
    (hb2 : bc < n)
    (ht : ∀ r c, r < n → c < n → t.get r c = s.get r (swapIdx i bc c))
    (heps : epsilon ≤ |t.get i i|)
    (hE : ∀ r c, r < n → c < n → i < r → i < c →
      u.get r c = rnd (t.get r c + rnd (rnd (-(t.get r i) / t.get i i) * t.get i c)))
    (hEq : i < p → (∀ c, c < n → t.get p c = t.get q c) → ∀ c, c < n → u.get p c = u.get q c)
    (hN : (∀ r c, r < n → c < n → rnd (-(t.get r c)) = -(t.get r c)) →
      ∀ r c, r < n → c < n → rnd (-(u.get r c)) = -(u.get r c))
    (hinv : s.RowsInv rnd n p q i) : u.RowsInv rnd n p q (i + 1) := by
  have hsw : ∀ c, c < n → swapIdx i bc c < n := fun c hc => swapIdx_lt hi hb2 hc
  have hd : t.get i i ≠ 0 := by
    intro h
    rw [h, abs_zero] at heps
    exact absurd epsilon_pos (not_lt.mpr heps)
  have hteq : i ≤ p → ∀ c, c < n → t.get p c = t.get q c := by
    intro hip c hc
    rw [ht p c (by omega) hc, ht q c hq hc]
    exact (hinv.1 hip).1 _ (hsw c hc)
  have htN : i ≤ p → ∀ r c, r < n → c < n → rnd (-(t.get r c)) = -(t.get r c) := by
    intro hip r c hr hc
    rw [ht r c hr hc]
    exact (hinv.1 hip).2 r _ hr (hsw c hc)
  have hge : ∀ c, i ≤ c → i ≤ swapIdx i bc c := by
    intro c hc
    unfold swapIdx
    split_ifs <;> omega
  constructor
  · intro hip
    exact ⟨hEq (by omega) (hteq (by omega)), hN (htN (by omega))⟩
  · intro hpi
    by_cases hip : i ≤ p
    · have hip2 : i = p := by omega
      subst hip2
      refine ⟨by omega, ?_⟩
      intro c hc1 hc2
      rw [hE q c hq hc2 hpq (by omega), ← hteq (le_refl _) c hc2, ← hteq (le_refl _) i hi,
        neg_div, div_self hd, h1, neg_one_mul, htN (le_refl _) i c hi hc2, add_neg_cancel, h0]
    · have hpi2 : p < i := by omega
      obtain ⟨hiq, hz⟩ := hinv.2 hpi2
      have htz : ∀ c, i ≤ c → c < n → t.get q c = 0 := by
        intro c hc1 hc2
        rw [ht q c hq hc2]
        exact hz _ (hge c hc1) (hsw c hc2)
      have hne : i ≠ q := by
        intro h
        subst h
        exact hd (htz i (le_refl _) hi)
      refine ⟨by omega, ?_⟩
      intro c hc1 hc2
      rw [hE q c hq hc2 (by omega) (by omega), htz c (by omega) hc2, htz i (le_refl _) hi,
        neg_zero, zero_div, h0, zero_mul, h0, add_zero, h0]

/-- The main loop of `abs` with rounded arithmetic on a matrix with two equal rows ends
with the determinant `0`. -/
theorem absLoopRounded_equal_rows (rnd : ℚ → ℚ) (h0 : rnd 0 = 0) (h1 : rnd (-1) = -1)
    (h2 : ∀ y, rnd (-(rnd y)) = -(rnd y)) (A : Mat) (n p q : Nat) (hr : A.rows = n)
    (hc : A.cols = n) (hpq : p < q) (hq : q < n)
    (hA : ∀ r c, r < n → c < n → rnd (-(A.get r c)) = -(A.get r c))
    (heq : ∀ c, c < n → A.get p c = A.get q c) :
    ∃ s, absLoopRounded rnd A = .ok s ∧ s.det = 0 := by
  have hne : ¬ A.rows ≠ A.cols := by rw [hr, hc]; simp
  obtain ⟨hcs, hcg⟩ := copy_spec A n hr hc
  unfold absLoopRounded
  rw [if_neg hne]
  simp only [hcs.2.1]
  obtain ⟨s, hs, g1, g2, g3⟩ := forUp_inv (b := absStepRounded rnd)
    (fun i (s : AbsState) => s.upper.Square n ∧ (s.stopped = true → s.det = 0) ∧
      (s.stopped = false → s.upper.RowsInv rnd n p q i))
    (l := 0) (h := n) (s := { upper := copy A, det := 1, stopped := false }) (Nat.zero_le _)
    ⟨hcs, by simp, fun _ => ⟨fun _ => ⟨fun c hc1 => by
        rw [hcg p c (by omega) hc1, hcg q c hq hc1]
        exact heq c hc1,
      fun r c hr1 hc1 => by
        rw [hcg r c hr1 hc1]
        exact hA r c hr1 hc1⟩, fun h => absurd h (by omega)⟩⟩
    (by
      intro i s _ hi ⟨k1, k2, k3⟩
      cases hst : s.stopped with
      | true =>
        refine ⟨s, ?_, k1, k2, fun h => ?_⟩
        · unfold absStepRounded
          rw [hst]
          rfl
        · rw [hst] at h
          cases h
      | false =>
        obtain ⟨bv, bc, t, u, b1, b2, b3, b4, b5, b6, b7, b8⟩ :=
          absStepRounded_spec rnd s n i k1 hi hst
        rw [b8]
        by_cases hz : bv < epsilon
        · rw [if_pos hz]
          exact ⟨_, rfl, b4, fun _ => rfl, fun h => absurd h (by simp)⟩
        · rw [if_neg hz]
          refine ⟨_, rfl, b5, fun h => absurd h (by simp), fun _ => ?_⟩
          refine rowsInv_step rnd h0 h1 s.upper t u n p q i bc hpq hq hi b1 b2 b6
            (by rw [← b3]; exact not_lt.mp hz) ?_ ?_ ?_ (k3 hst)
          · intro r c hr1 hc1 hir hic
            rw [b7 r c hr1 hc1, if_pos ⟨hir, hic⟩]
          · intro hip hte c hc1
            rw [b7 p c (by omega) hc1, b7 q c hq hc1, hte c hc1, hte i hi]
            by_cases hic : i < c
            · rw [if_pos ⟨hip, hic⟩, if_pos ⟨by omega, hic⟩]
            · rw [if_neg (fun h => hic h.2), if_neg (fun h => hic h.2)]
          · intro htN r c hr1 hc1
            rw [b7 r c hr1 hc1]
            by_cases hh : i < r ∧ i < c
            · rw [if_pos hh]
              exact h2 _
            · rw [if_neg hh]
              exact htN r c hr1 hc1)
  refine ⟨s, hs, ?_⟩
  cases hst : s.stopped with
  | true => exact g2 hst
  | false =>
    have := (g3 hst).2 (by omega)
    omega

/-- The forward pass of `inverse` with rounded arithmetic on a matrix with two equal rows
takes the non-invertible exit. -/
theorem forwardRounded_equal_rows (rnd : ℚ → ℚ) (h0 : rnd 0 = 0) (h1 : rnd (-1) = -1)
    (h2 : ∀ y, rnd (-(rnd y)) = -(rnd y)) (A : Mat) (n p q : Nat) (hr : A.rows = n)
    (hc : A.cols = n) (hpq : p < q) (hq : q < n)
    (hA : ∀ r c, r < n → c < n → rnd (-(A.get r c)) = -(A.get r c))
    (heq : ∀ c, c < n → A.get p c = A.get q c) :
    forUp 0 n (forwardStepRounded rnd) (copy A, List.range n) = .error .notInvertible := by
  obtain ⟨hcs, hcg⟩ := copy_spec A n hr hc
  rcases forUp_cases (b := forwardStepRounded rnd)
    (fun i (s : Mat × List Nat) => s.1.Square n ∧ s.1.RowsInv rnd n p q i)
    (fun e => e = .notInvertible)
    (l := 0) (h := n) (s := (copy A, List.range n)) (Nat.zero_le _)
    ⟨hcs, fun _ => ⟨fun c hc1 => by
        show (copy A).get p c = (copy A).get q c
        rw [hcg p c (by omega) hc1, hcg q c hq hc1]
        exact heq c hc1,
      fun r c hr1 hc1 => by
        show rnd (-((copy A).get r c)) = -((copy A).get r c)
        rw [hcg r c hr1 hc1]
        exact hA r c hr1 hc1⟩, fun h => absurd h (by omega)⟩
    (by
      intro i s _ hi ⟨k1, k3⟩
      obtain ⟨lu, perms⟩ := s
      obtain ⟨bv, bc, t, u, b1, b2, b3, b4, b5, b6, b7, b8⟩ :=
        forwardStepRounded_spec rnd lu perms n i k1 hi
      rw [b8]
      by_cases hz : bv < epsilon
      · rw [if_pos hz]
        exact Or.inr ⟨_, rfl, rfl⟩
      · rw [if_neg hz]
        refine Or.inl ⟨_, rfl, b5, ?_⟩
        refine rowsInv_step rnd h0 h1 lu t u n p q i bc hpq hq hi b1 b2 b6
          (by rw [← b3]; exact not_lt.mp hz) ?_ ?_ ?_ k3
        · intro r c hr1 hc1 hir hic
          rw [b7 r c hr1 hc1, if_pos hir, if_neg (by omega)]
        · intro hip hte c hc1
          have hiq : i < q := by omega
          rw [b7 p c (by omega) hc1, b7 q c hq hc1, hte c hc1, hte i hi]
          simp only [hip, hiq, if_true]
        · intro htN r c hr1 hc1
          rw [b7 r c hr1 hc1]
          by_cases hh : i < r
          · rw [if_pos hh]
            by_cases hci : c = i
            · rw [if_pos hci]
              exact h2 _
            · rw [if_neg hci]
              exact h2 _
          · rw [if_neg hh]
            exact htN r c hr1 hc1) with ⟨s, _, _, g3⟩ | ⟨e, he, hE⟩
  · have := (g3.2 (by omega)).1
    omega
  · rw [he, hE]

/-- In double arithmetic `abs` computes exactly `0` on an `n x n` matrix of doubles with
two equal rows. -/
theorem absRounded_equal_rows (A : Mat) (n : Nat) (hr : A.rows = n) (hc : A.cols = n)
    (hA : ∀ r c, r < n → c < n → roundDouble (A.get r c) = A.get r c)
    (hrows : ∃ p q, p < n ∧ q < n ∧ p ≠ q ∧ ∀ c, c < n → A.get p c = A.get q c) :
    A.absRounded roundDouble = .ok 0 := by
  have hN : ∀ r c, r < n → c < n → roundDouble (-(A.get r c)) = -(A.get r c) := by
    intro r c hr1 hc1
    rw [← hA r c hr1 hc1]
    exact roundDouble_neg_round _
  obtain ⟨p, q, hp, hq, hpq, heq⟩ := hrows
  have key : ∃ s, absLoopRounded roundDouble A = .ok s ∧ s.det = 0 := by
    rcases Nat.lt_or_gt_of_ne hpq with h | h
    · exact absLoopRounded_equal_rows roundDouble roundDouble_zero roundDouble_examples.2.2.1
        roundDouble_neg_round A n p q hr hc h hq hN heq
    · exact absLoopRounded_equal_rows roundDouble roundDouble_zero roundDouble_examples.2.2.1
        roundDouble_neg_round A n q p hr hc h hp hN (fun c hc1 => (heq c hc1).symm)
  obtain ⟨s, hs, hd⟩ := key
  unfold Mat.absRounded
  rw [hs, ← hd]

/-- In double arithmetic `inverse` takes the non-invertible exit on an `n x n` matrix of
doubles with two equal rows. -/
theorem inverseRounded_equal_rows (A : Mat) (n : Nat) (hr : A.rows = n) (hc : A.cols = n)
    (hA : ∀ r c, r < n → c < n → roundDouble (A.get r c) = A.get r c)
    (hrows : ∃ p q, p < n ∧ q < n ∧ p ≠ q ∧ ∀ c, c < n → A.get p c = A.get q c) :
    inverseRounded roundDouble A = .error .notInvertible := by
  have hN : ∀ r c, r < n → c < n → roundDouble (-(A.get r c)) = -(A.get r c) := by
    intro r c hr1 hc1
    rw [← hA r c hr1 hc1]
    exact roundDouble_neg_round _
  obtain ⟨p, q, hp, hq, hpq, heq⟩ := hrows
  have key : forUp 0 n (forwardStepRounded roundDouble) (copy A, List.range n) =
      .error .notInvertible := by
    rcases Nat.lt_or_gt_of_ne hpq with h | h
    · exact forwardRounded_equal_rows roundDouble roundDouble_zero roundDouble_examples.2.2.1
        roundDouble_neg_round A n p q hr hc h hq hN heq
    · exact forwardRounded_equal_rows roundDouble roundDouble_zero roundDouble_examples.2.2.1
        roundDouble_neg_round A n q p hr hc h hp hN (fun c hc1 => (heq c hc1).symm)
  have hne : ¬ A.rows ≠ A.cols := by rw [hr, hc]; simp
  have hcopy : (copy A).cols = n := (copy_spec A n hr hc).1.2.1
  unfold inverseRounded
  rw [if_neg hne]
  simp only [hcopy, hc, key, bind, Except.bind]

/-! ## Singular matrices -/

set_option maxRecDepth 100000 in
set_option maxHeartbeats 4000000 in
/-- C3 fails as stated. The matrix `[[7,7],[29,29]]` has two equal columns and
determinant `0`, and its entries are doubles. In double arithmetic the factor `-29/7` is
rounded, the second pivot becomes `-2^-48` instead of `0`, which is not below the machine
epsilon, and `inverse` returns a matrix. -/
theorem inverse_returns_on_singular :
    ((⟨[7, 7, 29, 29], 2, 2⟩ : Mat).toMatrix 2).det = 0 ∧
    (∀ r, r < 2 →
      (⟨[7, 7, 29, 29], 2, 2⟩ : Mat).get r 0 = (⟨[7, 7, 29, 29], 2, 2⟩ : Mat).get r 1) ∧
    roundDouble 7 = 7 ∧ roundDouble 29 = 29 ∧
    inverseRounded roundDouble ⟨[7, 7, 29, 29], 2, 2⟩ =
      .ok ⟨[-1166110617801289, 2 ^ 48, 4664442471205157 / 4, -2 ^ 48], 2, 2⟩ := by
  refine ⟨?_, ?_, ?_, ?_, ?_⟩
  · norm_num [Matrix.det_fin_two, Mat.toMatrix, Mat.get, Mat.load]
  · intro r hr
    interval_cases r <;> norm_num [Mat.get, Mat.load]
  · norm_num [roundDouble, binade, roundHalfEven, DBL_MANT_DIG, DBL_MIN_EXPONENT,
      abs_eq_max_neg, max_def]
  · norm_num [roundDouble, binade, roundHalfEven, DBL_MANT_DIG, DBL_MIN_EXPONENT,
      abs_eq_max_neg, max_def]
  · norm_num [inverseRounded, forwardStepRounded, forwardRowRounded, backwardStepRounded,
      backwardRowRounded, assembleRounded, addScaledRowRounded, roundDouble, binade,
      roundHalfEven, DBL_MANT_DIG, DBL_MIN_EXPONENT, unpermute, memcpy, zeroFill, copy,
      create_matrix, pivot, pivotScan, swapColumns, swapPerms, forUp, forUpAux, forDown,
      Mat.at_, Mat.ref, Mat.load, Mat.assign, Mat.store, epsilon, PIVOT_CLOSE_TO_ZERO,
      PIVOT_SWAPPED, bind, Except.bind, pure, Except.pure, List.range, List.range.loop,
      List.replicate, abs_eq_max_neg, max_def]

/-- C3 as amended. Over exact arithmetic, on a singular `n x n` matrix (determinant `0`;
in particular two equal rows or two equal columns) `inverse` does not return a value: a
pivot step reports near-zero and the non-invertible exit is taken, unless the allocation
of the working copy or of `perms` fails first and the program exits there. In double
arithmetic `inverse` takes the non-invertible exit on every matrix of doubles with two
equal rows, on `[[1,2],[2,4]]` and on the `1 x 1` matrix `[[0]]`. -/
theorem inverse_singular_fails (A : Mat) (n : Nat) (hr : A.rows = n) (hc : A.cols = n)
    (hsing : (A.toMatrix n).det = 0 ∨
      (∃ p q, p < n ∧ q < n ∧ p ≠ q ∧ ∀ c, c < n → A.get p c = A.get q c) ∨
      (∃ p q, p < n ∧ q < n ∧ p ≠ q ∧ ∀ r, r < n → A.get r p = A.get r q))
    (malloc : Nat → Nat → Option Nat) (allocator : Allocator) :
    inverse A = .error .notInvertible ∧
    (inverseAlloc malloc allocator A = .error .notInvertible ∨
      inverseAlloc malloc allocator A = .error .allocation) ∧
    ((∃ r, create_matrix_alloc (malloc 0) n n allocator = .ok r) →
      (∃ p, malloc 1 (n * SIZEOF_SIZE_T % SIZE_MODULUS) = some p) →
      inverseAlloc malloc allocator A = .error .notInvertible) ∧
    ((∀ r c, r < n → c < n → roundDouble (A.get r c) = A.get r c) →
      (∃ p q, p < n ∧ q < n ∧ p ≠ q ∧ ∀ c, c < n → A.get p c = A.get q c) →
      inverseRounded roundDouble A = .error .notInvertible) ∧
    inverseRounded roundDouble ⟨[1, 2, 2, 4], 2, 2⟩ = .error .notInvertible ∧
    inverseRounded roundDouble ⟨[0], 1, 1⟩ = .error .notInvertible := by
  have hinv := inverse_det_zero A n hr hc (singular_det A n hsing)
  have hspec := inverseAlloc_spec A n hr hc malloc allocator
  rw [hinv] at hspec
  refine ⟨hinv, ?_, ?_, inverseRounded_equal_rows A n hr hc,
    singular_examples_rounded.2.2.1, singular_examples_rounded.2.2.2⟩
  · rw [hspec]
    cases create_matrix_alloc (malloc 0) n n allocator with
    | error e => exact Or.inr rfl
    | ok r =>
      cases malloc 1 (n * SIZEOF_SIZE_T % SIZE_MODULUS) with
      | none => exact Or.inr rfl
      | some p => exact Or.inl rfl
  · rintro ⟨r, h1⟩ ⟨p, h2⟩
    rw [hspec, h1]
    simp only [h2]

set_option maxRecDepth 100000 in
/-- C3 as amended, at `[[1,2],[2,4]]` with an arena of 64 bytes, at the `1 x 1` matrix
`[[0]]` when `std::malloc` fails, at `[[1,1],[3,3]]` with its two equal columns, and at
`[[1,2],[1,2]]` with its two equal rows in double arithmetic. -/
theorem inverse_singular_fails_witness :
    ((⟨[1, 2, 2, 4], 2, 2⟩ : Mat).toMatrix 2).det = 0 ∧
    inverse ⟨[1, 2, 2, 4], 2, 2⟩ = .error .notInvertible ∧
    inverseAlloc (fun _ _ => some 0) (.Linear ⟨0, 64⟩) ⟨[1, 2, 2, 4], 2, 2⟩ =
      .error .notInvertible ∧
    (inverseAlloc (fun _ _ => none) .Standard ⟨[0], 1, 1⟩ = .error .notInvertible ∨
      inverseAlloc (fun _ _ => none) .Standard ⟨[0], 1, 1⟩ = .error .allocation) ∧
    inverse ⟨[1, 1, 3, 3], 2, 2⟩ = .error .notInvertible ∧
    inverseRounded roundDouble ⟨[1, 2, 1, 2], 2, 2⟩ = .error .notInvertible := by
  have h1 : ((⟨[1, 2, 2, 4], 2, 2⟩ : Mat).toMatrix 2).det = 0 := by
    norm_num [Matrix.det_fin_two, Mat.toMatrix, Mat.get, Mat.load]
  have h2 : ((⟨[0], 1, 1⟩ : Mat).toMatrix 1).det = 0 := by
    norm_num [Matrix.det_unique, Mat.toMatrix, Mat.get, Mat.load]
  have h3 : ∀ r, r < 2 →
      (⟨[1, 1, 3, 3], 2, 2⟩ : Mat).get r 0 = (⟨[1, 1, 3, 3], 2, 2⟩ : Mat).get r 1 := by
    intro r hr
    interval_cases r <;> norm_num [Mat.get, Mat.load]
  have h4 : ∀ c, c < 2 →
      (⟨[1, 2, 1, 2], 2, 2⟩ : Mat).get 0 c = (⟨[1, 2, 1, 2], 2, 2⟩ : Mat).get 1 c := by
    intro c hc
    interval_cases c <;> norm_num [Mat.get, Mat.load]
  have h5 : ∀ r c, r < 2 → c < 2 →
      roundDouble ((⟨[1, 2, 1, 2], 2, 2⟩ : Mat).get r c) =
        (⟨[1, 2, 1, 2], 2, 2⟩ : Mat).get r c := by
    intro r c hr hc
    interval_cases r <;> interval_cases c <;>
      norm_num [Mat.get, Mat.load, roundDouble, binade, roundHalfEven, DBL_MANT_DIG,
        DBL_MIN_EXPONENT, abs_eq_max_neg, max_def]
  have w1 := inverse_singular_fails ⟨[1, 2, 2, 4], 2, 2⟩ 2 rfl rfl (Or.inl h1)
    (fun _ _ => some 0) (.Linear ⟨0, 64⟩)
  have w2 := inverse_singular_fails ⟨[0], 1, 1⟩ 1 rfl rfl (Or.inl h2)
    (fun _ _ => none) .Standard
  have w3 := inverse_singular_fails ⟨[1, 1, 3, 3], 2, 2⟩ 2 rfl rfl
    (Or.inr (Or.inr ⟨0, 1, by decide, by decide, by decide, h3⟩)) (fun _ _ => none) .Standard
  have w4 := inverse_singular_fails ⟨[1, 2, 1, 2], 2, 2⟩ 2 rfl rfl
    (Or.inr (Or.inl ⟨0, 1, by decide, by decide, by decide, h4⟩)) (fun _ _ => none) .Standard
  exact ⟨h1, w1.1, w1.2.2.1 ⟨_, rfl⟩ ⟨_, rfl⟩, w2.2.1, w3.1,
    w4.2.2.2.1 h5 ⟨0, 1, by decide, by decide, by decide, h4⟩⟩

set_option maxRecDepth 100000 in
set_option maxHeartbeats 4000000 in
/-- C4 fails as stated. The matrix `[[7,7],[29,29]]` has two equal columns and
determinant `0`, and its entries are doubles. In double arithmetic the factor `-29/7` is
rounded, the second pivot is `-2^-48`, which is not below the machine epsilon, and `abs`
returns `7 * -2^-48 = -112 * 2^-52`, not `0`. -/
theorem abs_nonzero_on_singular :
    ((⟨[7, 7, 29, 29], 2, 2⟩ : Mat).toMatrix 2).det = 0 ∧
    (∀ r, r < 2 →
      (⟨[7, 7, 29, 29], 2, 2⟩ : Mat).get r 0 = (⟨[7, 7, 29, 29], 2, 2⟩ : Mat).get r 1) ∧
    roundDouble 7 = 7 ∧ roundDouble 29 = 29 ∧
    absLoopRounded roundDouble ⟨[7, 7, 29, 29], 2, 2⟩ =
      .ok ⟨⟨[7, 7, 29, -1 / 2 ^ 48], 2, 2⟩, -112 / 2 ^ 52, false⟩ ∧
    (⟨[7, 7, 29, 29], 2, 2⟩ : Mat).absRounded roundDouble = .ok (-112 / 2 ^ 52) ∧
    (-112 / 2 ^ 52 : ℚ) ≠ 0 := by
  have h : absLoopRounded roundDouble ⟨[7, 7, 29, 29], 2, 2⟩ =
      .ok ⟨⟨[7, 7, 29, -1 / 2 ^ 48], 2, 2⟩, -112 / 2 ^ 52, false⟩ := by
    norm_num [absLoopRounded, absStepRounded, absRowRounded,
      addScaledRowRounded, roundDouble, binade, roundHalfEven, DBL_MANT_DIG,
      DBL_MIN_EXPONENT, copy, create_matrix, pivot, pivotScan, swapColumns, forUp, forUpAux,
      Mat.at_, Mat.ref, Mat.load, Mat.assign, Mat.store, epsilon, PIVOT_CLOSE_TO_ZERO,
      PIVOT_SWAPPED, bind, Except.bind, pure, Except.pure, List.range, List.range.loop,
      List.replicate, abs_eq_max_neg, max_def]
  refine ⟨?_, ?_, ?_, ?_, h, ?_, ?_⟩
  · norm_num [Matrix.det_fin_two, Mat.toMatrix, Mat.get, Mat.load]
  · intro r hr
    interval_cases r <;> norm_num [Mat.get, Mat.load]
  · norm_num [roundDouble, binade, roundHalfEven, DBL_MANT_DIG, DBL_MIN_EXPONENT,
      abs_eq_max_neg, max_def]
  · norm_num [roundDouble, binade, roundHalfEven, DBL_MANT_DIG, DBL_MIN_EXPONENT,
      abs_eq_max_neg, max_def]
  · unfold Mat.absRounded
    rw [h]
  · norm_num

/-- C4 as amended. Over exact arithmetic, on a singular `n x n` matrix (determinant `0`;
in particular two equal rows or two equal columns) the value computed by `abs` is exactly
`0`, whenever the allocation of the working copy succeeds; when it fails the program
exits in `create_matrix`. In double arithmetic `abs` computes exactly `0` on every matrix
of doubles with two equal rows, on `[[1,2],[2,4]]` and on the `1 x 1` matrix `[[0]]`. -/
theorem abs_singular_zero (A : Mat) (n : Nat) (hr : A.rows = n) (hc : A.cols = n)
    (hsing : (A.toMatrix n).det = 0 ∨
      (∃ p q, p < n ∧ q < n ∧ p ≠ q ∧ ∀ c, c < n → A.get p c = A.get q c) ∨
      (∃ p q, p < n ∧ q < n ∧ p ≠ q ∧ ∀ r, r < n → A.get r p = A.get r q))
    (malloc : Nat → Nat → Option Nat) (allocator : Allocator) :
    A.abs = .ok 0 ∧
    ((∃ r, create_matrix_alloc (malloc 0) n n allocator = .ok r ∧
        A.absAlloc malloc allocator = .ok (0, r.2)) ∨
      (create_matrix_alloc (malloc 0) n n allocator = .error .allocation ∧
        A.absAlloc malloc allocator = .error .allocation)) ∧
    ((∀ r c, r < n → c < n → roundDouble (A.get r c) = A.get r c) →
      (∃ p q, p < n ∧ q < n ∧ p ≠ q ∧ ∀ c, c < n → A.get p c = A.get q c) →
      A.absRounded roundDouble = .ok 0) ∧
    (⟨[1, 2, 2, 4], 2, 2⟩ : Mat).absRounded roundDouble = .ok 0 ∧
    (⟨[0], 1, 1⟩ : Mat).absRounded roundDouble = .ok 0 := by
  have habs := abs_det_zero A n hr hc (singular_det A n hsing)
  have hspec := absAlloc_spec A n hr hc malloc allocator
  rw [habs] at hspec
  refine ⟨habs, ?_, absRounded_equal_rows A n hr hc, singular_examples_rounded.1,
    singular_examples_rounded.2.1⟩
  rw [hspec]
  cases hcm : create_matrix_alloc (malloc 0) n n allocator with
  | error e =>
    have := create_matrix_alloc_error _ _ _ _ _ hcm
    subst this
    exact Or.inr ⟨rfl, rfl⟩
  | ok r => exact Or.inl ⟨r, rfl, rfl⟩

set_option maxRecDepth 100000 in
/-- C4 as amended, at `[[1,2],[2,4]]` with an arena of 64 bytes, at the `1 x 1` matrix
`[[0]]` when `std::malloc` fails, and at `[[1,2],[1,2]]` with its two equal rows, in exact
and in double arithmetic. -/
theorem abs_singular_zero_witness :
    ((⟨[1, 2, 2, 4], 2, 2⟩ : Mat).toMatrix 2).det = 0 ∧
    (⟨[1, 2, 2, 4], 2, 2⟩ : Mat).abs = .ok 0 ∧
    (⟨[1, 2, 2, 4], 2, 2⟩ : Mat).absAlloc (fun _ _ => none) (.Linear ⟨0, 64⟩) =
      .ok (0, .Linear ⟨32, 64⟩) ∧
    (⟨[0], 1, 1⟩ : Mat).absAlloc (fun _ _ => none) .Standard = .error .allocation ∧
    (⟨[1, 2, 1, 2], 2, 2⟩ : Mat).abs = .ok 0 ∧
    (⟨[1, 2, 1, 2], 2, 2⟩ : Mat).absRounded roundDouble = .ok 0 := by
  have h1 : ((⟨[1, 2, 2, 4], 2, 2⟩ : Mat).toMatrix 2).det = 0 := by
    norm_num [Matrix.det_fin_two, Mat.toMatrix, Mat.get, Mat.load]
  have h2 : ((⟨[0], 1, 1⟩ : Mat).toMatrix 1).det = 0 := by
    norm_num [Matrix.det_unique, Mat.toMatrix, Mat.get, Mat.load]
  have h3 : ∀ c, c < 2 →
      (⟨[1, 2, 1, 2], 2, 2⟩ : Mat).get 0 c = (⟨[1, 2, 1, 2], 2, 2⟩ : Mat).get 1 c := by
    intro c hc
    interval_cases c <;> norm_num [Mat.get, Mat.load]
  have h5 : ∀ r c, r < 2 → c < 2 →
      roundDouble ((⟨[1, 2, 1, 2], 2, 2⟩ : Mat).get r c) =
        (⟨[1, 2, 1, 2], 2, 2⟩ : Mat).get r c := by
    intro r c hr hc
    interval_cases r <;> interval_cases c <;>
      norm_num [Mat.get, Mat.load, roundDouble, binade, roundHalfEven, DBL_MANT_DIG,
        DBL_MIN_EXPONENT, abs_eq_max_neg, max_def]
  have w1 := abs_singular_zero ⟨[1, 2, 2, 4], 2, 2⟩ 2 rfl rfl (Or.inl h1)
    (fun _ _ => none) (.Linear ⟨0, 64⟩)
  have w2 := abs_singular_zero ⟨[0], 1, 1⟩ 1 rfl rfl (Or.inl h2) (fun _ _ => none) .Standard
  have w3 := abs_singular_zero ⟨[1, 2, 1, 2], 2, 2⟩ 2 rfl rfl
    (Or.inr (Or.inl ⟨0, 1, by decide, by decide, by decide, h3⟩)) (fun _ _ => none) .Standard
  refine ⟨h1, w1.1, ?_, ?_, w3.1, w3.2.2.1 h5 ⟨0, 1, by decide, by decide, by decide, h3⟩⟩
  · have e3 : create_matrix_alloc ((fun _ _ => none : Nat → Nat → Option Nat) 0) 2 2
        (.Linear ⟨0, 64⟩) = .ok (⟨0, 2, 2⟩, .Linear ⟨32, 64⟩) := rfl
    rcases w1.2.1 with ⟨r, e1, e2⟩ | ⟨e1, -⟩
    · have e := e3.symm.trans e1
      cases e
      exact e2
    · have e := e3.symm.trans e1
      cases e
  · have e4 : create_matrix_alloc ((fun _ _ => none : Nat → Nat → Option Nat) 0) 1 1
        .Standard = .error .allocation := rfl
    rcases w2.2.1 with ⟨r, e1, -⟩ | ⟨-, e2⟩
    · have e := e4.symm.trans e1
      cases e
    · exact e2

end Matrices
